import Mathlib

/-!
# cpptree: ownership, reparenting and path queries of `BaseNode`

A shallow embedding of `src/src/cppTreeNode.cpp` and `src/include/cppTreeNode.h`.

* A `std::string` is its list of characters.
* Objects live in a heap, a list of `BaseNode` records; a pointer is an index into
  that list and `nullptr` is `none`. Every node created stays alive: the callers
  of `create` keep their `shared_ptr`, so no destructor runs behind the scenes.
  The body of `~BaseNode` is the function `destructor`, run on a node of the heap;
  it tells what the body does to the children, the node keeps its place in the list.
* The class an object was created as is kept with it; it decides which override of a
  virtual function runs (`isValidParent` is overridden by the `TestNode` of
  `test/main.cpp`).
* `std::hash<std::string>` belongs to the standard library, not to the repository;
  every definition that hashes takes it as the parameter `hash`.
* The virtual hooks `onChildChange`, `onParentChange` and `onSubChildChange` do
  nothing in `BaseNode`; a call of a hook is recorded in the `log` of the state.
* A call yields `none` when it has no result: the upward propagation does not come
  back within `fuel` nested calls, or a pointer that is not a live node is
  dereferenced. In a search over the children a pointer that is not a live node
  matches nothing; the reachable states hold no such pointer (`Inv.valid`).
-/

namespace cpptree

/-! ## Strings -/

/-- `std::string::find(c, pos)`: the first index at or after `pos` that holds `c`;
`none` stands for `npos`. -/
def find : List Char → Char → Nat → Option Nat
  | [], _, _ => none
  | x :: xs, c, 0 => if x = c then some 0 else (find xs c 0).map (· + 1)
  | _ :: xs, c, pos + 1 => (find xs c pos).map (· + 1)

/-- `s.replace(s.begin() + pos, s.begin() + pos + 1, r)`: the one character at `pos`
gives way to `r`. -/
def replace (s : List Char) (pos : Nat) (r : List Char) : List Char :=
  s.take pos ++ r ++ s.drop (pos + 1)

/-- `s.substr(pos, n)`. -/
def substr (s : List Char) (pos n : Nat) : List Char :=
  (s.drop pos).take n

/-- `s.substr(pos)`. -/
def substrFrom (s : List Char) (pos : Nat) : List Char :=
  s.drop pos

/-- One character as the constructor is to store it: `/` becomes `_`. -/
def underscore (c : Char) : Char := if c = '/' then '_' else c

/-- The `while (slashIterator != npos)` loop of the constructor `BaseNode::BaseNode`:
the character at `slashIterator` is replaced by an underscore and the search goes on
right after it. -/
def sanitizeLoop (m_name : List Char) (slashIterator : Option Nat) : List Char :=
  match slashIterator with
  | none => m_name
  | some it =>
    sanitizeLoop (replace m_name it ['_']) (find (replace m_name it ['_']) '/' (it + 1))
termination_by (match slashIterator with
  | none => 0
  | some it => (m_name.length - it) + 1)
decreasing_by
  have hbounds : ∀ (s : List Char) (c : Char) (pos i : Nat),
      find s c pos = some i → pos ≤ i ∧ i < s.length := by
    intro s c
    induction s with
    | nil => intro pos i h; simp [find] at h
    | cons x xs ih =>
      intro pos i h
      cases pos with
      | zero =>
        by_cases hx : x = c
        · simp [find, hx] at h; subst h; simp
        · simp only [find, hx, if_false, Option.map_eq_some'] at h
          obtain ⟨j, hj, rfl⟩ := h
          have := ih 0 j hj
          simp only [List.length_cons]; omega
      | succ p =>
        simp only [find, Option.map_eq_some'] at h
        obtain ⟨j, hj, rfl⟩ := h
        have := ih p j hj
        simp only [List.length_cons]; omega
  cases hf : find (replace m_name it ['_']) '/' (it + 1) with
  | none => simp
  | some j =>
    have hb := hbounds _ _ _ _ hf
    by_cases hlt : it < m_name.length
    · have hl : (replace m_name it ['_']).length = m_name.length := by
        simp [replace, List.length_take, List.length_drop]; omega
      simp only [hl] at hb ⊢
      omega
    · have hl : (replace m_name it ['_']).length = m_name.length + 1 := by
        simp [replace, List.length_take, List.length_drop]; omega
      simp only [hl] at hb ⊢
      omega

/-! ## Data model -/

/-- A pointer to a node: its index in the heap. -/
abbrev NodeId := Nat

/-- The classes of the repository: `BaseNode`, `Node`, `RestrictiveNode`
(`cppTreeNode.h`) and the `TestNode` of `test/main.cpp`. A `RestrictiveNode` comes
with its `m_settings`, which its constructor sets and nothing changes. -/
inductive NodeClass where
  | BaseNode
  | Node
  | RestrictiveNode (allow_addtype allow_remtype : List (List Char))
  | TestNode
  deriving DecidableEq, Repr

/-- `BaseNode::Change`. -/
inductive Change where
  | ADD
  | REMOVE
  deriving DecidableEq, Repr

/-- One call of a virtual hook: the node it is called on, the kind of change and the
node handed over. -/
inductive Event where
  | onChildChange (receiver : NodeId) (type : Change) (child : NodeId)
  | onParentChange (receiver : NodeId) (type : Change) (newParent : NodeId)
  | onSubChildChange (receiver : NodeId) (type : Change) (child : NodeId)
  deriving DecidableEq, Repr

/-- The data members of `BaseNode`, and the class the object was created as. -/
structure BaseNode where
  m_children : List NodeId
  m_name : List Char
  m_nameHash : Nat
  m_previousParents : List NodeId
  m_parent : Option NodeId
  cls : NodeClass
  deriving DecidableEq, Repr

/-- The objects alive, by address. -/
abbrev Heap := List BaseNode

/-- The heap and the hook calls made so far, oldest first. -/
structure State where
  heap : Heap
  log : List Event
  deriving DecidableEq, Repr

/-- Writes through a pointer: the node at `i` becomes `f` of itself. -/
def modifyNode (h : Heap) (i : NodeId) (f : BaseNode → BaseNode) : Heap :=
  match h[i]? with
  | some n => h.set i (f n)
  | none => h

/-- `child->m_nameHash` read through a pointer. -/
def nameHashOf (h : Heap) (child : NodeId) : Option Nat :=
  (h[child]?).map (·.m_nameHash)

/-- `child->m_name` read through a pointer. -/
def nameOf (h : Heap) (child : NodeId) : Option (List Char) :=
  (h[child]?).map (·.m_name)

/-! ## Construction -/

/-- `BaseNode::BaseNode(name)`: the stored name is the input with the loop run over
it, the hash is taken of the input. -/
def BaseNode.new (hash : List Char → Nat) (cls : NodeClass) (name : List Char) : BaseNode :=
  { m_children := []
    m_name := sanitizeLoop name (find name '/' 0)
    m_nameHash := hash name
    m_previousParents := []
    m_parent := none
    cls := cls }

/-- `T::create(name)`: a new object at the next free address; the pointer to it is
returned with the state. -/
def create (hash : List Char → Nat) (s : State) (cls : NodeClass) (name : List Char) :
    NodeId × State :=
  (s.heap.length, { s with heap := s.heap ++ [BaseNode.new hash cls name] })

/-- `getName()`. -/
def getName (h : Heap) (this : NodeId) : Option (List Char) := nameOf h this

/-! ## Ownership and reparenting -/

/-- `isValidParent(parent)` called on `this`, by the class of `this`: `TestNode`
overrides it to accept everything, the others keep `parent != this`. -/
def isValidParent (cls : NodeClass) (this parent : NodeId) : Bool :=
  match cls with
  | NodeClass.TestNode => true
  | _ => parent != this

/-- `std::find_if` over the children for the first one whose `m_nameHash` is
`nameHash`: its position. -/
def findChildByHash (h : Heap) (children : List NodeId) (nameHash : Nat) : Option Nat :=
  children.findIdx? (fun child => nameHashOf h child == some nameHash)

/-- Two runs of hook calls one after the other; no result when either has none. -/
def andThen (first second : Option (List Event)) : Option (List Event) :=
  match first, second with
  | some e1, some e2 => some (e1 ++ e2)
  | _, _ => none

/-- `BaseNode::propagateSubChildChange(type, child)` called on `this`: the hook calls
it makes, in order. For the current parent, then for each entry of the history, the
hook `onSubChildChange` is called on it and the propagation goes on from it. One unit
of `fuel` is spent per nested call. -/
def propagateSubChildChange : Nat → Heap → NodeId → Change → NodeId → Option (List Event)
  | 0, _, _, _, _ => none
  | fuel + 1, h, this, type, child =>
    match h[this]? with
    | none => none
    | some n =>
      andThen
        (match n.m_parent with
          | none => some []
          | some p =>
            (propagateSubChildChange fuel h p type child).map
              (fun evs => Event.onSubChildChange p type child :: evs))
        (n.m_previousParents.foldl
          (fun acc parent =>
            andThen acc
              ((propagateSubChildChange fuel h parent type child).map
                (fun evs => Event.onSubChildChange parent type child :: evs)))
          (some []))

/-- The child side of `addChild`: `if (newChild->m_parent)
newChild->m_previousParents.push_back(newChild->m_parent); newChild->m_parent = this;`. -/
def reparent (this : NodeId) (c : BaseNode) : BaseNode :=
  { c with
    m_previousParents :=
      match c.m_parent with
      | some q => c.m_previousParents ++ [q]
      | none => c.m_previousParents
    m_parent := some this }

/-- The parent side of `addChild`: `m_children.push_back(newChild)`. -/
def pushChild (newChild : NodeId) (p : BaseNode) : BaseNode :=
  { p with m_children := p.m_children ++ [newChild] }

/-- The part of `addChild` between the hooks and the propagation: the old parent of
the child goes onto its history, `this` becomes its parent and the child is appended
to the children of `this`. -/
def link (h : Heap) (this newChild : NodeId) : Heap :=
  modifyNode (modifyNode h newChild (reparent this)) this (pushChild newChild)

/-- `BaseNode::addChild(newChild)` called on `this`. -/
def addChild (fuel : Nat) (s : State) (this newChild : NodeId) : Option (Bool × State) :=
  match s.heap[this]?, s.heap[newChild]? with
  | some p, some c =>
    if !isValidParent c.cls newChild this then some (false, s)
    else if (findChildByHash s.heap p.m_children c.m_nameHash).isSome then some (false, s)
    else
      let log1 := s.log ++
        [Event.onChildChange this Change.ADD newChild,
         Event.onParentChange newChild Change.ADD this]
      let heap1 := link s.heap this newChild
      match propagateSubChildChange fuel heap1 this Change.ADD newChild with
      | none => none
      | some evs => some (true, { heap := heap1, log := log1 ++ evs })
  | _, _ => none

/-- What `removeChild` and the destructor do to the back references of a child of
`this`: when `this` is the current parent, the last entry of the history takes its
place (and leaves the history); otherwise the first entry equal to `this` is erased
from the history. `none` when `this` is neither. -/
def unlink (this : NodeId) (c : BaseNode) : Option BaseNode :=
  if c.m_parent = some this then
    some { c with
      m_parent := c.m_previousParents.getLast?
      m_previousParents := c.m_previousParents.dropLast }
  else if this ∈ c.m_previousParents then
    some { c with m_previousParents := c.m_previousParents.erase this }
  else none

/-- `BaseNode::removeChild(const std::string &name)` called on `this`. -/
def removeChild (hash : List Char → Nat) (fuel : Nat) (s : State) (this : NodeId)
    (name : List Char) : Option (Bool × State) :=
  match s.heap[this]? with
  | none => none
  | some p =>
    match findChildByHash s.heap p.m_children (hash name) with
    | none => some (false, s)
    | some i =>
      match p.m_children[i]? with
      | none => none
      | some localNode =>
        match s.heap[localNode]? with
        | none => none
        | some c =>
          match unlink this c with
          | none => some (false, s)
          | some c' =>
            let heap1 := s.heap.set localNode c'
            let log1 := s.log ++
              [Event.onChildChange this Change.REMOVE localNode,
               Event.onParentChange localNode Change.REMOVE this]
            match propagateSubChildChange fuel heap1 this Change.REMOVE localNode with
            | none => none
            | some evs =>
              some (true,
                { heap := modifyNode heap1 this
                    (fun p => { p with m_children := p.m_children.eraseIdx i })
                  log := log1 ++ evs })

/-- `BaseNode::removeChild(const std::shared_ptr<BaseNode> &node)` called on `this`.
Erasing at `end()`, when `node` is not among the children, has no defined result. -/
def removeChildNode (fuel : Nat) (s : State) (this node : NodeId) : Option (Bool × State) :=
  match s.heap[this]?, s.heap[node]? with
  | some _, some c =>
    match unlink this c with
    | none => some (false, s)
    | some c' =>
      let heap1 := s.heap.set node c'
      let log1 := s.log ++
        [Event.onChildChange this Change.REMOVE node,
         Event.onParentChange node Change.REMOVE this]
      match propagateSubChildChange fuel heap1 this Change.REMOVE node with
      | none => none
      | some evs =>
        match heap1[this]? with
        | none => none
        | some p =>
          if node ∈ p.m_children then
            some (true,
              { heap := heap1.set this { p with m_children := p.m_children.erase node }
                log := log1 ++ evs })
          else none
  | _, _ => none

/-- `BaseNode::countParents()`. -/
def countParents (h : Heap) (this : NodeId) : Option Nat :=
  (h[this]?).map (fun n => n.m_previousParents.length + (if n.m_parent.isSome then 1 else 0))

/-! ## Queries -/

/-- `BaseNode::getNodeByPath(path)` called on `this`; `none` is `nullptr`. A path
without separator is looked up among the children by stored name, otherwise the
part before the first separator is looked up by its hash and the rest is resolved
below the child found. -/
def getNodeByPath (hash : List Char → Nat) (h : Heap) (this : NodeId) (path : List Char) :
    Option NodeId :=
  match h[this]? with
  | none => none
  | some n =>
    match hf : find path '/' 0 with
    | none => n.m_children.find? (fun child => nameOf h child == some path)
    | some firstSlash =>
      match n.m_children.find?
          (fun child => nameHashOf h child == some (hash (substr path 0 firstSlash))) with
      | none => none
      | some containingChild =>
        getNodeByPath hash h containingChild (substrFrom path (firstSlash + 1))
termination_by path.length
decreasing_by
  have hbounds : ∀ (s : List Char) (c : Char) (pos i : Nat),
      find s c pos = some i → pos ≤ i ∧ i < s.length := by
    intro s c
    induction s with
    | nil => intro pos i h; simp [find] at h
    | cons x xs ih =>
      intro pos i h
      cases pos with
      | zero =>
        by_cases hx : x = c
        · simp [find, hx] at h; subst h; simp
        · simp only [find, hx, if_false, Option.map_eq_some'] at h
          obtain ⟨j, hj, rfl⟩ := h
          have := ih 0 j hj
          simp only [List.length_cons]; omega
      | succ p =>
        simp only [find, Option.map_eq_some'] at h
        obtain ⟨j, hj, rfl⟩ := h
        have := ih p j hj
        simp only [List.length_cons]; omega
  have hb := hbounds _ _ _ _ hf
  simp only [substrFrom, List.length_drop]
  omega

/-- `BaseNode::getNodesByNameHash(nameHash, depth)` called on `this`. -/
def getNodesByNameHash (h : Heap) : NodeId → Nat → Nat → List NodeId
  | _, _, 0 => []
  | this, nameHash, depth + 1 =>
    match h[this]? with
    | none => []
    | some n =>
      n.m_children.flatMap (fun child =>
        (if nameHashOf h child = some nameHash then [child] else []) ++
          getNodesByNameHash h child nameHash depth)

/-- The default argument `~0` of the `unsigned int depth` parameters. -/
def unboundedDepth : Nat := 2 ^ 32 - 1

/-! ## Trees and reachable states -/

/-- No path of child links that starts at `this` has more than `k` links: the
subtree below `this` is a finite tree of height at most `k`. -/
def heightAtMost (h : Heap) : Nat → NodeId → Bool
  | 0, this =>
    match h[this]? with
    | none => true
    | some n => n.m_children.isEmpty
  | k + 1, this =>
    match h[this]? with
    | none => true
    | some n => n.m_children.all (fun child => heightAtMost h k child)

/-- The states a program gets to: it starts with no objects, creates nodes and calls
`addChild` and the two `removeChild` on them; a call counts once it has returned,
with either result. -/
inductive Reachable (hash : List Char → Nat) : State → Prop where
  | init : Reachable hash { heap := [], log := [] }
  | create {s : State} (cls : NodeClass) (name : List Char) :
      Reachable hash s → Reachable hash (create hash s cls name).2
  | addChild {s s' : State} {fuel : Nat} {this newChild : NodeId} {b : Bool} :
      Reachable hash s → addChild fuel s this newChild = some (b, s') → Reachable hash s'
  | removeChild {s s' : State} {fuel : Nat} {this : NodeId} {name : List Char} {b : Bool} :
      Reachable hash s → removeChild hash fuel s this name = some (b, s') →
      Reachable hash s'
  | removeChildNode {s s' : State} {fuel : Nat} {this node : NodeId} {b : Bool} :
      Reachable hash s → removeChildNode fuel s this node = some (b, s') →
      Reachable hash s'

/-- The parents a node knows of: the history, oldest first, then the current one. -/
def parentsOf (n : BaseNode) : List NodeId :=
  n.m_previousParents ++ n.m_parent.toList

/-- The nodes of the heap that hold `child` in their `m_children`. -/
def ownersOf (h : Heap) (child : NodeId) : List NodeId :=
  (List.range h.length).filter (fun x =>
    match h[x]? with
    | some n => decide (child ∈ n.m_children)
    | none => false)

/-- The children of the node at `x`; none for a pointer that is not a live node. -/
def childrenOf (h : Heap) (x : NodeId) : List NodeId :=
  match h[x]? with
  | some n => n.m_children
  | none => []

/-- The parents the node at `x` knows of; none for a pointer that is not a live node. -/
def parentsIn (h : Heap) (x : NodeId) : List NodeId :=
  match h[x]? with
  | some n => parentsOf n
  | none => []

/-! ## Vocabulary of the proofs -/

/-- The propagation that starts at `x` comes back: some amount of fuel is enough. -/
def Settles (h : Heap) (x : NodeId) : Prop :=
  ∃ fuel, (propagateSubChildChange fuel h x Change.ADD x).isSome = true

/-- What a successful `addChild(P, C)` makes of the heap `h`, told by what can be read
from it. -/
structure Linked (h h' : Heap) (P C : NodeId) : Prop where
  len : h'.length = h.length
  hash : ∀ j, nameHashOf h' j = nameHashOf h j
  name : ∀ j, nameOf h' j = nameOf h j
  validP : P < h.length
  validC : C < h.length
  fresh : ∀ ch ∈ childrenOf h P, nameHashOf h ch ≠ nameHashOf h C
  children : ∀ j, childrenOf h' j = if j = P then childrenOf h P ++ [C] else childrenOf h j
  parents : ∀ j, parentsIn h' j = if j = C then parentsIn h C ++ [P] else parentsIn h j

/-- What a successful `removeChild` of the child `C` of `X` makes of the heap `h`. -/
structure Unlinked (h h' : Heap) (X C : NodeId) : Prop where
  len : h'.length = h.length
  hash : ∀ j, nameHashOf h' j = nameHashOf h j
  name : ∀ j, nameOf h' j = nameOf h j
  mem : C ∈ childrenOf h X
  known : X ∈ parentsIn h C
  children : ∀ j, childrenOf h' j = if j = X then (childrenOf h X).erase C else childrenOf h j
  parents_ne : ∀ j, j ≠ C → parentsIn h' j = parentsIn h j
  parents_sub : (parentsIn h' C).Sublist (parentsIn h C)
  parents_mem : (parentsIn h C).Nodup →
    ∀ x, x ∈ parentsIn h' C ↔ x ∈ parentsIn h C ∧ x ≠ X

/-- What holds of every heap a program gets to: the children of a node are live nodes
with pairwise different hashes; the parents a node knows of are pairwise different
and are the nodes that hold it among their children; the propagation comes back from
every node. -/
structure Inv (h : Heap) : Prop where
  valid : ∀ x c, c ∈ childrenOf h x → c < h.length
  hashes : ∀ x, ((childrenOf h x).map (nameHashOf h)).Nodup
  nodup : ∀ n, (parentsIn h n).Nodup
  owner : ∀ n x, x ∈ parentsIn h n ↔ n ∈ childrenOf h x
  settles : ∀ x, x < h.length → Settles h x

/-- The state a successful `removeChild` of the child `C` of `X` leaves: the node `C`
is `c'`, `C` is erased from the children of `X`, and the log has the two local hook
calls and those of the propagation. -/
def removed (s : State) (X C : NodeId) (c' : BaseNode) (evs : List Event) : State :=
  { heap := modifyNode (s.heap.set C c') X
      (fun p => { p with m_children := p.m_children.erase C })
    log := (s.log ++ [Event.onChildChange X Change.REMOVE C,
                     Event.onParentChange C Change.REMOVE X]) ++ evs }

/-- The path made of the segments `segs` and a last segment `last`, joined by `/`. -/
def joinPath (segs : List (List Char)) (last : List Char) : List Char :=
  segs.foldr (fun seg rest => seg ++ '/' :: rest) last

/-- The node the segments lead to when each is looked up by its hash, as
`getNodeByPath` does for every segment but the last. -/
def descend (hash : List Char → Nat) (h : Heap) : NodeId → List (List Char) → Option NodeId
  | this, [] => some this
  | this, seg :: rest =>
    ((childrenOf h this).find? (fun child => nameHashOf h child == some (hash seg))).bind
      (fun containingChild => descend hash h containingChild rest)

/-! ## Example states -/

/-- FNV-1a over 64 bits, a function some standard libraries use for
`std::hash<std::string>`; the examples are evaluated with it. -/
def fnv1a (s : List Char) : Nat :=
  s.foldl (fun acc c => ((acc ^^^ c.toNat) * 1099511628211) % 2 ^ 64) 14695981039346656037

/-- A node as the constructor leaves it, for a name without separator. -/
def fresh (cls : NodeClass) (name : List Char) : BaseNode :=
  { m_children := [], m_name := name, m_nameHash := fnv1a name,
    m_previousParents := [], m_parent := none, cls := cls }

/-- Three nodes just created: the `Node`s `A` and `B` and the `BaseNode` `C`. -/
def example0 : State :=
  { heap := [fresh NodeClass.Node ['A'], fresh NodeClass.Node ['B'],
             fresh NodeClass.BaseNode ['C']],
    log := [] }

/-- The state `example0` after `A->addChild(C)`. -/
def example1 : State :=
  { heap := [{ fresh NodeClass.Node ['A'] with m_children := [2] },
             fresh NodeClass.Node ['B'],
             { fresh NodeClass.BaseNode ['C'] with m_parent := some 0 }],
    log := [Event.onChildChange 0 Change.ADD 2, Event.onParentChange 2 Change.ADD 0] }

/-- The state `example1` after `B->addChild(C)`. -/
def example2 : State :=
  { heap := [{ fresh NodeClass.Node ['A'] with m_children := [2] },
             { fresh NodeClass.Node ['B'] with m_children := [2] },
             { fresh NodeClass.BaseNode ['C'] with
                 m_parent := some 1, m_previousParents := [0] }],
    log := [Event.onChildChange 0 Change.ADD 2, Event.onParentChange 2 Change.ADD 0,
            Event.onChildChange 1 Change.ADD 2, Event.onParentChange 2 Change.ADD 1] }

/-- The state of a call that has returned. -/
def stateAfter (r : Option (Bool × State)) : State :=
  match r with
  | some (_, s) => s
  | none => { heap := [], log := [] }

/-- Three nodes just created: the `Node` `R`, the `BaseNode` made from `a/b`, stored
as `a_b`, and the `BaseNode` made from `a_b`. -/
def slash0 : State :=
  { heap := [fresh NodeClass.Node ['R'],
             { fresh NodeClass.BaseNode ['a', '_', 'b'] with
                 m_nameHash := fnv1a ['a', '/', 'b'] },
             fresh NodeClass.BaseNode ['a', '_', 'b']],
    log := [] }

/-- The state `slash0` after `R->addChild(a/b)`. -/
def slash1 : State := stateAfter (addChild 1 slash0 0 1)

/-- The state `slash1` after `R->addChild(a_b)`. -/
def slash2 : State := stateAfter (addChild 1 slash1 0 2)

/-- Four nodes just created: the `Node`s `R`, `a/b` (stored as `a_b`) and `y`, and the
`BaseNode` `z`. -/
def deep0 : State :=
  { heap := [fresh NodeClass.Node ['R'],
             { fresh NodeClass.Node ['a', '_', 'b'] with m_nameHash := fnv1a ['a', '/', 'b'] },
             fresh NodeClass.Node ['y'],
             fresh NodeClass.BaseNode ['z']],
    log := [] }

/-- The state `deep0` after `R->addChild(a/b)`. -/
def deep1 : State := stateAfter (addChild 1 deep0 0 1)

/-- The state `deep1` after `a/b->addChild(y)`. -/
def deep2 : State := stateAfter (addChild 2 deep1 1 2)

/-- The state `deep2` after `y->addChild(z)`. -/
def deep3 : State := stateAfter (addChild 3 deep2 2 3)

/-- The nodes of `test/main.cpp` just created: the `Node` `test1`, the `TestNode`
`test4` and the `BaseNode` `test5`. -/
def test0 : State :=
  { heap := [fresh NodeClass.Node "test1".toList, fresh NodeClass.TestNode "test4".toList,
             fresh NodeClass.BaseNode "test5".toList],
    log := [] }

/-- The state `test0` after `ptr->addLocalNode(childPtr)`. -/
def test1 : State := stateAfter (addChild 1 test0 0 1)

/-- The state `test1` after `addDummyChild("test5")` on the child. -/
def test2 : State := stateAfter (addChild 2 test1 1 2)

/-! ## Types and hook calls -/

/-- `getType()` by class: `nodeTypeName` of `BaseNode`, overridden in `Node`;
`RestrictiveNode` inherits the override of `Node`, `TestNode` the `BaseNode` one. -/
def getType : NodeClass → List Char
  | NodeClass.BaseNode => "BaseNode".toList
  | NodeClass.Node => "Node".toList
  | NodeClass.RestrictiveNode _ _ => "Node".toList
  | NodeClass.TestNode => "BaseNode".toList

/-- `getTypeHash()` by class: the constant `nodeType`. -/
def getTypeHash : NodeClass → Nat
  | NodeClass.BaseNode => 0
  | NodeClass.Node => 1
  | NodeClass.RestrictiveNode _ _ => 1
  | NodeClass.TestNode => 0

/-- `child->getType()` read through a pointer. -/
def typeOf (h : Heap) (child : NodeId) : Option (List Char) :=
  (h[child]?).map (fun n => getType n.cls)

/-- `child->getTypeHash()` read through a pointer. -/
def typeHashOf (h : Heap) (child : NodeId) : Option Nat :=
  (h[child]?).map (fun n => getTypeHash n.cls)

/-- The hook calls of `addChild(newChild)` on `this`, each with the heap it is made in:
the two local hooks are called before the writes, the propagation runs after them.
A call that fails makes none. -/
def addChildCalls (fuel : Nat) (s : State) (this newChild : NodeId) :
    Option (List (Event × Heap)) :=
  match s.heap[this]?, s.heap[newChild]? with
  | some p, some c =>
    if !isValidParent c.cls newChild this then some []
    else if (findChildByHash s.heap p.m_children c.m_nameHash).isSome then some []
    else
      let heap1 := link s.heap this newChild
      match propagateSubChildChange fuel heap1 this Change.ADD newChild with
      | none => none
      | some evs =>
        some ((Event.onChildChange this Change.ADD newChild, s.heap) ::
              (Event.onParentChange newChild Change.ADD this, s.heap) ::
              evs.map (fun e => (e, heap1)))
  | _, _ => none

/-- `TestNode::onParentChange(type, newParent)` of `test/main.cpp`: the value it gives
`fields.parent_change`, for a `TestNode` made with `parentName` and `parentType`. -/
def TestNode.onParentChange (parentName parentType : List Char) (h : Heap) (type : Change)
    (newParent : NodeId) : Bool :=
  type == Change.ADD && getName h newParent == some parentName &&
    typeOf h newParent == some parentType

/-- The order in which `propagateSubChildChange` goes up from a node: the current
parent, then the entries of the history. -/
def callOrder (n : BaseNode) : List NodeId :=
  n.m_parent.toList ++ n.m_previousParents

/-- The ancestry of a node as the propagation is to visit it: the current parent and
all of its ancestry, then each entry of the history and all of its ancestry, as far as
`k` steps up. -/
def ancestry (h : Heap) : Nat → NodeId → List NodeId
  | 0, _ => []
  | k + 1, x =>
    match h[x]? with
    | none => []
    | some n => (callOrder n).flatMap (fun p => p :: ancestry h k p)

/-! ## Node and RestrictiveNode -/

/-- `Node::addLocalNode(node)` called on `this`; `node` may be a null pointer, which
`addChild` dereferences. -/
def Node.addLocalNode (fuel : Nat) (s : State) (this : NodeId) (node : Option NodeId) :
    Option (Bool × State) :=
  match node with
  | none => none
  | some newChild => addChild fuel s this newChild

/-- `RestrictiveNode::addLocalNode(node)` called on `this`, a `RestrictiveNode` with
the list `allow_addtype` in its settings. -/
def RestrictiveNode.addLocalNode (allow_addtype : List (List Char)) (fuel : Nat) (s : State)
    (this : NodeId) (node : Option NodeId) : Option (Bool × State) :=
  match node with
  | none => some (false, s)
  | some newChild =>
    match s.heap[newChild]? with
    | none => none
    | some c =>
      if allow_addtype.count (getType c.cls) == 0 then some (false, s)
      else Node.addLocalNode fuel s this (some newChild)

/-- The virtual call `addLocalNode(node)` on `this`: the override of the class of `this`
runs. `BaseNode` and `TestNode` have no such member. -/
def addLocalNode (fuel : Nat) (s : State) (this : NodeId) (node : Option NodeId) :
    Option (Bool × State) :=
  match s.heap[this]? with
  | none => none
  | some n =>
    match n.cls with
    | NodeClass.Node => Node.addLocalNode fuel s this node
    | NodeClass.RestrictiveNode allow_addtype _ =>
      RestrictiveNode.addLocalNode allow_addtype fuel s this node
    | _ => none

/-- `std::dynamic_pointer_cast<Node>`: the pointer when the object is a `Node` or of a
class derived from it, a null pointer otherwise. -/
def castToNode (h : Heap) (ptr : Option NodeId) : Option NodeId :=
  match ptr with
  | none => none
  | some x =>
    match h[x]? with
    | none => none
    | some n =>
      match n.cls with
      | NodeClass.Node => some x
      | NodeClass.RestrictiveNode _ _ => some x
      | _ => none

/-- `Node::addNode(path, node)` called on `this`. -/
def Node.addNode (hash : List Char → Nat) (fuel : Nat) (s : State) (this : NodeId)
    (path : List Char) (node : Option NodeId) : Option (Bool × State) :=
  if path = [] then addLocalNode fuel s this node
  else
    match castToNode s.heap (getNodeByPath hash s.heap this path) with
    | none => some (false, s)
    | some parent =>
      match node with
      | none => none
      | some newChild => addChild fuel s parent newChild

/-- `Node::removeLocalNode(const std::string &name)` called on `this`. -/
def Node.removeLocalNode (hash : List Char → Nat) (fuel : Nat) (s : State) (this : NodeId)
    (name : List Char) : Option (Bool × State) :=
  removeChild hash fuel s this name

/-- `Node::removeLocalNode(const std::shared_ptr<BaseNode> &node)` called on `this`. -/
def Node.removeLocalNodeNode (fuel : Nat) (s : State) (this node : NodeId) :
    Option (Bool × State) :=
  removeChildNode fuel s this node

/-- `RestrictiveNode::removeLocalNode(const std::string &name)` called on `this`, a
`RestrictiveNode` with the list `allow_remtype` in its settings: the child found is
erased from `m_children`, and nothing else is done. -/
def RestrictiveNode.removeLocalNode (hash : List Char → Nat) (allow_remtype : List (List Char))
    (s : State) (this : NodeId) (name : List Char) : Option (Bool × State) :=
  match s.heap[this]? with
  | none => none
  | some p =>
    match findChildByHash s.heap p.m_children (hash name) with
    | none => some (false, s)
    | some i =>
      match p.m_children[i]? with
      | none => none
      | some childIterator =>
        match s.heap[childIterator]? with
        | none => none
        | some c =>
          if allow_remtype.count (getType c.cls) == 0 then some (false, s)
          else
            some (true,
              { heap := modifyNode s.heap this
                  (fun p => { p with m_children := p.m_children.eraseIdx i })
                log := s.log })

/-- `RestrictiveNode::removeLocalNode(const std::shared_ptr<BaseNode> &node)` called on
`this`, a `RestrictiveNode` with the list `allow_remtype` in its settings. -/
def RestrictiveNode.removeLocalNodeNode (allow_remtype : List (List Char)) (fuel : Nat)
    (s : State) (this node : NodeId) : Option (Bool × State) :=
  match s.heap[node]? with
  | none => none
  | some c =>
    if allow_remtype.count (getType c.cls) == 0 then some (false, s)
    else Node.removeLocalNodeNode fuel s this node

/-! ## More queries -/

/-- `BaseNode::getNodesByName(name, depth)` called on `this`: the call it makes passes
the hash and no depth. -/
def getNodesByName (hash : List Char → Nat) (h : Heap) (this : NodeId) (name : List Char)
    (_depth : Nat) : List NodeId :=
  getNodesByNameHash h this (hash name) unboundedDepth

/-- `BaseNode::getNodesByType(type, depth)` called on `this`. -/
def getNodesByType (h : Heap) : NodeId → List Char → Nat → List NodeId
  | _, _, 0 => []
  | this, type, depth + 1 =>
    match h[this]? with
    | none => []
    | some n =>
      n.m_children.flatMap (fun child =>
        (if typeOf h child = some type then [child] else []) ++
          getNodesByType h child type depth)

/-- `BaseNode::getNodesByTypeHash(typeHash, depth)` called on `this`. -/
def getNodesByTypeHash (h : Heap) : NodeId → Nat → Nat → List NodeId
  | _, _, 0 => []
  | this, typeHash, depth + 1 =>
    match h[this]? with
    | none => []
    | some n =>
      n.m_children.flatMap (fun child =>
        (if typeHashOf h child = some typeHash then [child] else []) ++
          getNodesByTypeHash h child typeHash depth)

/-- `BaseNode::countNodes(depth)` called on `this`, in `std::size_t`. -/
def countNodes (h : Heap) : Nat → NodeId → Nat
  | 0, this =>
    match h[this]? with
    | none => 0
    | some n => n.m_children.length % 2 ^ 64
  | depth + 1, this =>
    match h[this]? with
    | none => 0
    | some n =>
      n.m_children.foldl (fun result child => (result + countNodes h depth child) % 2 ^ 64)
        (n.m_children.length % 2 ^ 64)

/-- The loop of `BaseNode::getPath`: while `parentptr` is not null, its name and a
separator go in front of `result` and `parentptr` moves to its parent. One unit of
`fuel` is spent per round. -/
def getPathLoop : Nat → Heap → List Char → Option NodeId → Option (List Char)
  | _, _, result, none => some result
  | 0, _, _, some _ => none
  | fuel + 1, h, result, some parentptr =>
    match h[parentptr]? with
    | none => none
    | some pn => getPathLoop fuel h (pn.m_name ++ '/' :: result) pn.m_parent

/-- `BaseNode::getPath()` called on `this`. -/
def getPath (fuel : Nat) (h : Heap) (this : NodeId) : Option (List Char) :=
  match h[this]? with
  | none => none
  | some n => getPathLoop fuel h n.m_name n.m_parent

/-! ## Example states with a RestrictiveNode -/

/-- Three nodes just created: the `Node` `root`, the `RestrictiveNode` `r` that allows
the addition of `Node`s only, and the `BaseNode` `x`. -/
def gate0 : State :=
  { heap := [fresh NodeClass.Node "root".toList,
             fresh (NodeClass.RestrictiveNode ["Node".toList] []) ['r'],
             fresh NodeClass.BaseNode ['x']],
    log := [] }

/-- The state `gate0` after `root->addLocalNode(r)`. -/
def gate1 : State := stateAfter (addLocalNode 1 gate0 0 (some 1))

/-- Two nodes just created: the `RestrictiveNode` `r` that allows the addition and the
removal of `BaseNode`s, and the `BaseNode` `c`. -/
def rem0 : State :=
  { heap := [fresh (NodeClass.RestrictiveNode ["BaseNode".toList] ["BaseNode".toList]) ['r'],
             fresh NodeClass.BaseNode ['c']],
    log := [] }

/-- The state `rem0` after `r->addLocalNode(c)`. -/
def rem1 : State := stateAfter (addLocalNode 1 rem0 0 (some 1))

/-! ## Levels and walks -/

/-- The nodes `k` steps away from `x` along `next`, one entry per path. -/
def level (next : NodeId → List NodeId) : Nat → NodeId → List NodeId
  | 0, x => [x]
  | k + 1, x => (next x).flatMap (level next k)

/-- The nodes one to `k` steps away from `x` along `next`, one entry per path, each
node before what lies beyond it and the successors of a node in their order. -/
def walk (next : NodeId → List NodeId) : Nat → NodeId → List NodeId
  | 0, _ => []
  | k + 1, x => (next x).flatMap (fun y => y :: walk next k y)

/-- The nodes `k` levels below `x`, one entry per path of child links. -/
def descendantsAt (h : Heap) (k : Nat) (x : NodeId) : List NodeId :=
  level (childrenOf h) k x

/-- The nodes one to `depth` levels below `x` in pre-order: children in their order,
a node before its own subtree. -/
def preorder (h : Heap) (depth : Nat) (x : NodeId) : List NodeId :=
  walk (childrenOf h) depth x

/-- The parents the node at `x` knows of, in the order of the propagation. -/
def callOrderIn (h : Heap) (x : NodeId) : List NodeId :=
  match h[x]? with
  | some n => callOrder n
  | none => []

/-- The nodes `k` steps above `x`, one entry per path of parent and history links. -/
def ancestorsAt (h : Heap) (k : Nat) (x : NodeId) : List NodeId :=
  level (callOrderIn h) k x

/-! ## More example states -/

/-- A tree with a branch: the `Node` `R` holds the `Node` `a` and the `BaseNode` `b`,
and `a` holds another `BaseNode` `b`. -/
def branch : Heap :=
  [{ fresh NodeClass.Node ['R'] with m_children := [1, 2] },
   { fresh NodeClass.Node ['a'] with m_children := [3], m_parent := some 0 },
   { fresh NodeClass.BaseNode ['b'] with m_parent := some 0 },
   { fresh NodeClass.BaseNode ['b'] with m_parent := some 1 }]

/-- Two `Node`s just created, `A` and `B`. -/
def cyc0 : State :=
  { heap := [fresh NodeClass.Node ['A'], fresh NodeClass.Node ['B']], log := [] }

/-- The state `cyc0` after `A->addChild(B)`. -/
def cyc1 : State := stateAfter (addChild 1 cyc0 0 1)

/-- Five nodes just created: the `Node`s `A`, `B` and `N` and the `BaseNode`s `X` and
`Y`. -/
def up0 : State :=
  { heap := [fresh NodeClass.Node ['A'], fresh NodeClass.Node ['B'], fresh NodeClass.Node ['N'],
             fresh NodeClass.BaseNode ['X'], fresh NodeClass.BaseNode ['Y']],
    log := [] }

/-- The state `up0` after `A->addChild(N)`. -/
def up1 : State := stateAfter (addChild 1 up0 0 2)

/-- The state `up1` after `B->addChild(N)`. -/
def up2 : State := stateAfter (addChild 1 up1 1 2)

/-- The state `up2` after `N->addChild(X)`. -/
def up3 : State := stateAfter (addChild 2 up2 2 3)

/-- The state `up3` after `A->removeChild(N)`, by reference. -/
def up4 : State := stateAfter (removeChildNode 1 up3 0 2)

/-- The state `up4` after `N->addChild(Y)`. -/
def up5 : State := stateAfter (addChild 2 up4 2 4)

/-- What the propagation of a successful change at `N` with the child `C` delivers,
from the state `s` to the state `s'`: after the two local hook calls the log has one
`onSubChildChange` for every entry of the ancestry of `N`, in its order; the ancestry
holds every node one step, two steps, ... above `N`, once per path, and no path is
longer than `fuel`; it holds every parent `N` knows of; it holds neither `N` nor a
node below `N` in the heap `hbig`, in which `C` is a child of `N`. -/
structure Delivered (hbig : Heap) (s s' : State) (N C : NodeId) (kind : Change)
    (fuel : Nat) : Prop where
  log : s'.log = s.log ++
    (Event.onChildChange N kind C :: Event.onParentChange C kind N ::
      (ancestry s'.heap fuel N).map (fun a => Event.onSubChildChange a kind C))
  perm : (ancestry s'.heap fuel N).Perm
    ((List.range fuel).flatMap (fun j => ancestorsAt s'.heap (j + 1) N))
  all : ∀ k, fuel ≤ k → ancestorsAt s'.heap k N = []
  direct : ∀ p ∈ callOrderIn s'.heap N, p ∈ ancestry s'.heap fuel N
  below : ∀ j D, D ∈ descendantsAt hbig j N → D ∉ ancestry s'.heap fuel N
  child : C ∈ childrenOf hbig N

/-! ## Shallow lookup, all paths and the destructor -/

/-- `BaseNode::getNodeByNameHash(nameHash)` called on `this`: the first child whose
`m_nameHash` is `nameHash`; `none` is `nullptr`. -/
def getNodeByNameHash (h : Heap) (this : NodeId) (nameHash : Nat) : Option NodeId :=
  match h[this]? with
  | none => none
  | some n => n.m_children.find? (fun child => nameHashOf h child == some nameHash)

/-- One round of the loop of `BaseNode::getAllPaths`: the path of `parent`, a separator
and `m_name` are written where `resultInserter` points, and `resultInserter` moves
on. -/
def getAllPathsStep (fuel : Nat) (h : Heap) (m_name : List Char)
    (acc : Option (List (List Char) × Nat)) (parent : NodeId) :
    Option (List (List Char) × Nat) :=
  match acc, getPath fuel h parent with
  | some (result, resultInserter), some path =>
    some (result.set resultInserter (path ++ '/' :: m_name), resultInserter + 1)
  | _, _ => none

/-- `BaseNode::getAllPaths()` called on `this`: `result` starts as `countParents()`
empty strings; the loop over the history fills it from the front, and the path of
`this` is written after them when there is a current parent. -/
def getAllPaths (fuel : Nat) (h : Heap) (this : NodeId) : Option (List (List Char)) :=
  match h[this]?, countParents h this with
  | some n, some size =>
    match n.m_previousParents.foldl (getAllPathsStep fuel h n.m_name)
        (some (List.replicate size [], 0)) with
    | none => none
    | some (result, resultInserter) =>
      match n.m_parent with
      | none => some result
      | some _ => (getPath fuel h this).map (fun path => result.set resultInserter path)
  | _, _ => none

/-- One round of the loop of `BaseNode::~BaseNode()`: the back references of `child`
to `this` are taken away as in `removeChild`, or left when there are none, and
`onParentChange(REMOVE, this)` is called on `child`. -/
def destructorStep (this : NodeId) (acc : Option State) (child : NodeId) : Option State :=
  match acc with
  | none => none
  | some st =>
    match st.heap[child]? with
    | none => none
    | some c =>
      some { heap := st.heap.set child ((unlink this c).getD c)
             log := st.log ++ [Event.onParentChange child Change.REMOVE this] }

/-- The body of `BaseNode::~BaseNode()` run on `this`: the loop over `m_children`. -/
def destructor (s : State) (this : NodeId) : Option State :=
  match s.heap[this]? with
  | none => none
  | some n => n.m_children.foldl (destructorStep this) (some s)

/-! # Theorems -/

/-! ## Strings: the constructor loop -/

theorem find_append_left (done rest : List Char) (c : Char) (k : Nat) :
    find (done ++ rest) c (done.length + k) = (find rest c k).map (· + done.length) := by
  induction done with
  | nil => simp
  | cons d ds ih =>
    have h1 : (d :: ds).length + k = (ds.length + k) + 1 := by simp; omega
    rw [List.cons_append, h1, find, ih]
    cases find rest c k <;> simp
    omega

theorem replace_append (done xs : List Char) (x y : Char) :
    replace (done ++ x :: xs) done.length [y] = (done ++ [y]) ++ xs := by
  simp [replace, List.take_append_eq_append_take, List.drop_append_eq_append_drop]

theorem sanitizeLoop_append (rest : List Char) :
    ∀ done : List Char,
      sanitizeLoop (done ++ rest) ((find rest '/' 0).map (· + done.length)) =
        done ++ rest.map underscore := by
  induction rest with
  | nil => intro done; simp [find, sanitizeLoop]
  | cons x xs ih =>
    intro done
    by_cases hx : x = '/'
    · subst hx
      have h0 : (find ('/' :: xs) '/' 0).map (· + done.length) = some done.length := by
        simp [find]
      rw [h0, sanitizeLoop, replace_append]
      have h1 : find (done ++ ['_'] ++ xs) '/' (done.length + 1) =
          (find xs '/' 0).map (· + (done ++ ['_']).length) := by
        have h := find_append_left (done ++ ['_']) xs '/' 0
        simpa using h
      rw [h1, ih (done ++ ['_'])]
      simp [underscore]
    · have h1 : (find (x :: xs) '/' 0).map (· + done.length) =
          (find xs '/' 0).map (· + (done ++ [x]).length) := by
        simp only [find, hx, if_false]
        cases find xs '/' 0 <;> simp
        omega
      have h2 : done ++ x :: xs = (done ++ [x]) ++ xs := by simp
      rw [h1, h2, ih (done ++ [x])]
      simp [underscore, hx]

theorem sanitizeLoop_eq_map (name : List Char) :
    sanitizeLoop name (find name '/' 0) = name.map underscore := by
  have h := sanitizeLoop_append name []
  simpa using h

/-- C4. The name the constructor stores is the input with every `/` turned into `_`
and every other character kept: it has the length of the input and holds no `/`;
a node made from a stored name stores that very name; the name
`test1/test2/test3` is stored as `test1_test2_test3`. -/
theorem C4_constructor_sanitizes (hash : List Char → Nat) (cls : NodeClass) :
    (∀ s : List Char,
      (BaseNode.new hash cls s).m_name = s.map (fun c => if c = '/' then '_' else c) ∧
      (BaseNode.new hash cls s).m_name.length = s.length ∧
      '/' ∉ (BaseNode.new hash cls s).m_name ∧
      (BaseNode.new hash cls (BaseNode.new hash cls s).m_name).m_name =
        (BaseNode.new hash cls s).m_name) ∧
    (BaseNode.new hash cls "test1/test2/test3".toList).m_name =
      "test1_test2_test3".toList := by
  have key : ∀ s : List Char, (BaseNode.new hash cls s).m_name = s.map underscore :=
    fun s => sanitizeLoop_eq_map s
  refine ⟨fun s => ⟨key s, ?_, ?_, ?_⟩, ?_⟩
  · rw [key]; simp
  · rw [key]
    intro hmem
    obtain ⟨c, _, hc⟩ := List.mem_map.mp hmem
    unfold underscore at hc
    split at hc
    · exact absurd hc (by decide)
    · rename_i hne; exact hne hc
  · rw [key, key, List.map_map]
    apply List.map_congr_left
    intro c _
    simp only [Function.comp, underscore]
    split <;> simp_all
  · rw [key]; decide

/-! ## Failing attachments -/

theorem findChildByHash_isSome_of_mem (h : Heap) (children : List NodeId) (nameHash : Nat)
    (child : NodeId) (hmem : child ∈ children)
    (hhash : nameHashOf h child = some nameHash) :
    (findChildByHash h children nameHash).isSome = true := by
  unfold findChildByHash
  rw [List.findIdx?_isSome, List.any_eq_true]
  exact ⟨child, hmem, by simp [hhash]⟩

/-- C1. When the parent `P` already holds a child whose `m_nameHash` is that of the
candidate `C`, `addChild(P, C)` returns `false` and the state it leaves is the state it
found: the children of `P`, the parent and the history of `C`, and the log of hook
calls, to which nothing is added. -/
theorem C1_addChild_duplicate_hash_fails (fuel : Nat) (s : State) (P C : NodeId)
    (p c : BaseNode) (child : NodeId)
    (hP : s.heap[P]? = some p) (hC : s.heap[C]? = some c)
    (hmem : child ∈ p.m_children)
    (hhash : nameHashOf s.heap child = some c.m_nameHash) :
    addChild fuel s P C = some (false, s) := by
  have hfind := findChildByHash_isSome_of_mem s.heap p.m_children c.m_nameHash child hmem hhash
  unfold addChild
  rw [hP, hC]
  simp only [hfind, if_true]
  split <;> rfl

/-- C1 at a root that holds a node made from the name `B`, for a second node made from
`B`. -/
theorem C1_addChild_duplicate_hash_fails_witness :
    addChild 5
      { heap := [
          { m_children := [1], m_name := ['R'], m_nameHash := fnv1a ['R'],
            m_previousParents := [], m_parent := none, cls := NodeClass.Node },
          { m_children := [], m_name := ['B'], m_nameHash := fnv1a ['B'],
            m_previousParents := [], m_parent := some 0, cls := NodeClass.BaseNode },
          { m_children := [], m_name := ['B'], m_nameHash := fnv1a ['B'],
            m_previousParents := [], m_parent := none, cls := NodeClass.BaseNode }],
        log := [] } 0 2 =
    some (false,
      { heap := [
          { m_children := [1], m_name := ['R'], m_nameHash := fnv1a ['R'],
            m_previousParents := [], m_parent := none, cls := NodeClass.Node },
          { m_children := [], m_name := ['B'], m_nameHash := fnv1a ['B'],
            m_previousParents := [], m_parent := some 0, cls := NodeClass.BaseNode },
          { m_children := [], m_name := ['B'], m_nameHash := fnv1a ['B'],
            m_previousParents := [], m_parent := none, cls := NodeClass.BaseNode }],
        log := [] }) :=
  C1_addChild_duplicate_hash_fails 5 _ 0 2 _ _ 1 rfl rfl (by decide) rfl

/-- C5. A node `N` that keeps the validity predicate of `BaseNode` is refused as its
own child: `addChild(N, N)` returns `false` and leaves the state, so the children, the
parent and the history of `N`, as it was. -/
theorem C5_addChild_self_fails (fuel : Nat) (s : State) (N : NodeId) (n : BaseNode)
    (hN : s.heap[N]? = some n) (hcls : n.cls ≠ NodeClass.TestNode) :
    addChild fuel s N N = some (false, s) := by
  have hv : isValidParent n.cls N N = false := by
    cases hc : n.cls <;> simp_all [isValidParent]
  unfold addChild
  rw [hN]
  simp [hv]

/-- C5 at a lone `Node`. -/
theorem C5_addChild_self_fails_witness :
    addChild 3
      { heap := [
          { m_children := [], m_name := ['N'], m_nameHash := fnv1a ['N'],
            m_previousParents := [], m_parent := none, cls := NodeClass.Node }],
        log := [] } 0 0 =
    some (false,
      { heap := [
          { m_children := [], m_name := ['N'], m_nameHash := fnv1a ['N'],
            m_previousParents := [], m_parent := none, cls := NodeClass.Node }],
        log := [] }) :=
  C5_addChild_self_fails 3 _ 0 _ rfl (by decide)

/-! ## Reading the heap -/

theorem getElem?_modifyNode (h : Heap) (i j : NodeId) (f : BaseNode → BaseNode) :
    (modifyNode h i f)[j]? = if i = j then (h[j]?).map f else h[j]? := by
  unfold modifyNode
  cases hi : h[i]? with
  | none =>
    by_cases hij : i = j
    · subst hij; simp [hi]
    · simp [hij]
  | some n =>
    have hlt : i < h.length := (List.getElem?_eq_some_iff.mp hi).1
    by_cases hij : i = j
    · subst hij; simp [List.getElem?_set, hlt, hi]
    · simp [List.getElem?_set, hij]

theorem length_modifyNode (h : Heap) (i : NodeId) (f : BaseNode → BaseNode) :
    (modifyNode h i f).length = h.length := by
  unfold modifyNode
  cases h[i]? <;> simp

theorem set_eq_modifyNode (h : Heap) (i : NodeId) (c c' : BaseNode) (hi : h[i]? = some c) :
    h.set i c' = modifyNode h i (fun _ => c') := by
  simp [modifyNode, hi]

theorem lt_of_getElem? {h : Heap} {i : NodeId} {n : BaseNode} (hi : h[i]? = some n) :
    i < h.length := (List.getElem?_eq_some_iff.mp hi).1

/-! ## The upward propagation comes back -/

theorem andThen_isSome (a b : Option (List Event)) :
    (andThen a b).isSome = true ↔ a.isSome = true ∧ b.isSome = true := by
  cases a <;> cases b <;> simp [andThen]

theorem foldl_andThen_isSome (g : NodeId → Option (List Event)) (l : List NodeId) :
    ∀ init : Option (List Event),
      (l.foldl (fun acc parent => andThen acc (g parent)) init).isSome = true ↔
      init.isSome = true ∧ ∀ y ∈ l, (g y).isSome = true := by
  induction l with
  | nil => intro init; simp
  | cons x xs ih =>
    intro init
    rw [List.foldl_cons, ih, andThen_isSome]
    simp only [List.mem_cons, forall_eq_or_imp]
    tauto

theorem mem_parentsOf (n : BaseNode) (y : NodeId) :
    y ∈ parentsOf n ↔ y ∈ n.m_previousParents ∨ n.m_parent = some y := by
  unfold parentsOf
  cases n.m_parent <;> simp [eq_comm]

theorem propagate_isSome_succ (fuel : Nat) (h : Heap) (x : NodeId) (t : Change) (c : NodeId) :
    (propagateSubChildChange (fuel + 1) h x t c).isSome = true ↔
      x < h.length ∧ ∀ y ∈ parentsIn h x, (propagateSubChildChange fuel h y t c).isSome = true := by
  unfold parentsIn
  rw [propagateSubChildChange]
  cases hx : h[x]? with
  | none =>
    have : ¬ x < h.length := fun hlt => by
      rw [List.getElem?_eq_getElem hlt] at hx; cases hx
    simp [this]
  | some n =>
    have hlt : x < h.length := lt_of_getElem? hx
    simp only [hlt, true_and, mem_parentsOf, andThen_isSome, foldl_andThen_isSome,
      Option.isSome_some, Option.isSome_map']
    cases hv : n.m_parent with
    | none => simp
    | some p =>
      simp only [Option.isSome_map', Option.some.injEq]
      constructor
      · rintro ⟨h1, h2⟩ y (hy | hy)
        · exact h2 y hy
        · subst hy; exact h1
      · intro hall
        exact ⟨hall p (Or.inr rfl), fun y hy => hall y (Or.inl hy)⟩

theorem propagate_isSome_indep (h : Heap) (t t' : Change) (c c' : NodeId) :
    ∀ (fuel : Nat) (x : NodeId),
      (propagateSubChildChange fuel h x t c).isSome = true →
      (propagateSubChildChange fuel h x t' c').isSome = true := by
  intro fuel
  induction fuel with
  | zero => intro x hx; simp [propagateSubChildChange] at hx
  | succ k ih =>
    intro x hx
    rw [propagate_isSome_succ] at hx ⊢
    exact ⟨hx.1, fun y hy => ih y (hx.2 y hy)⟩

theorem propagate_isSome_mono (h : Heap) (t : Change) (c : NodeId) :
    ∀ (fuel fuel' : Nat) (x : NodeId), fuel ≤ fuel' →
      (propagateSubChildChange fuel h x t c).isSome = true →
      (propagateSubChildChange fuel' h x t c).isSome = true := by
  intro fuel
  induction fuel with
  | zero => intro fuel' x _ hx; simp [propagateSubChildChange] at hx
  | succ k ih =>
    intro fuel' x hle hx
    obtain ⟨m, rfl⟩ : ∃ m, fuel' = m + 1 := ⟨fuel' - 1, by omega⟩
    rw [propagate_isSome_succ] at hx ⊢
    exact ⟨hx.1, fun y hy => ih m y (by omega) (hx.2 y hy)⟩

theorem Settles.fuel {h : Heap} {x : NodeId} (hs : Settles h x) (t : Change) (c : NodeId) :
    ∃ fuel, ∀ fuel', fuel ≤ fuel' → (propagateSubChildChange fuel' h x t c).isSome = true := by
  obtain ⟨f, hf⟩ := hs
  exact ⟨f, fun f' hle => propagate_isSome_mono h t c f f' x hle
    (propagate_isSome_indep h _ t _ c f x hf)⟩

theorem settles_of_isSome {h : Heap} {x : NodeId} {fuel : Nat} {t : Change} {c : NodeId}
    (hx : (propagateSubChildChange fuel h x t c).isSome = true) : Settles h x :=
  ⟨fuel, propagate_isSome_indep h t _ c x fuel x hx⟩

theorem settles_iff (h : Heap) (x : NodeId) :
    Settles h x ↔ x < h.length ∧ ∀ y ∈ parentsIn h x, Settles h y := by
  constructor
  · rintro ⟨fuel, hf⟩
    cases fuel with
    | zero => simp [propagateSubChildChange] at hf
    | succ k =>
      rw [propagate_isSome_succ] at hf
      exact ⟨hf.1, fun y hy => settles_of_isSome (hf.2 y hy)⟩
  · rintro ⟨hlt, hall⟩
    have hbound : ∀ l : List NodeId, (∀ y ∈ l, Settles h y) →
        ∃ G, ∀ y ∈ l, (propagateSubChildChange G h y Change.ADD x).isSome = true := by
      intro l
      induction l with
      | nil => intro _; exact ⟨0, by simp⟩
      | cons a as ih =>
        intro hl
        obtain ⟨G, hG⟩ := ih (fun y hy => hl y (List.mem_cons_of_mem _ hy))
        obtain ⟨f, hf⟩ := (hl a (List.mem_cons_self _ _)).fuel Change.ADD x
        refine ⟨max G f, ?_⟩
        intro y hy
        rcases List.mem_cons.mp hy with rfl | hy
        · exact hf _ (le_max_right _ _)
        · exact propagate_isSome_mono h _ _ G _ y (le_max_left _ _) (hG y hy)
    obtain ⟨G, hG⟩ := hbound _ hall
    exact ⟨G + 1, (propagate_isSome_succ G h x Change.ADD x).mpr ⟨hlt, hG⟩⟩

/-- Where the parents known in `h'` are among those known in `h`, what comes back in
`h` comes back in `h'`, within the same fuel. -/
theorem propagate_isSome_of_subset (h h' : Heap) (t : Change) (c : NodeId)
    (hlen : h.length ≤ h'.length)
    (hsub : ∀ x y, y ∈ parentsIn h' x → y ∈ parentsIn h x) :
    ∀ (fuel : Nat) (x : NodeId),
      (propagateSubChildChange fuel h x t c).isSome = true →
      (propagateSubChildChange fuel h' x t c).isSome = true := by
  intro fuel
  induction fuel with
  | zero => intro x hx; simp [propagateSubChildChange] at hx
  | succ k ih =>
    intro x hx
    rw [propagate_isSome_succ] at hx ⊢
    exact ⟨Nat.lt_of_lt_of_le hx.1 hlen, fun y hy => ih y (hx.2 y (hsub x y hy))⟩

/-- One node `C` learns of one more parent `P`, from which the propagation comes back:
then whatever came back before still does. -/
theorem settles_of_new_parent (h h' : Heap) (P C : NodeId)
    (hlen : h'.length = h.length)
    (hne : ∀ x, x ≠ C → parentsIn h' x = parentsIn h x)
    (hC : ∀ y ∈ parentsIn h' C, y ∈ parentsIn h C ∨ y = P)
    (hP : Settles h' P) :
    ∀ (fuel : Nat) (x : NodeId),
      (propagateSubChildChange fuel h x Change.ADD x).isSome = true → Settles h' x := by
  intro fuel
  induction fuel with
  | zero => intro x hx; simp [propagateSubChildChange] at hx
  | succ k ih =>
    intro x hx
    rw [propagate_isSome_succ] at hx
    rw [settles_iff]
    refine ⟨hlen ▸ hx.1, fun y hy => ?_⟩
    have hold : ∀ y ∈ parentsIn h x, Settles h' y := fun y hy =>
      ih y (propagate_isSome_indep h _ _ _ _ k y (hx.2 y hy))
    by_cases hxc : x = C
    · subst hxc
      rcases hC y hy with hy | rfl
      · exact hold y hy
      · exact hP
    · rw [hne x hxc] at hy
      exact hold y hy

/-! ## What the operations do to the heap -/

theorem addChild_eq_some {fuel : Nat} {s s' : State} {P C : NodeId} {b : Bool}
    (hadd : addChild fuel s P C = some (b, s')) :
    ∃ p c, s.heap[P]? = some p ∧ s.heap[C]? = some c ∧
      ((b = false ∧ s' = s ∧
          (isValidParent c.cls C P = false ∨
            (findChildByHash s.heap p.m_children c.m_nameHash).isSome = true)) ∨
       (b = true ∧ isValidParent c.cls C P = true ∧
          findChildByHash s.heap p.m_children c.m_nameHash = none ∧
          ∃ evs, propagateSubChildChange fuel (link s.heap P C) P Change.ADD C = some evs ∧
            s' = { heap := link s.heap P C,
                   log := (s.log ++ [Event.onChildChange P Change.ADD C,
                                    Event.onParentChange C Change.ADD P]) ++ evs })) := by
  unfold addChild at hadd
  cases hP : s.heap[P]? with
  | none => simp [hP] at hadd
  | some p =>
    cases hC : s.heap[C]? with
    | none => simp [hP, hC] at hadd
    | some c =>
      refine ⟨p, c, rfl, rfl, ?_⟩
      simp only [hP, hC] at hadd
      by_cases hv : isValidParent c.cls C P = true
      · simp only [hv, Bool.not_true, Bool.false_eq_true, if_false] at hadd
        cases hf : findChildByHash s.heap p.m_children c.m_nameHash with
        | some i =>
          simp only [hf, Option.isSome_some, if_true, Option.some.injEq, Prod.mk.injEq] at hadd
          exact Or.inl ⟨hadd.1.symm, hadd.2.symm, Or.inr rfl⟩
        | none =>
          simp only [hf, Option.isSome_none, Bool.false_eq_true, if_false] at hadd
          cases hprop : propagateSubChildChange fuel (link s.heap P C) P Change.ADD C with
          | none => simp [hprop] at hadd
          | some evs =>
            simp only [hprop, Option.some.injEq, Prod.mk.injEq] at hadd
            exact Or.inr ⟨hadd.1.symm, hv, rfl, evs, rfl, hadd.2.symm⟩
      · have hv' : isValidParent c.cls C P = false := by simpa using hv
        simp only [hv', Bool.not_false, if_true, Option.some.injEq, Prod.mk.injEq] at hadd
        exact Or.inl ⟨hadd.1.symm, hadd.2.symm, Or.inl hv'⟩

theorem removeChildNode_eq_some {fuel : Nat} {s s' : State} {X C : NodeId} {b : Bool}
    (hrem : removeChildNode fuel s X C = some (b, s')) :
    ∃ x c, s.heap[X]? = some x ∧ s.heap[C]? = some c ∧
      ((b = false ∧ s' = s ∧ unlink X c = none) ∨
       (b = true ∧ ∃ c' p evs, unlink X c = some c' ∧
          propagateSubChildChange fuel (s.heap.set C c') X Change.REMOVE C = some evs ∧
          (s.heap.set C c')[X]? = some p ∧ C ∈ p.m_children ∧
          s' = { heap := (s.heap.set C c').set X { p with m_children := p.m_children.erase C },
                 log := (s.log ++ [Event.onChildChange X Change.REMOVE C,
                                  Event.onParentChange C Change.REMOVE X]) ++ evs })) := by
  unfold removeChildNode at hrem
  cases hX : s.heap[X]? with
  | none => simp [hX] at hrem
  | some x =>
    cases hC : s.heap[C]? with
    | none => simp [hX, hC] at hrem
    | some c =>
      refine ⟨x, c, rfl, rfl, ?_⟩
      simp only [hX, hC] at hrem
      cases hu : unlink X c with
      | none =>
        simp only [hu, Option.some.injEq, Prod.mk.injEq] at hrem
        exact Or.inl ⟨hrem.1.symm, hrem.2.symm, rfl⟩
      | some c' =>
        simp only [hu] at hrem
        cases hprop : propagateSubChildChange fuel (s.heap.set C c') X Change.REMOVE C with
        | none => simp [hprop] at hrem
        | some evs =>
          simp only [hprop] at hrem
          cases hp : (s.heap.set C c')[X]? with
          | none => simp [hp] at hrem
          | some p =>
            simp only [hp] at hrem
            by_cases hmem : C ∈ p.m_children
            · simp only [hmem, if_true, Option.some.injEq, Prod.mk.injEq] at hrem
              exact Or.inr ⟨hrem.1.symm, c', p, evs, rfl, hprop, hp, hmem, hrem.2.symm⟩
            · simp [hmem] at hrem

theorem removeChild_eq_some {hash : List Char → Nat} {fuel : Nat} {s s' : State} {X : NodeId}
    {name : List Char} {b : Bool}
    (hrem : removeChild hash fuel s X name = some (b, s')) :
    ∃ x, s.heap[X]? = some x ∧
      ((b = false ∧ s' = s) ∨
       (b = true ∧ ∃ i C c c' evs,
          findChildByHash s.heap x.m_children (hash name) = some i ∧
          x.m_children[i]? = some C ∧ s.heap[C]? = some c ∧ unlink X c = some c' ∧
          propagateSubChildChange fuel (s.heap.set C c') X Change.REMOVE C = some evs ∧
          s' = { heap := modifyNode (s.heap.set C c') X
                    (fun p => { p with m_children := p.m_children.eraseIdx i }),
                 log := (s.log ++ [Event.onChildChange X Change.REMOVE C,
                                  Event.onParentChange C Change.REMOVE X]) ++ evs })) := by
  unfold removeChild at hrem
  cases hX : s.heap[X]? with
  | none => simp [hX] at hrem
  | some x =>
    refine ⟨x, rfl, ?_⟩
    simp only [hX] at hrem
    cases hf : findChildByHash s.heap x.m_children (hash name) with
    | none =>
      simp only [hf, Option.some.injEq, Prod.mk.injEq] at hrem
      exact Or.inl ⟨hrem.1.symm, hrem.2.symm⟩
    | some i =>
      simp only [hf] at hrem
      cases hi : x.m_children[i]? with
      | none => simp [hi] at hrem
      | some C =>
        simp only [hi] at hrem
        cases hC : s.heap[C]? with
        | none => simp [hC] at hrem
        | some c =>
          simp only [hC] at hrem
          cases hu : unlink X c with
          | none =>
            simp only [hu, Option.some.injEq, Prod.mk.injEq] at hrem
            exact Or.inl ⟨hrem.1.symm, hrem.2.symm⟩
          | some c' =>
            simp only [hu] at hrem
            cases hprop : propagateSubChildChange fuel (s.heap.set C c') X Change.REMOVE C with
            | none => simp [hprop] at hrem
            | some evs =>
              simp only [hprop, Option.some.injEq, Prod.mk.injEq] at hrem
              exact Or.inr ⟨hrem.1.symm, i, C, c, c', evs, rfl, hi, hC, hu, hprop,
                hrem.2.symm⟩

theorem getElem?_set_of_some {h : Heap} {i : NodeId} {c : BaseNode} (c' : BaseNode)
    (hi : h[i]? = some c) (j : NodeId) :
    (h.set i c')[j]? = if i = j then some c' else h[j]? := by
  have hlt := lt_of_getElem? hi
  by_cases hij : i = j
  · subst hij; simp [List.getElem?_set, hlt]
  · simp [List.getElem?_set, hij]

theorem parentsOf_reparent (P : NodeId) (c : BaseNode) :
    parentsOf (reparent P c) = parentsOf c ++ [P] := by
  unfold parentsOf reparent
  cases c.m_parent <;> simp

theorem dropLast_append_getLast?_toList (l : List NodeId) :
    l.dropLast ++ l.getLast?.toList = l := by
  cases hl : l.getLast? with
  | none =>
    have : l = [] := List.getLast?_eq_none_iff.mp hl
    subst this; simp
  | some a =>
    have := List.dropLast_append_getLast? (l := l) a (by simp [hl])
    simpa using this

theorem unlink_spec {X : NodeId} {c c' : BaseNode} (hu : unlink X c = some c') :
    c'.m_children = c.m_children ∧ c'.m_name = c.m_name ∧ c'.m_nameHash = c.m_nameHash ∧
    c'.cls = c.cls ∧ X ∈ parentsOf c ∧ (parentsOf c').Sublist (parentsOf c) ∧
    ((parentsOf c).Nodup → ∀ x, x ∈ parentsOf c' ↔ x ∈ parentsOf c ∧ x ≠ X) := by
  unfold unlink at hu
  by_cases hp : c.m_parent = some X
  · simp only [hp, if_true, Option.some.injEq] at hu
    subst hu
    have hpar : parentsOf
        { c with m_parent := c.m_previousParents.getLast?,
                 m_previousParents := c.m_previousParents.dropLast } =
        c.m_previousParents := by
      simp [parentsOf, dropLast_append_getLast?_toList]
    have hold : parentsOf c = c.m_previousParents ++ [X] := by simp [parentsOf, hp]
    refine ⟨rfl, rfl, rfl, rfl, ?_, ?_, ?_⟩
    · simp [hold]
    · rw [hpar, hold]; exact List.sublist_append_left _ _
    · intro hnd x
      rw [hpar, hold]
      rw [hold] at hnd
      have hX : X ∉ c.m_previousParents := by
        intro hmem
        have := (List.nodup_append.mp hnd).2.2
        exact this hmem (List.mem_singleton_self X)
      constructor
      · intro hx
        exact ⟨List.mem_append_left _ hx, fun hxX => hX (hxX ▸ hx)⟩
      · rintro ⟨hx, hne⟩
        rcases List.mem_append.mp hx with hx | hx
        · exact hx
        · exact absurd (List.mem_singleton.mp hx) hne
  · simp only [hp, if_false] at hu
    by_cases hm : X ∈ c.m_previousParents
    · simp only [hm, if_true, Option.some.injEq] at hu
      subst hu
      refine ⟨rfl, rfl, rfl, rfl, ?_, ?_, ?_⟩
      · exact (mem_parentsOf c X).mpr (Or.inl hm)
      · unfold parentsOf
        exact List.Sublist.append (List.erase_sublist _ _) (List.Sublist.refl _)
      · intro hnd x
        have hnd1 : c.m_previousParents.Nodup := (List.nodup_append.mp hnd).1
        rw [mem_parentsOf, mem_parentsOf]
        simp only [hnd1.mem_erase_iff]
        constructor
        · rintro (⟨hne, hx⟩ | hx)
          · exact ⟨Or.inl hx, hne⟩
          · exact ⟨Or.inr hx, fun hxX => hp (hxX ▸ hx)⟩
        · rintro ⟨hx | hx, hne⟩
          · exact Or.inl ⟨hne, hx⟩
          · exact Or.inr hx
    · simp [hm] at hu

theorem findIdx?_go_succ {α : Type} (p : α → Bool) (l : List α) (k : Nat) :
    List.findIdx? p l (k + 1) = (List.findIdx? p l k).map (· + 1) := by
  induction l generalizing k with
  | nil => simp [List.findIdx?]
  | cons a as ih =>
    simp only [List.findIdx?]
    split
    · simp
    · exact ih (k + 1)

/-- Erasing at the place `find_if` stopped at is erasing the first occurrence of the
element found there. -/
theorem eraseIdx_findIdx? (p : NodeId → Bool) :
    ∀ (l : List NodeId) (i : Nat) (c : NodeId),
      l.findIdx? p = some i → l[i]? = some c →
      l.eraseIdx i = l.erase c ∧ p c = true ∧ c ∈ l
  | [], i, c, hf, _ => by simp [List.findIdx?] at hf
  | a :: as, i, c, hf, hi => by
    simp only [List.findIdx?] at hf
    by_cases hpa : p a = true
    · simp only [hpa, if_true, Option.some.injEq] at hf
      subst hf
      simp only [List.getElem?_cons_zero, Option.some.injEq] at hi
      subst hi
      simp [hpa]
    · simp only [hpa, Bool.false_eq_true, if_false] at hf
      rw [findIdx?_go_succ, Option.map_eq_some'] at hf
      obtain ⟨k, hk, rfl⟩ := hf
      simp only [List.getElem?_cons_succ] at hi
      obtain ⟨h1, h2, h3⟩ := eraseIdx_findIdx? p as k c hk hi
      have hne : a ≠ c := fun hac => hpa (hac ▸ h2)
      refine ⟨?_, h2, List.mem_cons_of_mem _ h3⟩
      rw [List.eraseIdx_cons_succ, h1, List.erase_cons_tail]
      simpa using hne

theorem getElem?_link (h : Heap) (P C j : NodeId) :
    (link h P C)[j]? =
      (h[j]?).map (fun n =>
        (if P = j then pushChild C else id) ((if C = j then reparent P else id) n)) := by
  unfold link
  rw [getElem?_modifyNode, getElem?_modifyNode]
  cases h[j]? <;> by_cases h1 : P = j <;> by_cases h2 : C = j <;> simp [h1, h2]

theorem linked_of_link (h : Heap) (P C : NodeId) (p c : BaseNode)
    (hP : h[P]? = some p) (hC : h[C]? = some c)
    (hfresh : findChildByHash h p.m_children c.m_nameHash = none) :
    Linked h (link h P C) P C := by
  have hget := getElem?_link h P C
  refine ⟨?_, ?_, ?_, lt_of_getElem? hP, lt_of_getElem? hC, ?_, ?_, ?_⟩
  · simp [link, length_modifyNode]
  · intro j
    unfold nameHashOf
    rw [hget]
    cases h[j]? <;> by_cases h1 : P = j <;> by_cases h2 : C = j <;>
      simp [h1, h2, pushChild, reparent]
  · intro j
    unfold nameOf
    rw [hget]
    cases h[j]? <;> by_cases h1 : P = j <;> by_cases h2 : C = j <;>
      simp [h1, h2, pushChild, reparent]
  · intro ch hch
    unfold findChildByHash at hfresh
    rw [List.findIdx?_eq_none_iff] at hfresh
    have hch' : ch ∈ p.m_children := by simpa [childrenOf, hP] using hch
    have := hfresh ch hch'
    intro heq
    rw [heq] at this
    simp [nameHashOf, hC] at this
  · intro j
    unfold childrenOf
    rw [hget]
    by_cases h1 : j = P
    · subst h1
      by_cases h2 : C = j <;> simp [hP, h2, pushChild, reparent]
    · have h1' : ¬ P = j := fun e => h1 e.symm
      cases hj : h[j]? <;> by_cases h2 : C = j <;> simp [h1, h1', h2, reparent]
  · intro j
    unfold parentsIn
    rw [hget]
    by_cases h2 : j = C
    · subst h2
      by_cases h1 : P = j
      · subst h1
        simp only [hC, if_true, Option.map_some']
        have : parentsOf (pushChild P (reparent P c)) = parentsOf (reparent P c) := rfl
        rw [this, parentsOf_reparent]
      · simp only [hC, h1, if_true, if_false, Option.map_some', id]
        exact parentsOf_reparent P c
    · have h2' : ¬ C = j := fun e => h2 e.symm
      cases hj : h[j]? with
      | none => simp [h2]
      | some n =>
        by_cases h1 : P = j
        · simp only [h1, h2, h2', if_true, if_false, Option.map_some', id]
          rfl
        · simp [h1, h2, h2']

theorem modifyNode_congr (h : Heap) (i : NodeId) (n : BaseNode) (f g : BaseNode → BaseNode)
    (hi : h[i]? = some n) (hfg : f n = g n) : modifyNode h i f = modifyNode h i g := by
  simp [modifyNode, hi, hfg]

theorem unlinked_of_unlink (h : Heap) (X C : NodeId) (x c c' : BaseNode)
    (hX : h[X]? = some x) (hC : h[C]? = some c) (hu : unlink X c = some c')
    (hmem : C ∈ x.m_children) :
    Unlinked h
      (modifyNode (h.set C c') X (fun p => { p with m_children := p.m_children.erase C }))
      X C := by
  obtain ⟨hch, hnm, hnh, _, hknown, hsub, hmemP⟩ := unlink_spec hu
  have hget : ∀ j, (modifyNode (h.set C c') X
      (fun p => { p with m_children := p.m_children.erase C }))[j]? =
      (if X = j then
        ((if C = j then some c' else h[j]?).map
          (fun p => { p with m_children := p.m_children.erase C }))
       else (if C = j then some c' else h[j]?)) := by
    intro j
    rw [getElem?_modifyNode, getElem?_set_of_some c' hC]
  refine ⟨?_, ?_, ?_, ?_, ?_, ?_, ?_, ?_, ?_⟩
  · simp [length_modifyNode]
  · intro j
    unfold nameHashOf
    rw [hget]
    by_cases h1 : X = j <;> by_cases h2 : C = j
    · subst h1; subst h2; simp [hC, hnh]
    · subst h1; simp [h2, hX]
    · subst h2; simp [h1, hC, hnh]
    · simp [h1, h2]
  · intro j
    unfold nameOf
    rw [hget]
    by_cases h1 : X = j <;> by_cases h2 : C = j
    · subst h1; subst h2; simp [hC, hnm]
    · subst h1; simp [h2, hX]
    · subst h2; simp [h1, hC, hnm]
    · simp [h1, h2]
  · simpa [childrenOf, hX] using hmem
  · simpa [parentsIn, hC] using hknown
  · intro j
    unfold childrenOf
    rw [hget]
    by_cases h1 : X = j <;> by_cases h2 : C = j
    · subst h1; subst h2
      have : x = c := by rw [hX] at hC; exact Option.some.inj hC
      subst this
      simp [hX, hch]
    · subst h1; simp [h2, hX]
    · subst h2
      have h1' : ¬ C = X := fun e => h1 e.symm
      simp [h1, h1', hC, hch]
    · have h1' : ¬ j = X := fun e => h1 e.symm
      simp [h1, h1', h2]
  · intro j hj
    have h2 : ¬ C = j := fun e => hj e.symm
    unfold parentsIn
    rw [hget]
    by_cases h1 : X = j
    · subst h1
      simp only [h2, if_true, if_false, hX, Option.map_some']
      rfl
    · simp [h1, h2]
  · unfold parentsIn
    rw [hget]
    by_cases h1 : X = C
    · simp only [h1, if_true, hC, Option.map_some']
      exact hsub
    · simp only [h1, if_true, if_false, hC]
      exact hsub
  · intro hnd x'
    have hnd' : (parentsOf c).Nodup := by simpa [parentsIn, hC] using hnd
    have := hmemP hnd' x'
    unfold parentsIn
    rw [hget]
    by_cases h1 : X = C
    · simp only [h1, if_true, hC, Option.map_some']
      rw [← h1]
      exact this
    · simp only [h1, if_true, if_false, hC]
      exact this

theorem removeChildNode_unlinked {fuel : Nat} {s s' : State} {X C : NodeId}
    (hrem : removeChildNode fuel s X C = some (true, s')) :
    Unlinked s.heap s'.heap X C := by
  obtain ⟨x, c, hX, hC, hcase⟩ := removeChildNode_eq_some hrem
  rcases hcase with ⟨hb, _⟩ | ⟨_, c', p, evs, hu, _, hp, hmem, rfl⟩
  · cases hb
  · have hpc : p.m_children = x.m_children := by
      rw [getElem?_set_of_some c' hC] at hp
      by_cases h1 : C = X
      · subst h1
        simp only [if_true, Option.some.injEq] at hp
        rw [hX] at hC
        have : x = c := Option.some.inj hC
        subst hp; subst this
        exact (unlink_spec hu).1
      · simp only [h1, if_false] at hp
        rw [hX] at hp
        exact (Option.some.inj hp) ▸ rfl
    have hheap : (s.heap.set C c').set X { p with m_children := p.m_children.erase C } =
        modifyNode (s.heap.set C c') X
          (fun p => { p with m_children := p.m_children.erase C }) := by
      simp [modifyNode, hp]
    show Unlinked s.heap ((s.heap.set C c').set X _) X C
    rw [hheap]
    exact unlinked_of_unlink s.heap X C x c c' hX hC hu (hpc ▸ hmem)

theorem removeChild_unlinked {hash : List Char → Nat} {fuel : Nat} {s s' : State} {X : NodeId}
    {name : List Char}
    (hrem : removeChild hash fuel s X name = some (true, s')) :
    ∃ C, Unlinked s.heap s'.heap X C ∧ nameHashOf s.heap C = some (hash name) := by
  obtain ⟨x, hX, hcase⟩ := removeChild_eq_some hrem
  rcases hcase with ⟨hb, _⟩ | ⟨_, i, C, c, c', evs, hfind, hi, hC, hu, _, rfl⟩
  · cases hb
  · obtain ⟨herase, hpC, hmem⟩ := eraseIdx_findIdx? _ x.m_children i C hfind hi
    refine ⟨C, ?_, by simpa using hpC⟩
    obtain ⟨p, hp, hpc⟩ : ∃ p, (s.heap.set C c')[X]? = some p ∧ p.m_children = x.m_children := by
      rw [getElem?_set_of_some c' hC]
      by_cases h1 : C = X
      · subst h1
        rw [hX] at hC
        have : x = c := Option.some.inj hC
        subst this
        exact ⟨c', by simp, (unlink_spec hu).1⟩
      · exact ⟨x, by simp [h1, hX], rfl⟩
    have hheap : modifyNode (s.heap.set C c') X
          (fun p => { p with m_children := p.m_children.eraseIdx i }) =
        modifyNode (s.heap.set C c') X
          (fun p => { p with m_children := p.m_children.erase C }) := by
      apply modifyNode_congr _ _ p _ _ hp
      simp only [hpc, herase]
    show Unlinked s.heap (modifyNode (s.heap.set C c') X _) X C
    rw [hheap]
    exact unlinked_of_unlink s.heap X C x c c' hX hC hu hmem

/-! ## The invariant of the reachable states -/

theorem Inv.children_nodup {h : Heap} (hinv : Inv h) (x : NodeId) :
    (childrenOf h x).Nodup :=
  List.Nodup.of_map _ (hinv.hashes x)

theorem inv_empty : Inv [] := by
  refine ⟨?_, ?_, ?_, ?_, ?_⟩ <;> simp [childrenOf, parentsIn]

theorem inv_linked {h h' : Heap} {P C : NodeId} (hinv : Inv h) (hl : Linked h h' P C)
    (hP : Settles h' P) : Inv h' := by
  have hCP : C ∉ childrenOf h P := fun hmem => hl.fresh C hmem rfl
  have hPC : P ∉ parentsIn h C := fun hmem => hCP ((hinv.owner C P).mp hmem)
  refine ⟨?_, ?_, ?_, ?_, ?_⟩
  · intro x c hc
    rw [hl.len]
    rw [hl.children] at hc
    by_cases hx : x = P
    · simp only [hx, if_true, List.mem_append, List.mem_singleton] at hc
      rcases hc with hc | rfl
      · exact hinv.valid P c hc
      · exact hl.validC
    · simp only [hx, if_false] at hc
      exact hinv.valid x c hc
  · intro x
    have hfun : nameHashOf h' = nameHashOf h := funext hl.hash
    rw [hfun, hl.children]
    by_cases hx : x = P
    · simp only [hx, if_true, List.map_append, List.map_cons, List.map_nil]
      rw [List.nodup_append]
      refine ⟨hinv.hashes P, List.nodup_singleton _, ?_⟩
      intro v hv hv'
      rw [List.mem_singleton] at hv'
      obtain ⟨ch, hch, rfl⟩ := List.mem_map.mp hv
      exact hl.fresh ch hch hv'
    · simp only [hx, if_false]
      exact hinv.hashes x
  · intro n
    rw [hl.parents]
    by_cases hn : n = C
    · simp only [hn, if_true]
      rw [List.nodup_append]
      refine ⟨hinv.nodup C, List.nodup_singleton _, ?_⟩
      intro v hv hv'
      rw [List.mem_singleton] at hv'
      exact hPC (hv' ▸ hv)
    · simp only [hn, if_false]
      exact hinv.nodup n
  · intro n x
    rw [hl.parents, hl.children]
    by_cases hn : n = C <;> by_cases hx : x = P
    · simp [hn, hx]
    · simp only [hn, hx, if_true, if_false, List.mem_append, List.mem_singleton, or_false]
      exact hinv.owner C x
    · simp only [hn, hx, if_true, if_false, List.mem_append, List.mem_singleton, or_false]
      exact hinv.owner n P
    · simp only [hn, hx, if_false]
      exact hinv.owner n x
  · intro x hx
    rw [hl.len] at hx
    obtain ⟨fuel, hf⟩ := hinv.settles x hx
    refine settles_of_new_parent h h' P C hl.len ?_ ?_ hP fuel x hf
    · intro j hj
      rw [hl.parents]; simp [hj]
    · intro y hy
      rw [hl.parents] at hy
      simpa using hy

theorem inv_unlinked {h h' : Heap} {X C : NodeId} (hinv : Inv h) (hu : Unlinked h h' X C) :
    Inv h' := by
  have hsubset : ∀ x y, y ∈ parentsIn h' x → y ∈ parentsIn h x := by
    intro x y hy
    by_cases hx : x = C
    · subst hx; exact hu.parents_sub.subset hy
    · rw [hu.parents_ne x hx] at hy; exact hy
  refine ⟨?_, ?_, ?_, ?_, ?_⟩
  · intro x c hc
    rw [hu.len]
    rw [hu.children] at hc
    by_cases hx : x = X
    · simp only [hx, if_true] at hc
      exact hinv.valid X c (List.mem_of_mem_erase hc)
    · simp only [hx, if_false] at hc
      exact hinv.valid x c hc
  · intro x
    have hfun : nameHashOf h' = nameHashOf h := funext hu.hash
    rw [hfun, hu.children]
    by_cases hx : x = X
    · simp only [hx, if_true]
      exact (hinv.hashes X).sublist ((List.erase_sublist C _).map _)
    · simp only [hx, if_false]
      exact hinv.hashes x
  · intro n
    by_cases hn : n = C
    · subst hn; exact (hinv.nodup n).sublist hu.parents_sub
    · rw [hu.parents_ne n hn]; exact hinv.nodup n
  · intro n x
    rw [hu.children]
    by_cases hn : n = C
    · subst hn
      rw [hu.parents_mem (hinv.nodup n)]
      by_cases hx : x = X
      · subst hx
        simp only [if_true, ne_eq, not_true_eq_false, and_false, false_iff]
        rw [(hinv.children_nodup x).mem_erase_iff]
        simp
      · simp only [hx, if_false, ne_eq, not_false_eq_true, and_true]
        exact hinv.owner n x
    · rw [hu.parents_ne n hn]
      by_cases hx : x = X
      · subst hx
        simp only [if_true]
        rw [(hinv.children_nodup x).mem_erase_iff]
        simp only [ne_eq, hn, not_false_eq_true, true_and]
        exact hinv.owner n x
      · simp only [hx, if_false]
        exact hinv.owner n x
  · intro x hx
    rw [hu.len] at hx
    obtain ⟨fuel, hf⟩ := hinv.settles x hx
    exact ⟨fuel, propagate_isSome_of_subset h h' _ _ (le_of_eq hu.len.symm) hsubset fuel x hf⟩

theorem getElem?_append_new (h : Heap) (n : BaseNode) (j : NodeId) :
    (h ++ [n])[j]? = if j = h.length then some n else h[j]? := by
  by_cases hj : j = h.length
  · subst hj; simp
  · rcases Nat.lt_or_gt_of_ne hj with hlt | hgt
    · simp [hj, List.getElem?_append_left hlt]
    · have h1 : h[j]? = none := List.getElem?_eq_none (by omega)
      have h2 : (h ++ [n])[j]? = none := List.getElem?_eq_none (by simp; omega)
      simp [hj, h1, h2]

theorem inv_created {h : Heap} (hinv : Inv h) (n : BaseNode)
    (hch : n.m_children = []) (hpar : parentsOf n = []) : Inv (h ++ [n]) := by
  have hnone : h[h.length]? = none := List.getElem?_eq_none (le_refl _)
  have hchildren : ∀ x, childrenOf (h ++ [n]) x = childrenOf h x := by
    intro x
    unfold childrenOf
    rw [getElem?_append_new]
    by_cases hx : x = h.length
    · subst hx; simp [hnone, hch]
    · simp [hx]
  have hparents : ∀ x, parentsIn (h ++ [n]) x = parentsIn h x := by
    intro x
    unfold parentsIn
    rw [getElem?_append_new]
    by_cases hx : x = h.length
    · subst hx; simp [hnone, hpar]
    · simp [hx]
  have hhash : ∀ x, x < h.length → nameHashOf (h ++ [n]) x = nameHashOf h x := by
    intro x hx
    unfold nameHashOf
    rw [getElem?_append_new]
    simp [Nat.ne_of_lt hx]
  refine ⟨?_, ?_, ?_, ?_, ?_⟩
  · intro x c hc
    rw [hchildren] at hc
    have hlt := hinv.valid x c hc
    rw [List.length_append, List.length_singleton]
    exact Nat.lt_succ_of_lt hlt
  · intro x
    rw [hchildren]
    have : (childrenOf h x).map (nameHashOf (h ++ [n])) =
        (childrenOf h x).map (nameHashOf h) :=
      List.map_congr_left (fun c hc => hhash c (hinv.valid x c hc))
    rw [this]
    exact hinv.hashes x
  · intro x; rw [hparents]; exact hinv.nodup x
  · intro x y; rw [hparents, hchildren]; exact hinv.owner x y
  · intro x hx
    by_cases hlt : x < h.length
    · obtain ⟨fuel, hf⟩ := hinv.settles x hlt
      exact ⟨fuel, propagate_isSome_of_subset h (h ++ [n]) _ _ (by simp)
        (fun a b hb => by rw [hparents] at hb; exact hb) fuel x hf⟩
    · rw [settles_iff]
      refine ⟨hx, ?_⟩
      have hxe : x = h.length := by simp at hx; omega
      intro y hy
      rw [hparents, hxe] at hy
      simp [parentsIn, hnone] at hy

theorem addChild_linked {fuel : Nat} {s s' : State} {P C : NodeId}
    (hadd : addChild fuel s P C = some (true, s')) :
    Linked s.heap s'.heap P C ∧ Settles s'.heap P := by
  obtain ⟨p, c, hP, hC, hcase⟩ := addChild_eq_some hadd
  rcases hcase with ⟨hb, _⟩ | ⟨_, _, hfresh, evs, hprop, rfl⟩
  · cases hb
  · exact ⟨linked_of_link s.heap P C p c hP hC hfresh,
      settles_of_isSome (by rw [hprop]; rfl)⟩

theorem reachable_inv {hash : List Char → Nat} {s : State} (hr : Reachable hash s) :
    Inv s.heap := by
  induction hr with
  | init => exact inv_empty
  | create cls name _ ih =>
    exact inv_created ih _ rfl rfl
  | @addChild s s' fuel this newChild b _ hadd ih =>
    cases b with
    | false =>
      obtain ⟨_, _, _, _, hcase⟩ := addChild_eq_some hadd
      rcases hcase with ⟨_, rfl, _⟩ | ⟨hb, _⟩
      · exact ih
      · cases hb
    | true =>
      obtain ⟨hl, hP⟩ := addChild_linked hadd
      exact inv_linked ih hl hP
  | @removeChild s s' fuel this name b _ hrem ih =>
    cases b with
    | false =>
      obtain ⟨_, _, hcase⟩ := removeChild_eq_some hrem
      rcases hcase with ⟨_, rfl⟩ | ⟨hb, _⟩
      · exact ih
      · cases hb
    | true =>
      obtain ⟨C, hu, _⟩ := removeChild_unlinked hrem
      exact inv_unlinked ih hu
  | @removeChildNode s s' fuel this node b _ hrem ih =>
    cases b with
    | false =>
      obtain ⟨_, _, _, _, hcase⟩ := removeChildNode_eq_some hrem
      rcases hcase with ⟨_, rfl, _⟩ | ⟨hb, _⟩
      · exact ih
      · cases hb
    | true =>
      exact inv_unlinked ih (removeChildNode_unlinked hrem)

/-! ## Example states -/

theorem create_eq (hash : List Char → Nat) (s : State) (cls : NodeClass) (name : List Char) :
    (create hash s cls name).2 =
      { heap := s.heap ++ [{ m_children := [], m_name := name.map underscore,
                             m_nameHash := hash name, m_previousParents := [],
                             m_parent := none, cls := cls }],
        log := s.log } := by
  simp [create, BaseNode.new, sanitizeLoop_eq_map]

theorem reachable_example0 : Reachable fnv1a example0 := by
  have h1 := Reachable.create NodeClass.Node ['A'] (@Reachable.init fnv1a)
  have h2 := Reachable.create NodeClass.Node ['B'] h1
  have h3 := Reachable.create NodeClass.BaseNode ['C'] h2
  simp only [create_eq] at h3
  exact h3

theorem addChild_example0 : addChild 1 example0 0 2 = some (true, example1) := by decide

theorem addChild_example1 : addChild 1 example1 1 2 = some (true, example2) := by decide

theorem reachable_example1 : Reachable fnv1a example1 :=
  Reachable.addChild reachable_example0 addChild_example0

theorem reachable_example2 : Reachable fnv1a example2 :=
  Reachable.addChild reachable_example1 addChild_example1

/-! ## Parents and owners -/

theorem mem_ownersOf (h : Heap) (child x : NodeId) :
    x ∈ ownersOf h child ↔ child ∈ childrenOf h x := by
  unfold ownersOf childrenOf
  rw [List.mem_filter, List.mem_range]
  cases hx : h[x]? with
  | none => simp
  | some n =>
    have := lt_of_getElem? hx
    simp [this]

theorem ownersOf_nodup (h : Heap) (child : NodeId) : (ownersOf h child).Nodup :=
  (List.nodup_range _).filter _

theorem length_parentsOf (n : BaseNode) :
    (parentsOf n).length = n.m_previousParents.length + (if n.m_parent.isSome then 1 else 0) := by
  unfold parentsOf
  cases n.m_parent <;> simp

theorem owners_perm_parents {h : Heap} (hinv : Inv h) (N : NodeId) :
    (parentsIn h N).Perm (ownersOf h N) := by
  rw [List.perm_ext_iff_of_nodup (hinv.nodup N) (ownersOf_nodup h N)]
  intro x
  rw [mem_ownersOf]
  exact hinv.owner N x

/-- C9. In every reachable state and for every node `N` of it, `countParents(N)` is
one for the current parent, if there is one, plus the size of the history, and that
number is the number of nodes that hold `N` among their children. -/
theorem C9_countParents (hash : List Char → Nat) (s : State) (hr : Reachable hash s)
    (N : NodeId) (n : BaseNode) (hN : s.heap[N]? = some n) :
    countParents s.heap N =
      some ((if n.m_parent.isSome then 1 else 0) + n.m_previousParents.length) ∧
    (if n.m_parent.isSome then 1 else 0) + n.m_previousParents.length =
      (ownersOf s.heap N).length := by
  constructor
  · simp [countParents, hN, Nat.add_comm]
  · have hperm := owners_perm_parents (reachable_inv hr) N
    have hlen := hperm.length_eq
    simp only [parentsIn, hN, length_parentsOf] at hlen
    rw [← hlen, Nat.add_comm]

/-- C9 at the node `C` that was attached to `A` and then to `B`: two parents, two
owners. -/
theorem C9_countParents_witness :
    countParents example2.heap 2 = some 2 ∧ (ownersOf example2.heap 2).length = 2 :=
  have h := C9_countParents fnv1a example2 reachable_example2 2
    { fresh NodeClass.BaseNode ['C'] with m_parent := some 1, m_previousParents := [0] } rfl
  ⟨h.1, h.2.symm⟩

/-- C10. In every reachable state the current parent of a node, when there is one,
holds the node among its children, and so does every entry of its history; the
entries of the history and the current parent are pairwise different. -/
theorem C10_parents_are_owners (hash : List Char → Nat) (s : State) (hr : Reachable hash s)
    (N : NodeId) (n : BaseNode) (hN : s.heap[N]? = some n) :
    (∀ p, n.m_parent = some p → ∃ pn, s.heap[p]? = some pn ∧ N ∈ pn.m_children) ∧
    (∀ x ∈ n.m_previousParents, ∃ xn, s.heap[x]? = some xn ∧ N ∈ xn.m_children) ∧
    (n.m_previousParents ++ n.m_parent.toList).Nodup := by
  have hinv := reachable_inv hr
  have howner : ∀ x, x ∈ parentsOf n → ∃ xn, s.heap[x]? = some xn ∧ N ∈ xn.m_children := by
    intro x hx
    have hmem : N ∈ childrenOf s.heap x :=
      (hinv.owner N x).mp (by simpa [parentsIn, hN] using hx)
    unfold childrenOf at hmem
    cases hxn : s.heap[x]? with
    | none => simp [hxn] at hmem
    | some xn => exact ⟨xn, rfl, by simpa [hxn] using hmem⟩
  refine ⟨fun p hp => howner p ((mem_parentsOf n p).mpr (Or.inr hp)),
    fun x hx => howner x ((mem_parentsOf n x).mpr (Or.inl hx)), ?_⟩
  have := hinv.nodup N
  simpa [parentsIn, hN, parentsOf] using this

/-- C10 at the node `C` that was attached to `A` and then to `B`. -/
theorem C10_parents_are_owners_witness :
    (∃ pn, example2.heap[1]? = some pn ∧ 2 ∈ pn.m_children) ∧
    (∃ xn, example2.heap[0]? = some xn ∧ 2 ∈ xn.m_children) :=
  have h := C10_parents_are_owners fnv1a example2 reachable_example2 2
    { fresh NodeClass.BaseNode ['C'] with m_parent := some 1, m_previousParents := [0] } rfl
  ⟨h.1 1 rfl, h.2.1 0 (by decide)⟩

/-! ## Successful removals -/

theorem children_after_set {h : Heap} {X C : NodeId} {x c c' : BaseNode}
    (hX : h[X]? = some x) (hC : h[C]? = some c) (hch : c'.m_children = c.m_children) :
    ∃ p, (h.set C c')[X]? = some p ∧ p.m_children = x.m_children := by
  rw [getElem?_set_of_some c' hC]
  by_cases h1 : C = X
  · subst h1
    rw [hX] at hC
    have : x = c := Option.some.inj hC
    subst this
    exact ⟨c', by simp, hch⟩
  · exact ⟨x, by simp [h1, hX], rfl⟩

theorem removeChildNode_of {fuel : Nat} {s : State} {X C : NodeId} {x c c' : BaseNode}
    {evs : List Event}
    (hX : s.heap[X]? = some x) (hC : s.heap[C]? = some c) (hu : unlink X c = some c')
    (hprop : propagateSubChildChange fuel (s.heap.set C c') X Change.REMOVE C = some evs)
    (hmem : C ∈ x.m_children) :
    removeChildNode fuel s X C = some (true, removed s X C c' evs) := by
  obtain ⟨p, hp, hpc⟩ := children_after_set hX hC (unlink_spec hu).1
  unfold removeChildNode
  simp only [hX, hC, hu, hprop, hp, hpc, hmem, if_true, removed, modifyNode]

theorem removeChild_of {hash : List Char → Nat} {fuel : Nat} {s : State} {X C : NodeId}
    {name : List Char} {i : Nat} {x c c' : BaseNode} {evs : List Event}
    (hX : s.heap[X]? = some x)
    (hfind : findChildByHash s.heap x.m_children (hash name) = some i)
    (hi : x.m_children[i]? = some C)
    (hC : s.heap[C]? = some c) (hu : unlink X c = some c')
    (hprop : propagateSubChildChange fuel (s.heap.set C c') X Change.REMOVE C = some evs) :
    removeChild hash fuel s X name = some (true, removed s X C c' evs) := by
  obtain ⟨p, hp, hpc⟩ := children_after_set hX hC (unlink_spec hu).1
  obtain ⟨herase, _, _⟩ := eraseIdx_findIdx? _ x.m_children i C hfind hi
  have hheap : modifyNode (s.heap.set C c') X
        (fun p => { p with m_children := p.m_children.eraseIdx i }) =
      modifyNode (s.heap.set C c') X
        (fun p => { p with m_children := p.m_children.erase C }) := by
    apply modifyNode_congr _ _ p _ _ hp
    simp only [hpc, herase]
  unfold removeChild
  simp only [hX, hfind, hi, hC, hu, hprop, hheap, removed]

/-- Among children with pairwise different hashes, `find_if` stops at the one child
that has the hash looked for. -/
theorem findChildByHash_of_mem (h : Heap) (v : Nat) :
    ∀ (l : List NodeId) (C : NodeId), (l.map (nameHashOf h)).Nodup → C ∈ l →
      nameHashOf h C = some v →
      ∃ i, findChildByHash h l v = some i ∧ l[i]? = some C
  | [], _, _, hmem, _ => by simp at hmem
  | a :: as, C, hnd, hmem, hv => by
    unfold findChildByHash
    simp only [List.findIdx?]
    by_cases ha : a = C
    · subst ha
      exact ⟨0, by simp [hv], by simp⟩
    · have hmem' : C ∈ as := by
        rcases List.mem_cons.mp hmem with h1 | h1
        · exact absurd h1.symm ha
        · exact h1
      rw [List.map_cons, List.nodup_cons] at hnd
      have hne : nameHashOf h a ≠ some v := by
        intro heq
        apply hnd.1
        rw [heq, ← hv]
        exact List.mem_map_of_mem _ hmem'
      obtain ⟨i, hi, hget⟩ := findChildByHash_of_mem h v as C hnd.2 hmem' hv
      refine ⟨i + 1, ?_, by simpa using hget⟩
      unfold findChildByHash at hi
      simp only [beq_iff_eq, hne, if_false]
      rw [findIdx?_go_succ, hi]
      rfl

theorem not_mem_parents_of_settles {h : Heap} {x : NodeId} (hs : Settles h x) :
    x ∉ parentsIn h x := by
  intro hmem
  obtain ⟨fuel, hf⟩ := hs
  induction fuel with
  | zero => simp [propagateSubChildChange] at hf
  | succ k ih =>
    rw [propagate_isSome_succ] at hf
    exact ih (hf.2 x hmem)

/-- C3. In a reachable state let `X` hold `C` among its children, not be the current
parent of `C`, and occur in the history of `C`. Then `removeChild(X, C)`, by reference
and by a name with the hash of `C`, returns `true`, and both leave the same state: in
the history of `C` the entry `X` is gone and the other entries keep their order, the
parent (and every other member) of `C` is as before, `C` is erased from the children
of `X`, and every other node is as before. -/
theorem C3_remove_via_history (hash : List Char → Nat) (s : State) (hr : Reachable hash s)
    (X C : NodeId) (x c : BaseNode)
    (hX : s.heap[X]? = some x) (hC : s.heap[C]? = some c)
    (hmem : C ∈ x.m_children) (hnp : c.m_parent ≠ some X) (hhist : X ∈ c.m_previousParents)
    (name : List Char) (hname : hash name = c.m_nameHash) :
    ∃ fuel s',
      removeChildNode fuel s X C = some (true, s') ∧
      removeChild hash fuel s X name = some (true, s') ∧
      s'.heap[C]? = some { c with m_previousParents := c.m_previousParents.erase X } ∧
      c.m_previousParents.erase X = c.m_previousParents.filter (fun y => y != X) ∧
      s'.heap[X]? = some { x with m_children := x.m_children.erase C } ∧
      C ∉ x.m_children.erase C ∧
      ∀ j, j ≠ X → j ≠ C → s'.heap[j]? = s.heap[j]? := by
  have hinv := reachable_inv hr
  have hu : unlink X c =
      some { c with m_previousParents := c.m_previousParents.erase X } := by
    simp [unlink, hnp, hhist]
  have hXC : X ≠ C := by
    intro heq
    subst heq
    have hs := hinv.settles X (lt_of_getElem? hX)
    apply not_mem_parents_of_settles hs
    rw [hX] at hC
    have : x = c := Option.some.inj hC
    subst this
    simpa [parentsIn, hX] using (mem_parentsOf x X).mpr (Or.inl hhist)
  have hCX : C ≠ X := fun e => hXC e.symm
  have hul := unlinked_of_unlink s.heap X C x c _ hX hC hu hmem
  -- the propagation from `X` comes back in the heap with the history entry gone
  obtain ⟨fuel, hfuel⟩ := (hinv.settles X (lt_of_getElem? hX)).fuel Change.REMOVE C
  have hsome : (propagateSubChildChange fuel
      (s.heap.set C { c with m_previousParents := c.m_previousParents.erase X })
      X Change.REMOVE C).isSome = true := by
    apply propagate_isSome_of_subset s.heap _ _ _ (by simp) _ fuel X (hfuel fuel (le_refl _))
    intro a b hb
    by_cases ha : a = C
    · subst ha
      have hsub : (parentsOf
          { c with m_previousParents := c.m_previousParents.erase X }).Sublist (parentsOf c) :=
        (unlink_spec hu).2.2.2.2.2.1
      have hb' : b ∈ parentsOf { c with m_previousParents := c.m_previousParents.erase X } := by
        simpa [parentsIn, getElem?_set_of_some _ hC] using hb
      simpa [parentsIn, hC] using hsub.subset hb'
    · have ha' : ¬ C = a := fun e => ha e.symm
      simpa [parentsIn, getElem?_set_of_some _ hC, ha'] using hb
  obtain ⟨evs, hevs⟩ := Option.isSome_iff_exists.mp hsome
  obtain ⟨i, hfind, hi⟩ := findChildByHash_of_mem s.heap (hash name) x.m_children C
    (by simpa [childrenOf, hX] using hinv.hashes X) hmem (by simp [nameHashOf, hC, hname])
  have hndp : c.m_previousParents.Nodup := by
    have := hinv.nodup C
    simp only [parentsIn, hC, parentsOf] at this
    exact (List.nodup_append.mp this).1
  have hndc : x.m_children.Nodup := by
    simpa [childrenOf, hX] using hinv.children_nodup X
  refine ⟨fuel, removed s X C _ evs, removeChildNode_of hX hC hu hevs hmem,
    removeChild_of hX hfind hi hC hu hevs, ?_, hndp.erase_eq_filter X, ?_, ?_, ?_⟩
  · simp [removed, getElem?_modifyNode, getElem?_set_of_some _ hC, hXC]
  · simp [removed, getElem?_modifyNode, getElem?_set_of_some _ hC, hCX, hX]
  · rw [hndc.mem_erase_iff]; simp
  · intro j hjX hjC
    have h1 : ¬ X = j := fun e => hjX e.symm
    have h2 : ¬ C = j := fun e => hjC e.symm
    simp [removed, getElem?_modifyNode, getElem?_set_of_some _ hC, h1, h2]

/-- C3 at the node `C` that was attached to `A` and then to `B`, removed from `A`:
`B` stays its parent and the history is empty. -/
theorem C3_remove_via_history_witness :
    ∃ fuel s',
      removeChildNode fuel example2 0 2 = some (true, s') ∧
      removeChild fnv1a fuel example2 0 ['C'] = some (true, s') ∧
      s'.heap[2]? = some { fresh NodeClass.BaseNode ['C'] with m_parent := some 1 } ∧
      s'.heap[0]? = some (fresh NodeClass.Node ['A']) ∧
      s'.heap[1]? = example2.heap[1]? :=
  have ⟨fuel, s', h1, h2, h3, _, h5, _, h7⟩ :=
    C3_remove_via_history fnv1a example2 reachable_example2 0 2
      { fresh NodeClass.Node ['A'] with m_children := [2] }
      { fresh NodeClass.BaseNode ['C'] with m_parent := some 1, m_previousParents := [0] }
      rfl rfl (by decide) (by decide) (by decide) ['C'] rfl
  ⟨fuel, s', h1, h2, h3, h5, h7 1 (by decide) (by decide)⟩

theorem mem_childrenOf {h : Heap} {x c : NodeId} (hmem : c ∈ childrenOf h x) :
    ∃ xn, h[x]? = some xn ∧ c ∈ xn.m_children := by
  unfold childrenOf at hmem
  cases hxn : h[x]? with
  | none => simp [hxn] at hmem
  | some xn => exact ⟨xn, rfl, by simpa [hxn] using hmem⟩

/-- C2. In a reachable state let `A` be the current parent of `C` and the history of
`C` be empty, and let `addChild(B, C)` succeed for a `B` other than `A`. Afterwards the
parent of `C` is `B` and the last entry of its history is `A`. A `removeChild(B, C)`
that follows, by reference or by a name with the hash of `C`, returns `true`; both
leave the same state, in which the parent of `C` is `A`, its history is empty and `C`
is among the children of `A`. -/
theorem C2_reparent_and_back (hash : List Char → Nat) (s : State) (hr : Reachable hash s)
    (A B C : NodeId) (c : BaseNode) (hC : s.heap[C]? = some c)
    (hpar : c.m_parent = some A) (hhist : c.m_previousParents = []) (hAB : B ≠ A)
    (fuel : Nat) (s1 : State) (hadd : addChild fuel s B C = some (true, s1))
    (name : List Char) (hname : hash name = c.m_nameHash) :
    (∃ c1, s1.heap[C]? = some c1 ∧ c1.m_parent = some B ∧
      c1.m_previousParents.getLast? = some A) ∧
    ∃ s2, removeChildNode fuel s1 B C = some (true, s2) ∧
      removeChild hash fuel s1 B name = some (true, s2) ∧
      (∃ c2, s2.heap[C]? = some c2 ∧ c2.m_parent = some A ∧ c2.m_previousParents = []) ∧
      (∃ a, s2.heap[A]? = some a ∧ C ∈ a.m_children) := by
  have hinv := reachable_inv hr
  have hinv1 := reachable_inv (Reachable.addChild hr hadd)
  obtain ⟨hl, _⟩ := addChild_linked hadd
  obtain ⟨p, c0, hP, hC0, hcase⟩ := addChild_eq_some hadd
  rcases hcase with ⟨hb, _⟩ | ⟨_, _, _, evs, hprop, hs1⟩
  · cases hb
  have hcc : c0 = c := by rw [hC] at hC0; exact (Option.some.inj hC0).symm
  subst hcc
  have hheap : s1.heap = link s.heap B C := by rw [hs1]
  -- `B` is not `C`: the propagation would not come back
  have hBC : B ≠ C := by
    intro heq
    have hs := hinv1.settles C (by rw [hl.len]; exact hl.validC)
    apply not_mem_parents_of_settles hs
    rw [hl.parents]
    simp [heq]
  have hCB : C ≠ B := fun e => hBC e.symm
  have hC1 : s1.heap[C]? = some (reparent B c0) := by
    rw [hheap, getElem?_link, hC]; simp [hBC]
  have hB1 : s1.heap[B]? = some (pushChild C p) := by
    rw [hheap, getElem?_link, hP]; simp [hCB]
  have hre : reparent B c0 =
      { c0 with m_parent := some B, m_previousParents := [A] } := by
    simp [reparent, hpar, hhist]
  have hu : unlink B (reparent B c0) = some c0 := by
    rw [hre]
    simp only [unlink, if_true, List.getLast?_singleton, List.dropLast_single]
    congr 1
    cases c0
    simp_all
  have hsome : (propagateSubChildChange fuel (s1.heap.set C c0) B Change.REMOVE C).isSome
      = true := by
    have h0 : (propagateSubChildChange fuel s1.heap B Change.REMOVE C).isSome = true :=
      propagate_isSome_indep _ Change.ADD _ C _ fuel B (by rw [hheap, hprop]; rfl)
    apply propagate_isSome_of_subset s1.heap _ _ _ (by simp) _ fuel B h0
    intro a b hb
    by_cases ha : a = C
    · subst ha
      have hb' : b ∈ parentsOf c0 := by
        simpa [parentsIn, getElem?_set_of_some _ hC1] using hb
      have hsub := (unlink_spec hu).2.2.2.2.2.1
      simpa [parentsIn, hC1] using hsub.subset hb'
    · have ha' : ¬ C = a := fun e => ha e.symm
      simpa [parentsIn, getElem?_set_of_some _ hC1, ha'] using hb
  obtain ⟨evs', hevs'⟩ := Option.isSome_iff_exists.mp hsome
  have hmemB : C ∈ (pushChild C p).m_children := by simp [pushChild]
  obtain ⟨i, hfind, hi⟩ := findChildByHash_of_mem s1.heap (hash name)
    (pushChild C p).m_children C
    (by simpa [childrenOf, hB1] using hinv1.hashes B) hmemB
    (by simp [nameHashOf, hC1, hname, reparent])
  have hremN := removeChildNode_of hB1 hC1 hu hevs' hmemB
  have hul := removeChildNode_unlinked hremN
  refine ⟨⟨_, hC1, by simp [reparent], by simp [hre]⟩, removed s1 B C c0 evs', hremN,
    removeChild_of hB1 hfind hi hC1 hu hevs', ⟨c0, ?_, hpar, hhist⟩, ?_⟩
  · simp [removed, getElem?_modifyNode, getElem?_set_of_some _ hC1, hBC]
  · apply mem_childrenOf
    have hAB' : A ≠ B := fun e => hAB e.symm
    rw [hul.children]
    simp only [hAB', if_false]
    rw [hl.children]
    simp only [hAB', if_false]
    exact (hinv.owner C A).mp (by simp [parentsIn, hC, parentsOf, hpar, hhist])

/-- C2 at the node `C` under `A`, attached to `B` and removed from it again. -/
theorem C2_reparent_and_back_witness :
    (∃ c1, example2.heap[2]? = some c1 ∧ c1.m_parent = some 1 ∧
      c1.m_previousParents.getLast? = some 0) ∧
    ∃ s2, removeChildNode 1 example2 1 2 = some (true, s2) ∧
      removeChild fnv1a 1 example2 1 ['C'] = some (true, s2) ∧
      (∃ c2, s2.heap[2]? = some c2 ∧ c2.m_parent = some 0 ∧ c2.m_previousParents = []) ∧
      (∃ a, s2.heap[0]? = some a ∧ 2 ∈ a.m_children) :=
  C2_reparent_and_back fnv1a example1 reachable_example1 0 1 2
    { fresh NodeClass.BaseNode ['C'] with m_parent := some 0 } rfl rfl rfl (by decide)
    1 example2 addChild_example1 ['C'] rfl

/-! ## Depth-bounded search -/

theorem getNodesByNameHash_stable (h : Heap) (v : Nat) :
    ∀ (H : Nat) (root : NodeId) (d : Nat), heightAtMost h H root = true → H ≤ d →
      getNodesByNameHash h root v d = getNodesByNameHash h root v H := by
  intro H
  induction H with
  | zero =>
    intro root d hH _
    cases d with
    | zero => rfl
    | succ d' =>
      simp only [getNodesByNameHash]
      simp only [heightAtMost] at hH
      cases hroot : h[root]? with
      | none => rfl
      | some n =>
        simp only [hroot, List.isEmpty_iff] at hH
        simp [hH]
  | succ k ih =>
    intro root d hH hle
    obtain ⟨d', rfl⟩ : ∃ d', d = d' + 1 := ⟨d - 1, by omega⟩
    simp only [getNodesByNameHash]
    simp only [heightAtMost] at hH
    cases hroot : h[root]? with
    | none => rfl
    | some n =>
      simp only [hroot, List.all_eq_true] at hH
      simp only [List.flatMap]
      congr 1
      apply List.map_congr_left
      intro child hchild
      rw [ih child d' (hH child hchild) (by omega)]

/-- C8. A search of depth `0` finds nothing. Where the subtree below `root` is a finite
tree of height at most `H`, with `H` below `2^32`, a search of any depth `d` from `H`
on finds what the search of the default depth `0xFFFFFFFF` finds. -/
theorem C8_search_depth (h : Heap) (root : NodeId) (nameHash H d : Nat)
    (hH : heightAtMost h H root = true) (hlt : H < 2 ^ 32) (hle : H ≤ d) :
    getNodesByNameHash h root nameHash 0 = [] ∧
    getNodesByNameHash h root nameHash d =
      getNodesByNameHash h root nameHash unboundedDepth := by
  refine ⟨rfl, ?_⟩
  rw [getNodesByNameHash_stable h nameHash H root d hH hle,
    getNodesByNameHash_stable h nameHash H root unboundedDepth hH
      (by unfold unboundedDepth; omega)]

/-- C8 below the node `A` that holds `C`, a tree of height 1, searched with depth 1:
both searches find `C`. -/
theorem C8_search_depth_witness :
    heightAtMost example2.heap 1 0 = true ∧
    getNodesByNameHash example2.heap 0 (fnv1a ['C']) 0 = [] ∧
    getNodesByNameHash example2.heap 0 (fnv1a ['C']) 1 = [2] ∧
    getNodesByNameHash example2.heap 0 (fnv1a ['C']) unboundedDepth = [2] :=
  have h := C8_search_depth example2.heap 0 (fnv1a ['C']) 1 1 (by decide) (by decide)
    (le_refl 1)
  have h1 : getNodesByNameHash example2.heap 0 (fnv1a ['C']) 1 = [2] := by decide
  ⟨by decide, h.1, h1, h.2 ▸ h1⟩

/-! ## Path resolution -/

theorem getNodeByPath_eq (hash : List Char → Nat) (h : Heap) (this : NodeId)
    (path : List Char) :
    getNodeByPath hash h this path =
      match find path '/' 0 with
      | none => (childrenOf h this).find? (fun child => nameOf h child == some path)
      | some firstSlash =>
        ((childrenOf h this).find?
            (fun child => nameHashOf h child == some (hash (substr path 0 firstSlash)))).bind
          (fun containingChild =>
            getNodeByPath hash h containingChild (substrFrom path (firstSlash + 1))) := by
  rw [getNodeByPath]
  unfold childrenOf
  cases hthis : h[this]? with
  | none => cases find path '/' 0 <;> simp
  | some n =>
    simp only
    split
    · rename_i hf; simp [hf]
    · rename_i i hf
      simp only [hf]
      cases n.m_children.find?
        (fun child => nameHashOf h child == some (hash (substr path 0 i))) <;> simp

theorem find_eq_none_of_not_mem (c : Char) :
    ∀ (s : List Char), c ∉ s → find s c 0 = none
  | [], _ => rfl
  | x :: xs, hn => by
    have hx : x ≠ c := fun e => hn (e ▸ List.mem_cons_self _ _)
    have hxs : c ∉ xs := fun hm => hn (List.mem_cons_of_mem _ hm)
    simp [find, hx, find_eq_none_of_not_mem c xs hxs]

theorem find_segment (c : Char) (rest : List Char) :
    ∀ (seg : List Char), c ∉ seg → find (seg ++ c :: rest) c 0 = some seg.length
  | [], _ => by simp [find]
  | x :: xs, hn => by
    have hx : x ≠ c := fun e => hn (e ▸ List.mem_cons_self _ _)
    have hxs : c ∉ xs := fun hm => hn (List.mem_cons_of_mem _ hm)
    simp [find, hx, find_segment c rest xs hxs]

/-- A path without separator: looked up among the children by stored name. -/
theorem getNodeByPath_last (hash : List Char → Nat) (h : Heap) (this : NodeId)
    (seg : List Char) (hseg : '/' ∉ seg) :
    getNodeByPath hash h this seg =
      (childrenOf h this).find? (fun child => nameOf h child == some seg) := by
  rw [getNodeByPath_eq, find_eq_none_of_not_mem '/' seg hseg]

/-- A path with a first segment `seg` and a rest: the first child with the hash of
`seg` is entered. -/
theorem getNodeByPath_segment (hash : List Char → Nat) (h : Heap) (this : NodeId)
    (seg rest : List Char) (hseg : '/' ∉ seg) :
    getNodeByPath hash h this (seg ++ '/' :: rest) =
      ((childrenOf h this).find?
          (fun child => nameHashOf h child == some (hash seg))).bind
        (fun containingChild => getNodeByPath hash h containingChild rest) := by
  rw [getNodeByPath_eq, find_segment '/' rest seg hseg]
  simp [substr, substrFrom]

/-! ## A name with a separator -/

theorem reachable_slash0 : Reachable fnv1a slash0 := by
  have h1 := Reachable.create NodeClass.Node ['R'] (@Reachable.init fnv1a)
  have h2 := Reachable.create NodeClass.BaseNode ['a', '/', 'b'] h1
  have h3 := Reachable.create NodeClass.BaseNode ['a', '_', 'b'] h2
  simp only [create_eq] at h3
  exact h3

theorem addChild_slash0 : addChild 1 slash0 0 1 = some (true, slash1) := by decide

theorem addChild_slash1 : addChild 1 slash1 0 2 = some (true, slash2) := by decide

theorem slash2_heap :
    slash2.heap =
      [{ fresh NodeClass.Node ['R'] with m_children := [1, 2] },
       { fresh NodeClass.BaseNode ['a', '_', 'b'] with
           m_nameHash := fnv1a ['a', '/', 'b'], m_parent := some 0 },
       { fresh NodeClass.BaseNode ['a', '_', 'b'] with m_parent := some 0 }] := by decide

theorem reachable_deep0 : Reachable fnv1a deep0 := by
  have h1 := Reachable.create NodeClass.Node ['R'] (@Reachable.init fnv1a)
  have h2 := Reachable.create NodeClass.Node ['a', '/', 'b'] h1
  have h3 := Reachable.create NodeClass.Node ['y'] h2
  have h4 := Reachable.create NodeClass.BaseNode ['z'] h3
  simp only [create_eq] at h4
  exact h4

theorem addChild_deep0 : addChild 1 deep0 0 1 = some (true, deep1) := by decide

theorem addChild_deep1 : addChild 2 deep1 1 2 = some (true, deep2) := by decide

theorem addChild_deep2 : addChild 3 deep2 2 3 = some (true, deep3) := by decide

theorem reachable_deep3 : Reachable fnv1a deep3 :=
  Reachable.addChild (Reachable.addChild
    (Reachable.addChild reachable_deep0 addChild_deep0) addChild_deep1) addChild_deep2

theorem deep3_heap :
    deep3.heap =
      [{ fresh NodeClass.Node ['R'] with m_children := [1] },
       { fresh NodeClass.Node ['a', '_', 'b'] with
           m_nameHash := fnv1a ['a', '/', 'b'], m_children := [2], m_parent := some 0 },
       { fresh NodeClass.Node ['y'] with m_children := [3], m_parent := some 1 },
       { fresh NodeClass.BaseNode ['z'] with m_parent := some 2 }] := by decide

/-- C7, the code at the failing input. The root `R` holds the node made from `a/b`,
stored as `a_b`; the node `B` made from `a_b` is attached with success, and
`getNodeByPath(R, getName(B))` returns the node made from `a/b`, not `B`. -/
theorem C7_getNodeByPath_returns_sibling :
    Reachable fnv1a slash1 ∧
    addChild 1 slash1 0 2 = some (true, slash2) ∧
    getName slash2.heap 2 = some ['a', '_', 'b'] ∧
    getNodeByPath fnv1a slash2.heap 0 ['a', '_', 'b'] = some 1 := by
  refine ⟨Reachable.addChild reachable_slash0 addChild_slash0, addChild_slash1, by decide, ?_⟩
  rw [getNodeByPath_last _ _ _ _ (by decide)]
  decide

theorem joinPath_append (segs : List (List Char)) (last n : List Char) :
    joinPath segs last ++ '/' :: n = joinPath (segs ++ [last]) n := by
  induction segs with
  | nil => rfl
  | cons seg rest ih =>
    simp only [joinPath, List.foldr_cons, List.cons_append, List.append_assoc] at ih ⊢
    rw [ih]

theorem getNodeByPath_joinPath (hash : List Char → Nat) (h : Heap) (last : List Char)
    (hlast : '/' ∉ last) :
    ∀ (segs : List (List Char)) (this : NodeId), (∀ seg ∈ segs, '/' ∉ seg) →
      getNodeByPath hash h this (joinPath segs last) =
        (descend hash h this segs).bind (fun y =>
          (childrenOf h y).find? (fun child => nameOf h child == some last))
  | [], this, _ => by simp [joinPath, descend, getNodeByPath_last _ _ _ _ hlast]
  | seg :: rest, this, hsegs => by
    have hseg : '/' ∉ seg := hsegs seg (List.mem_cons_self _ _)
    have hrest : ∀ s ∈ rest, '/' ∉ s := fun s hs => hsegs s (List.mem_cons_of_mem _ hs)
    have hj : joinPath (seg :: rest) last = seg ++ '/' :: joinPath rest last := rfl
    rw [hj, getNodeByPath_segment _ _ _ _ _ hseg]
    simp only [descend]
    cases hf : (childrenOf h this).find?
        (fun child => nameHashOf h child == some (hash seg)) with
    | none => rfl
    | some c =>
      simp only [Option.some_bind]
      exact getNodeByPath_joinPath hash h last hlast rest c hrest

theorem descend_append (hash : List Char → Nat) (h : Heap) (last : List Char) :
    ∀ (segs : List (List Char)) (this : NodeId),
      descend hash h this (segs ++ [last]) =
        (descend hash h this segs).bind (fun y =>
          (childrenOf h y).find? (fun child => nameHashOf h child == some (hash last)))
  | [], this => by
    simp only [List.nil_append, descend, Option.some_bind]
    cases hf : (childrenOf h this).find?
        (fun child => nameHashOf h child == some (hash last)) <;> rfl
  | seg :: rest, this => by
    simp only [List.cons_append, descend]
    cases hf : (childrenOf h this).find?
        (fun child => nameHashOf h child == some (hash seg)) with
    | none => rfl
    | some c =>
      simp only [Option.some_bind]
      exact descend_append hash h last rest c

/-- Among children with pairwise different hashes, the first child with a hash is the
child with that hash. -/
theorem find?_hash_of_mem (h : Heap) (v : Nat) :
    ∀ (l : List NodeId) (C : NodeId), (l.map (nameHashOf h)).Nodup → C ∈ l →
      nameHashOf h C = some v →
      l.find? (fun child => nameHashOf h child == some v) = some C
  | [], _, _, hmem, _ => by simp at hmem
  | a :: as, C, hnd, hmem, hv => by
    by_cases ha : a = C
    · subst ha; simp [hv]
    · have hmem' : C ∈ as := by
        rcases List.mem_cons.mp hmem with h1 | h1
        · exact absurd h1.symm ha
        · exact h1
      rw [List.map_cons, List.nodup_cons] at hnd
      have hne : nameHashOf h a ≠ some v := by
        intro heq
        apply hnd.1
        rw [heq, ← hv]
        exact List.mem_map_of_mem _ hmem'
      rw [List.find?_cons_of_neg _ (by simpa using hne)]
      exact find?_hash_of_mem h v as C hnd.2 hmem' hv

theorem reachable_names {hash : List Char → Nat} {s : State} (hr : Reachable hash s) :
    ∀ j nm, nameOf s.heap j = some nm → '/' ∉ nm := by
  induction hr with
  | init => intro j nm h; simp [nameOf] at h
  | @create s cls name _ ih =>
    intro j nm h
    rw [create_eq] at h
    simp only [nameOf, getElem?_append_new] at h
    by_cases hj : j = s.heap.length
    · simp only [hj, if_true, Option.map_some', Option.some.injEq] at h
      subst h
      intro hmem
      obtain ⟨c, _, hc⟩ := List.mem_map.mp hmem
      unfold underscore at hc
      split at hc
      · exact absurd hc (by decide)
      · rename_i hne; exact hne hc
    · simp only [hj, if_false] at h
      exact ih j nm h
  | @addChild s s' fuel this newChild b _ hadd ih =>
    cases b with
    | false =>
      obtain ⟨_, _, _, _, hcase⟩ := addChild_eq_some hadd
      rcases hcase with ⟨_, rfl, _⟩ | ⟨hb, _⟩
      · exact ih
      · cases hb
    | true =>
      intro j nm h
      rw [(addChild_linked hadd).1.name] at h
      exact ih j nm h
  | @removeChild s s' fuel this name b _ hrem ih =>
    cases b with
    | false =>
      obtain ⟨_, _, hcase⟩ := removeChild_eq_some hrem
      rcases hcase with ⟨_, rfl⟩ | ⟨hb, _⟩
      · exact ih
      · cases hb
    | true =>
      obtain ⟨C, hu, _⟩ := removeChild_unlinked hrem
      intro j nm h
      rw [hu.name] at h
      exact ih j nm h
  | @removeChildNode s s' fuel this node b _ hrem ih =>
    cases b with
    | false =>
      obtain ⟨_, _, _, _, hcase⟩ := removeChildNode_eq_some hrem
      rcases hcase with ⟨_, rfl, _⟩ | ⟨hb, _⟩
      · exact ih
      · cases hb
    | true =>
      intro j nm h
      rw [(removeChildNode_unlinked hrem).name] at h
      exact ih j nm h

theorem descend_linked (hash : List Char → Nat) {h h' : Heap} {P C : NodeId}
    (hl : Linked h h' P C) :
    ∀ (segs : List (List Char)) (this Y : NodeId),
      descend hash h this segs = some Y → descend hash h' this segs = some Y
  | [], _, _, hd => hd
  | seg :: rest, this, Y, hd => by
    simp only [descend] at hd ⊢
    have hfun : nameHashOf h' = nameHashOf h := funext hl.hash
    cases hf : (childrenOf h this).find?
        (fun child => nameHashOf h child == some (hash seg)) with
    | none => simp [hf] at hd
    | some c =>
      simp only [hf, Option.some_bind] at hd
      have hf' : (childrenOf h' this).find?
          (fun child => nameHashOf h' child == some (hash seg)) = some c := by
        rw [hfun, hl.children]
        by_cases ht : this = P
        · subst ht
          simp only [if_true, List.find?_append, hf, Option.or_some]
        · simp only [ht, if_false, hf]
      simp only [hf', Option.some_bind]
      exact descend_linked hash hl rest c Y hd

theorem Linked.mem_children {h h' : Heap} {P C : NodeId} (hl : Linked h h' P C)
    {x c : NodeId} (hmem : c ∈ childrenOf h x) : c ∈ childrenOf h' x := by
  rw [hl.children]
  by_cases hx : x = P
  · subst hx; simp [hmem]
  · simp [hx, hmem]

/-- C6, as the code has it. In a reachable state and for segments without separator:
`getNodeByPath(root, x/y/z)` is not `nullptr` exactly when `root` has a direct child
whose `m_nameHash` is the hash of `x`, that child has a direct child whose
`m_nameHash` is the hash of `y`, and that one has a direct child whose stored name is
`z`. And when `getNodeByPath(root, p)` returns `X`, the `m_nameHash` of `X` is the hash
of the last segment of `p`, and a node with the stored name `n` is attached below `X`
with success, then `getNodeByPath(root, p + "/" + n)` returns a node with the stored
name `n`. -/
theorem C6_getNodeByPath_by_hash (hash : List Char → Nat) (s : State)
    (hr : Reachable hash s) (root : NodeId) :
    (∀ x y z : List Char, '/' ∉ x → '/' ∉ y → '/' ∉ z →
      (getNodeByPath hash s.heap root (joinPath [x, y] z) ≠ none ↔
        ∃ c1 ∈ childrenOf s.heap root, nameHashOf s.heap c1 = some (hash x) ∧
        ∃ c2 ∈ childrenOf s.heap c1, nameHashOf s.heap c2 = some (hash y) ∧
        ∃ c3 ∈ childrenOf s.heap c2, nameOf s.heap c3 = some z)) ∧
    (∀ (segs : List (List Char)) (last n : List Char) (X N : NodeId) (fuel : Nat)
        (s' : State),
      (∀ seg ∈ segs, '/' ∉ seg) → '/' ∉ last →
      getNodeByPath hash s.heap root (joinPath segs last) = some X →
      nameHashOf s.heap X = some (hash last) →
      nameOf s.heap N = some n →
      addChild fuel s X N = some (true, s') →
      ∃ M, getNodeByPath hash s'.heap root (joinPath segs last ++ '/' :: n) = some M ∧
        nameOf s'.heap M = some n) := by
  have hinv := reachable_inv hr
  constructor
  · intro x y z hx hy hz
    have hpath : joinPath [x, y] z = x ++ '/' :: (y ++ '/' :: z) := rfl
    rw [hpath, getNodeByPath_segment _ _ _ _ _ hx]
    constructor
    · intro hne
      cases h1 : (childrenOf s.heap root).find?
          (fun child => nameHashOf s.heap child == some (hash x)) with
      | none => simp [h1] at hne
      | some c1 =>
        simp only [h1, Option.some_bind] at hne
        rw [getNodeByPath_segment _ _ _ _ _ hy] at hne
        cases h2 : (childrenOf s.heap c1).find?
            (fun child => nameHashOf s.heap child == some (hash y)) with
        | none => simp [h2] at hne
        | some c2 =>
          simp only [h2, Option.some_bind] at hne
          rw [getNodeByPath_last _ _ _ _ hz] at hne
          cases h3 : (childrenOf s.heap c2).find?
              (fun child => nameOf s.heap child == some z) with
          | none => exact absurd h3 hne
          | some c3 =>
            refine ⟨c1, List.mem_of_find?_eq_some h1, by simpa using List.find?_some h1,
              c2, List.mem_of_find?_eq_some h2, by simpa using List.find?_some h2,
              c3, List.mem_of_find?_eq_some h3, by simpa using List.find?_some h3⟩
    · rintro ⟨c1, hm1, hh1, c2, hm2, hh2, c3, hm3, hn3⟩
      rw [find?_hash_of_mem s.heap (hash x) _ c1 (hinv.hashes root) hm1 hh1]
      simp only [Option.some_bind]
      rw [getNodeByPath_segment _ _ _ _ _ hy,
        find?_hash_of_mem s.heap (hash y) _ c2 (hinv.hashes c1) hm2 hh2]
      simp only [Option.some_bind]
      rw [getNodeByPath_last _ _ _ _ hz]
      intro hnone
      rw [List.find?_eq_none] at hnone
      exact hnone c3 hm3 (by simp [hn3])
  · intro segs last n X N fuel s' hsegs hlast hres hhash hname hadd
    have hn : '/' ∉ n := reachable_names hr N n hname
    have hinv' := reachable_inv (Reachable.addChild hr hadd)
    obtain ⟨hl, _⟩ := addChild_linked hadd
    rw [getNodeByPath_joinPath hash s.heap last hlast segs root hsegs] at hres
    cases hd : descend hash s.heap root segs with
    | none => simp [hd] at hres
    | some Y =>
      simp only [hd, Option.some_bind] at hres
      have hXY : X ∈ childrenOf s'.heap Y := hl.mem_children (List.mem_of_find?_eq_some hres)
      have hd' : descend hash s'.heap root (segs ++ [last]) = some X := by
        rw [descend_append, descend_linked hash hl segs root Y hd]
        simp only [Option.some_bind]
        exact find?_hash_of_mem s'.heap (hash last) _ X (hinv'.hashes Y) hXY
          (by rw [hl.hash]; exact hhash)
      have hsegs' : ∀ seg ∈ segs ++ [last], '/' ∉ seg := by
        intro seg hseg
        rcases List.mem_append.mp hseg with h1 | h1
        · exact hsegs seg h1
        · rw [List.mem_singleton.mp h1]; exact hlast
      rw [joinPath_append, getNodeByPath_joinPath hash s'.heap n hn _ root hsegs', hd']
      simp only [Option.some_bind]
      cases hf : (childrenOf s'.heap X).find?
          (fun child => nameOf s'.heap child == some n) with
      | none =>
        rw [List.find?_eq_none] at hf
        have hNX : N ∈ childrenOf s'.heap X := by
          rw [hl.children]; simp
        exact absurd (by simp [hl.name, hname]) (hf N hNX)
      | some M =>
        exact ⟨M, rfl, by simpa using List.find?_some hf⟩

/-- C6 as stated fails. The root `R` holds the node made from `a/b`, whose stored name
is `a_b`; that node holds `y`, which holds `z`. So `R` has a child named `a_b` with a
child named `y` with a child named `z`, and yet `getNodeByPath(R, "a_b/y/z")` is
`nullptr`: the first segment is looked up by its hash, and the hash of the node is
that of `a/b`. -/
theorem C6_named_chain_not_resolved :
    Reachable fnv1a deep3 ∧
    (∃ c1 ∈ childrenOf deep3.heap 0, nameOf deep3.heap c1 = some ['a', '_', 'b'] ∧
      ∃ c2 ∈ childrenOf deep3.heap c1, nameOf deep3.heap c2 = some ['y'] ∧
      ∃ c3 ∈ childrenOf deep3.heap c2, nameOf deep3.heap c3 = some ['z']) ∧
    getNodeByPath fnv1a deep3.heap 0 (joinPath [['a', '_', 'b'], ['y']] ['z']) = none := by
  refine ⟨reachable_deep3, ?_, ?_⟩
  · rw [deep3_heap]
    exact ⟨1, by decide, by decide, 2, by decide, by decide, 3, by decide, by decide⟩
  · have hpath : joinPath [['a', '_', 'b'], ['y']] ['z'] =
        ['a', '_', 'b'] ++ '/' :: (['y'] ++ '/' :: ['z']) := rfl
    rw [hpath, getNodeByPath_segment _ _ _ _ _ (by decide), deep3_heap]
    decide

theorem reachable_test0 : Reachable fnv1a test0 := by
  have h1 := Reachable.create NodeClass.Node "test1".toList (@Reachable.init fnv1a)
  have h2 := Reachable.create NodeClass.TestNode "test4".toList h1
  have h3 := Reachable.create NodeClass.BaseNode "test5".toList h2
  simp only [create_eq] at h3
  exact h3

theorem addChild_test0 : addChild 1 test0 0 1 = some (true, test1) := by decide

theorem addChild_test1 : addChild 2 test1 1 2 = some (true, test2) := by decide

theorem getNodeByPath_test1 :
    getNodeByPath fnv1a test1.heap 0 "test4".toList = some 1 := by
  rw [getNodeByPath_last _ _ _ _ (by decide)]
  decide

/-- C6 at the nodes of the test: `test4` is resolved below `test1`, and once `test5`
is attached to it, so is `test4/test5`. -/
theorem C6_getNodeByPath_by_hash_witness :
    ∃ M, getNodeByPath fnv1a test2.heap 0 "test4/test5".toList = some M ∧
      nameOf test2.heap M = some "test5".toList :=
  (C6_getNodeByPath_by_hash fnv1a test1 (Reachable.addChild reachable_test0 addChild_test0)
    0).2 [] "test4".toList "test5".toList 1 2 2 test2 (by simp) (by decide)
    getNodeByPath_test1 (by decide) (by decide) addChild_test1

/-! ## Failing removals -/

theorem find?_of_findIdx? (p : NodeId → Bool) :
    ∀ (l : List NodeId) (i : Nat) (c : NodeId),
      l.findIdx? p = some i → l[i]? = some c → l.find? p = some c
  | [], i, c, hf, _ => by simp [List.findIdx?] at hf
  | a :: as, i, c, hf, hi => by
    simp only [List.findIdx?] at hf
    by_cases hpa : p a = true
    · simp only [hpa, if_true, Option.some.injEq] at hf
      subst hf
      simp only [List.getElem?_cons_zero, Option.some.injEq] at hi
      subst hi
      simp [hpa]
    · simp only [hpa, Bool.false_eq_true, if_false] at hf
      rw [findIdx?_go_succ, Option.map_eq_some'] at hf
      obtain ⟨k, hk, rfl⟩ := hf
      simp only [List.getElem?_cons_succ] at hi
      rw [List.find?_cons_of_neg _ hpa]
      exact find?_of_findIdx? p as k c hk hi

theorem findIdx?_of_find? (p : NodeId → Bool) :
    ∀ (l : List NodeId) (c : NodeId), l.find? p = some c →
      ∃ i, l.findIdx? p = some i ∧ l[i]? = some c
  | [], c, hf => by simp at hf
  | a :: as, c, hf => by
    by_cases hpa : p a = true
    · rw [List.find?_cons_of_pos _ hpa] at hf
      exact ⟨0, by simp [List.findIdx?, hpa], by simpa using hf⟩
    · rw [List.find?_cons_of_neg _ hpa] at hf
      obtain ⟨i, hi, hget⟩ := findIdx?_of_find? p as c hf
      refine ⟨i + 1, ?_, by simpa using hget⟩
      simp only [List.findIdx?, hpa, Bool.false_eq_true, if_false]
      rw [findIdx?_go_succ, hi]
      rfl

theorem getElem?_of_findIdx? (p : NodeId → Bool) (l : List NodeId) (i : Nat)
    (hf : l.findIdx? p = some i) : ∃ c, l[i]? = some c := by
  have hlt : i < l.length := (List.findIdx?_eq_some_iff_findIdx_eq.mp hf).1
  exact ⟨l[i], List.getElem?_eq_getElem hlt⟩

theorem unlink_eq_none_iff (X : NodeId) (c : BaseNode) :
    unlink X c = none ↔ c.m_parent ≠ some X ∧ X ∉ c.m_previousParents := by
  unfold unlink
  by_cases hp : c.m_parent = some X
  · simp [hp]
  · by_cases hm : X ∈ c.m_previousParents
    · simp [hp, hm]
    · simp [hp, hm]

/-- Where the propagation comes back from `X`, it still does once a child has given up
`X` as a parent. -/
theorem propagate_after_unlink {h : Heap} {X C : NodeId} {c c' : BaseNode}
    (hs : Settles h X) (hC : h[C]? = some c) (hu : unlink X c = some c')
    (t : Change) (ch : NodeId) :
    ∃ fuel evs, propagateSubChildChange fuel (h.set C c') X t ch = some evs := by
  obtain ⟨fuel, hfuel⟩ := hs.fuel t ch
  have hsome : (propagateSubChildChange fuel (h.set C c') X t ch).isSome = true := by
    apply propagate_isSome_of_subset h _ _ _ (by simp) _ fuel X (hfuel fuel (le_refl _))
    intro a b hb
    by_cases ha : a = C
    · subst ha
      have hsub := (unlink_spec hu).2.2.2.2.2.1
      have hb' : b ∈ parentsOf c' := by
        simpa [parentsIn, getElem?_set_of_some _ hC] using hb
      simpa [parentsIn, hC] using hsub.subset hb'
    · have ha' : ¬ C = a := fun e => ha e.symm
      simpa [parentsIn, getElem?_set_of_some _ hC, ha'] using hb
  obtain ⟨evs, hevs⟩ := Option.isSome_iff_exists.mp hsome
  exact ⟨fuel, evs, hevs⟩

theorem unlink_isSome_iff_mem {h : Heap} (hinv : Inv h) {X C : NodeId} {x c : BaseNode}
    (hX : h[X]? = some x) (hC : h[C]? = some c) :
    (c.m_parent ≠ some X ∧ X ∉ c.m_previousParents) ↔ C ∉ x.m_children := by
  have hown := hinv.owner C X
  simp only [parentsIn, hC, childrenOf, hX, mem_parentsOf] at hown
  rw [← hown]
  tauto

/-- C11. `removeChild` by name returns `false` exactly when the owner `X` has no child
with the hash of the name, or the first such child has `X` neither as its parent nor
in its history; `removeChild` by reference returns `false` exactly when `X` is neither
the parent of the node nor in its history. The state a failing call leaves is the state
it found, log included. In a reachable state the condition of the call by reference
says that the node is not among the children of `X`, and every call that does not
fail returns `true`. -/
theorem C11_removeChild_fails_exactly (hash : List Char → Nat) (s : State) (X : NodeId)
    (x : BaseNode) (hX : s.heap[X]? = some x) :
    (∀ (name : List Char) (fuel : Nat) (s' : State),
      removeChild hash fuel s X name = some (false, s') ↔
        s' = s ∧
        ((∀ ch ∈ x.m_children, nameHashOf s.heap ch ≠ some (hash name)) ∨
         ∃ C c, x.m_children.find? (fun ch => nameHashOf s.heap ch == some (hash name))
             = some C ∧
           s.heap[C]? = some c ∧ c.m_parent ≠ some X ∧ X ∉ c.m_previousParents)) ∧
    (∀ (C : NodeId) (c : BaseNode) (fuel : Nat) (s' : State), s.heap[C]? = some c →
      (removeChildNode fuel s X C = some (false, s') ↔
        s' = s ∧ c.m_parent ≠ some X ∧ X ∉ c.m_previousParents)) ∧
    (Reachable hash s →
      (∀ (C : NodeId) (c : BaseNode), s.heap[C]? = some c →
        ((c.m_parent ≠ some X ∧ X ∉ c.m_previousParents) ↔ C ∉ x.m_children) ∧
        (C ∈ x.m_children → ∃ fuel s', removeChildNode fuel s X C = some (true, s'))) ∧
      (∀ (name : List Char) (C : NodeId),
        x.m_children.find? (fun ch => nameHashOf s.heap ch == some (hash name)) = some C →
        ∃ fuel s', removeChild hash fuel s X name = some (true, s'))) := by
  refine ⟨?_, ?_, ?_⟩
  · intro name fuel s'
    unfold removeChild
    simp only [hX]
    cases hf : findChildByHash s.heap x.m_children (hash name) with
    | none =>
      have hnone : ∀ ch ∈ x.m_children, nameHashOf s.heap ch ≠ some (hash name) := by
        unfold findChildByHash at hf
        rw [List.findIdx?_eq_none_iff] at hf
        intro ch hch
        simpa using hf ch hch
      simp only [Option.some.injEq, Prod.mk.injEq, true_and]
      constructor
      · intro h; exact ⟨h.symm, Or.inl hnone⟩
      · intro h; exact h.1.symm
    | some i =>
      obtain ⟨C, hi⟩ := getElem?_of_findIdx? _ _ _ hf
      have hfind := find?_of_findIdx? _ _ _ _ hf hi
      have hpC : nameHashOf s.heap C = some (hash name) := by
        simpa using List.find?_some hfind
      have hnot : ¬ ∀ ch ∈ x.m_children, nameHashOf s.heap ch ≠ some (hash name) :=
        fun hall => hall C (List.mem_of_find?_eq_some hfind) hpC
      simp only [hi]
      cases hC : s.heap[C]? with
      | none => simp [nameHashOf, hC] at hpC
      | some c =>
        simp only []
        cases hu : unlink X c with
        | none =>
          have hcond := (unlink_eq_none_iff X c).mp hu
          simp only [Option.some.injEq, Prod.mk.injEq, true_and, hfind, hnot, false_or]
          constructor
          · intro h; exact ⟨h.symm, C, c, rfl, hC, hcond.1, hcond.2⟩
          · intro h; exact h.1.symm
        | some c' =>
          have hne : ¬ (c.m_parent ≠ some X ∧ X ∉ c.m_previousParents) := by
            rw [← unlink_eq_none_iff, hu]; simp
          constructor
          · intro h
            simp only [] at h
            cases hprop : propagateSubChildChange fuel (s.heap.set C c') X Change.REMOVE C with
            | none => simp [hprop] at h
            | some evs => simp [hprop] at h
          · rintro ⟨_, hall | ⟨C', c0, hC', hc0, h1, h2⟩⟩
            · exact absurd hall hnot
            · rw [hfind] at hC'
              have hCC : C = C' := Option.some.inj hC'
              subst hCC
              rw [hC] at hc0
              have : c = c0 := Option.some.inj hc0
              subst this
              exact absurd ⟨h1, h2⟩ hne
  · intro C c fuel s' hC
    unfold removeChildNode
    simp only [hX, hC]
    cases hu : unlink X c with
    | none =>
      have hcond := (unlink_eq_none_iff X c).mp hu
      simp only [Option.some.injEq, Prod.mk.injEq, true_and]
      constructor
      · intro h; exact ⟨h.symm, hcond⟩
      · intro h; exact h.1.symm
    | some c' =>
      have hne : ¬ (c.m_parent ≠ some X ∧ X ∉ c.m_previousParents) := by
        rw [← unlink_eq_none_iff, hu]; simp
      constructor
      · intro h
        simp only [] at h
        cases hprop : propagateSubChildChange fuel (s.heap.set C c') X Change.REMOVE C with
        | none => simp [hprop] at h
        | some evs =>
          simp only [hprop] at h
          cases hp : (s.heap.set C c')[X]? with
          | none => simp [hp] at h
          | some p =>
            simp only [hp] at h
            by_cases hmem : C ∈ p.m_children
            · simp [hmem] at h
            · simp [hmem] at h
      · rintro ⟨_, hcond⟩
        exact absurd hcond hne
  · intro hr
    have hinv := reachable_inv hr
    have hsX := hinv.settles X (lt_of_getElem? hX)
    refine ⟨?_, ?_⟩
    · intro C c hC
      refine ⟨unlink_isSome_iff_mem hinv hX hC, ?_⟩
      intro hmem
      cases hu : unlink X c with
      | none =>
        have := (unlink_isSome_iff_mem hinv hX hC).mp ((unlink_eq_none_iff X c).mp hu)
        exact absurd hmem this
      | some c' =>
        obtain ⟨fuel, evs, hevs⟩ := propagate_after_unlink hsX hC hu Change.REMOVE C
        exact ⟨fuel, _, removeChildNode_of hX hC hu hevs hmem⟩
    · intro name C hfind
      obtain ⟨i, hidx, hi⟩ := findIdx?_of_find? _ _ _ hfind
      have hmem : C ∈ x.m_children := List.mem_of_find?_eq_some hfind
      have hpC : nameHashOf s.heap C = some (hash name) := by
        simpa using List.find?_some hfind
      cases hC : s.heap[C]? with
      | none => simp [nameHashOf, hC] at hpC
      | some c =>
        cases hu : unlink X c with
        | none =>
          have := (unlink_isSome_iff_mem hinv hX hC).mp ((unlink_eq_none_iff X c).mp hu)
          exact absurd hmem this
        | some c' =>
          obtain ⟨fuel, evs, hevs⟩ := propagate_after_unlink hsX hC hu Change.REMOVE C
          exact ⟨fuel, _, removeChild_of hX hidx hi hC hu hevs⟩

/-- C11 at the node `A` that holds `C`: no child has the hash of `Z`, and `B` is not a
child of `A`; both calls fail and leave the state. -/
theorem C11_removeChild_fails_exactly_witness :
    removeChild fnv1a 1 example2 0 ['Z'] = some (false, example2) ∧
    removeChildNode 1 example2 0 1 = some (false, example2) ∧
    (∃ fuel s', removeChildNode fuel example2 0 2 = some (true, s')) :=
  have h := C11_removeChild_fails_exactly fnv1a example2 0
    { fresh NodeClass.Node ['A'] with m_children := [2] } rfl
  ⟨(h.1 ['Z'] 1 example2).mpr ⟨rfl, Or.inl (by decide)⟩,
   (h.2.1 1 { fresh NodeClass.Node ['B'] with m_children := [2] } 1 example2 rfl).mpr
     ⟨rfl, by decide, by decide⟩,
   ((h.2.2 reachable_example2).1 2
     { fresh NodeClass.BaseNode ['C'] with m_parent := some 1, m_previousParents := [0] }
     rfl).2 (by decide)⟩

/-! ## The hook calls of a successful attachment -/

theorem foldl_andThen_eq (g : NodeId → Option (List Event)) (f : NodeId → List Event) :
    ∀ (l : List NodeId) (init : List Event), (∀ y ∈ l, g y = some (f y)) →
      l.foldl (fun acc y => andThen acc (g y)) (some init) = some (init ++ l.flatMap f)
  | [], init, _ => by simp
  | a :: as, init, hg => by
    rw [List.foldl_cons, hg a (List.mem_cons_self _ _)]
    have : andThen (some init) (some (f a)) = some (init ++ f a) := rfl
    rw [this, foldl_andThen_eq g f as (init ++ f a)
      (fun y hy => hg y (List.mem_cons_of_mem _ hy))]
    simp [List.flatMap_cons]

theorem mem_callOrder (n : BaseNode) (y : NodeId) : y ∈ callOrder n ↔ y ∈ parentsOf n := by
  unfold callOrder parentsOf
  simp only [List.mem_append]
  tauto

/-- The hook calls of a propagation that comes back: one `onSubChildChange` for every
entry of the ancestry, in its order. -/
theorem propagate_eq_ancestry (h : Heap) (t : Change) (c : NodeId) :
    ∀ (fuel : Nat) (x : NodeId),
      (propagateSubChildChange fuel h x t c).isSome = true →
      propagateSubChildChange fuel h x t c =
        some ((ancestry h fuel x).map (fun a => Event.onSubChildChange a t c)) := by
  intro fuel
  induction fuel with
  | zero => intro x hx; simp [propagateSubChildChange] at hx
  | succ k ih =>
    intro x hx
    have hsub := (propagate_isSome_succ k h x t c).mp hx
    rw [propagateSubChildChange, ancestry]
    cases hn : h[x]? with
    | none =>
      rw [List.getElem?_eq_none_iff] at hn
      exact absurd hsub.1 (Nat.not_lt.mpr hn)
    | some n =>
      have hall : ∀ y ∈ callOrder n,
          (propagateSubChildChange k h y t c).map
              (fun evs => Event.onSubChildChange y t c :: evs) =
            some ((y :: ancestry h k y).map (fun a => Event.onSubChildChange a t c)) := by
        intro y hy
        have hy' : y ∈ parentsIn h x := by
          simpa [parentsIn, hn] using (mem_callOrder n y).mp hy
        rw [ih y (hsub.2 y hy')]
        simp
      simp only []
      rw [foldl_andThen_eq _
        (fun y => (y :: ancestry h k y).map (fun a => Event.onSubChildChange a t c))
        n.m_previousParents []
        (fun y hy => hall y (by simp [callOrder, hy]))]
      cases hp : n.m_parent with
      | none =>
        simp [callOrder, hp, andThen, List.map_flatMap]
      | some p =>
        have := hall p (by simp [callOrder, hp])
        simp only [this]
        simp [callOrder, hp, andThen, List.map_flatMap, List.flatMap_cons]

/-- C12. A successful `addChild(P, C)` makes its hook calls in this order:
`onChildChange(ADD, C)` on `P`, then `onParentChange(ADD, P)` on `C`, both in the heap
the call found, in which `C` is not among the children of `P` and the parent and the
history of `C` are the old ones; then one `onSubChildChange(ADD, C)` per entry of the
ancestry of `P`, in the heap the call leaves, in which `C` is among the children of `P`,
`P` is the parent of `C` and the old parent has gone to the end of the history. The log
grows by these calls, and `onParentChange(ADD, P)` on `C` is among them once. -/
theorem C12_addChild_call_order (fuel : Nat) (s s' : State) (P C : NodeId)
    (hadd : addChild fuel s P C = some (true, s')) :
    ∃ (ups : List NodeId) (c : BaseNode),
      addChildCalls fuel s P C =
        some ((Event.onChildChange P Change.ADD C, s.heap) ::
              (Event.onParentChange C Change.ADD P, s.heap) ::
              ups.map (fun a => (Event.onSubChildChange a Change.ADD C, s'.heap))) ∧
      s'.log = s.log ++
        (Event.onChildChange P Change.ADD C :: Event.onParentChange C Change.ADD P ::
          ups.map (fun a => Event.onSubChildChange a Change.ADD C)) ∧
      (Event.onChildChange P Change.ADD C :: Event.onParentChange C Change.ADD P ::
          ups.map (fun a => Event.onSubChildChange a Change.ADD C)).count
        (Event.onParentChange C Change.ADD P) = 1 ∧
      ups = ancestry s'.heap fuel P ∧
      s.heap[C]? = some c ∧ C ∉ childrenOf s.heap P ∧
      C ∈ childrenOf s'.heap P ∧
      ∃ c', s'.heap[C]? = some c' ∧ c'.m_parent = some P ∧
        c'.m_previousParents = c.m_previousParents ++ c.m_parent.toList := by
  obtain ⟨hl, hsettle⟩ := addChild_linked hadd
  obtain ⟨p, c, hP, hC, hcase⟩ := addChild_eq_some hadd
  rcases hcase with ⟨hb, _⟩ | ⟨_, hv, hfresh, evs, hprop, hs'⟩
  · cases hb
  have hheap : s'.heap = link s.heap P C := by rw [hs']
  have hevs : evs = (ancestry (link s.heap P C) fuel P).map
      (fun a => Event.onSubChildChange a Change.ADD C) := by
    have := propagate_eq_ancestry (link s.heap P C) Change.ADD C fuel P (by rw [hprop]; rfl)
    rw [hprop] at this
    exact Option.some.inj this
  have hPC : P ≠ C := by
    intro heq
    apply not_mem_parents_of_settles hsettle
    rw [hl.parents]
    simp [heq]
  refine ⟨ancestry (link s.heap P C) fuel P, c, ?_, ?_, ?_, by rw [hheap], hC, ?_, ?_, ?_⟩
  · unfold addChildCalls
    simp only [hP, hC, hv, hfresh, hprop, hevs, hheap, List.map_map]
    rfl
  · rw [hs', hevs]
    simp
  · rw [List.count_cons, List.count_cons]
    have hzero : (List.map (fun a => Event.onSubChildChange a Change.ADD C)
        (ancestry (link s.heap P C) fuel P)).count (Event.onParentChange C Change.ADD P) = 0 := by
      rw [List.count_eq_zero]
      intro hmem
      obtain ⟨a, _, ha⟩ := List.mem_map.mp hmem
      cases ha
    rw [hzero]
    simp
  · intro hmem
    exact hl.fresh C hmem rfl
  · rw [hl.children]; simp
  · refine ⟨reparent P c, ?_, rfl, ?_⟩
    · rw [hheap, getElem?_link, hC]; simp [hPC]
    · unfold reparent
      cases c.m_parent <;> simp

/-- C12 at the test: the `TestNode` `test4` is attached to the `Node` `test1`; its hook
`onParentChange` is called with `ADD` and `test1`, whose type is `Node`, and sets
`fields.parent_change`. -/
theorem C12_addChild_call_order_witness :
    (∃ (ups : List NodeId) (c : BaseNode),
      addChildCalls 1 test0 0 1 =
        some ((Event.onChildChange 0 Change.ADD 1, test0.heap) ::
              (Event.onParentChange 1 Change.ADD 0, test0.heap) ::
              ups.map (fun a => (Event.onSubChildChange a Change.ADD 1, test1.heap))) ∧
      test1.log = test0.log ++
        (Event.onChildChange 0 Change.ADD 1 :: Event.onParentChange 1 Change.ADD 0 ::
          ups.map (fun a => Event.onSubChildChange a Change.ADD 1)) ∧
      (Event.onChildChange 0 Change.ADD 1 :: Event.onParentChange 1 Change.ADD 0 ::
          ups.map (fun a => Event.onSubChildChange a Change.ADD 1)).count
        (Event.onParentChange 1 Change.ADD 0) = 1 ∧
      ups = ancestry test1.heap 1 0 ∧
      test0.heap[1]? = some c ∧ 1 ∉ childrenOf test0.heap 0 ∧
      1 ∈ childrenOf test1.heap 0 ∧
      ∃ c', test1.heap[1]? = some c' ∧ c'.m_parent = some 0 ∧
        c'.m_previousParents = c.m_previousParents ++ c.m_parent.toList) ∧
    TestNode.onParentChange "test1".toList "Node".toList test0.heap Change.ADD 0 = true :=
  ⟨C12_addChild_call_order 1 test0 test1 0 1 addChild_test0, by decide⟩

/-! ## Removal by the stored name, search by name -/

theorem removeChild_of_no_child (hash : List Char → Nat) (fuel : Nat) (s : State)
    (X : NodeId) (x : BaseNode) (name : List Char) (hX : s.heap[X]? = some x)
    (hnone : ∀ ch ∈ x.m_children, nameHashOf s.heap ch ≠ some (hash name)) :
    removeChild hash fuel s X name = some (false, s) := by
  have hf : findChildByHash s.heap x.m_children (hash name) = none := by
    unfold findChildByHash
    rw [List.findIdx?_eq_none_iff]
    intro ch hch
    simpa using hnone ch hch
  unfold removeChild
  simp only [hX, hf]

theorem slash1_heap :
    slash1.heap =
      [{ fresh NodeClass.Node ['R'] with m_children := [1] },
       { fresh NodeClass.BaseNode ['a', '_', 'b'] with
           m_nameHash := fnv1a ['a', '/', 'b'], m_parent := some 0 },
       fresh NodeClass.BaseNode ['a', '_', 'b']] := by decide

/-- C13, the code at the failing input. The root `R` holds the node made from `a/b`;
its stored name is `a_b`, and `removeLocalNode(R, "a_b")` returns `false` and leaves
the node among the children of `R`, with whatever fuel. -/
theorem C13_removeLocalNode_stored_name_fails :
    Reachable fnv1a slash1 ∧
    1 ∈ childrenOf slash1.heap 0 ∧
    getName slash1.heap 1 = some ['a', '_', 'b'] ∧
    ∀ fuel, Node.removeLocalNode fnv1a fuel slash1 0 ['a', '_', 'b'] = some (false, slash1) := by
  refine ⟨Reachable.addChild reachable_slash0 addChild_slash0, by decide, by decide, ?_⟩
  intro fuel
  apply removeChild_of_no_child fnv1a fuel slash1 0
    { fresh NodeClass.Node ['R'] with m_children := [1] }
  · rw [slash1_heap]; rfl
  · rw [slash1_heap]; decide

/-- C14, the code at the failing input. Below the node `A` that holds `C`,
`getNodesByName(A, "C", 0)` returns `C`, where the search of depth `0` by hash
returns nothing. -/
theorem C14_getNodesByName_ignores_depth :
    getNodesByName fnv1a example2.heap 0 ['C'] 0 = [2] ∧
    getNodesByNameHash example2.heap 0 (fnv1a ['C']) 0 = [] := by
  refine ⟨?_, rfl⟩
  unfold getNodesByName
  rw [getNodesByNameHash_stable example2.heap (fnv1a ['C']) 1 0 unboundedDepth (by decide)
    (by decide)]
  decide

/-! ## The RestrictiveNode -/

theorem gate1_heap :
    gate1.heap =
      [{ fresh NodeClass.Node "root".toList with m_children := [1] },
       { fresh (NodeClass.RestrictiveNode ["Node".toList] []) ['r'] with m_parent := some 0 },
       fresh NodeClass.BaseNode ['x']] := by decide

theorem getNodeByPath_gate1 : getNodeByPath fnv1a gate1.heap 0 ['r'] = some 1 := by
  rw [getNodeByPath_last _ _ _ _ (by decide)]
  decide

theorem addNode_gate1 :
    Node.addNode fnv1a 2 gate1 0 ['r'] (some 2) =
      some (true,
        { heap :=
            [{ fresh NodeClass.Node "root".toList with m_children := [1] },
             { fresh (NodeClass.RestrictiveNode ["Node".toList] []) ['r'] with
                 m_parent := some 0, m_children := [2] },
             { fresh NodeClass.BaseNode ['x'] with m_parent := some 1 }],
          log := gate1.log ++
            [Event.onChildChange 1 Change.ADD 2, Event.onParentChange 2 Change.ADD 1,
             Event.onSubChildChange 0 Change.ADD 2] }) := by
  unfold Node.addNode
  rw [getNodeByPath_gate1]
  decide

/-- C16, the code at the failing input. The `Node` `root` holds the `RestrictiveNode`
`r`, which allows the addition of `Node`s only. `r->addLocalNode(x)` refuses the
`BaseNode` `x` and leaves the state; `root->addNode("r", x)` returns `true` and makes
`x` a child of `r`. -/
theorem C16_addNode_passes_the_gate :
    typeOf gate1.heap 2 = some "BaseNode".toList ∧
    (∀ fuel, addLocalNode fuel gate1 1 (some 2) = some (false, gate1)) ∧
    (∃ s', Node.addNode fnv1a 2 gate1 0 ['r'] (some 2) = some (true, s') ∧
      2 ∈ childrenOf s'.heap 1) := by
  refine ⟨by decide, ?_, ?_⟩
  · intro fuel
    unfold addLocalNode
    rw [gate1_heap]
    rfl
  · exact ⟨_, addNode_gate1, by decide⟩

theorem rem1_eq :
    rem1 =
      { heap :=
          [{ fresh (NodeClass.RestrictiveNode ["BaseNode".toList] ["BaseNode".toList]) ['r']
               with m_children := [1] },
           { fresh NodeClass.BaseNode ['c'] with m_parent := some 0 }],
        log := [Event.onChildChange 0 Change.ADD 1, Event.onParentChange 1 Change.ADD 0] } := by
  decide

/-- C17, the code at the failing input. The `RestrictiveNode` `r` holds the `BaseNode`
`c` and allows its removal. `RestrictiveNode::removeLocalNode(r, "c")` returns `true`
and erases `c` from the children of `r`, and that is all: `r` stays the parent of `c`
and no hook is called. `removeChild(r, "c")` and
`RestrictiveNode::removeLocalNode(r, c)` by reference leave `c` without parent and
call `onChildChange(REMOVE, c)` on `r` and `onParentChange(REMOVE, r)` on `c`. -/
theorem C17_removeLocalNode_by_name_only_erases :
    RestrictiveNode.removeLocalNode fnv1a ["BaseNode".toList] rem1 0 ['c'] =
      some (true,
        { heap :=
            [fresh (NodeClass.RestrictiveNode ["BaseNode".toList] ["BaseNode".toList]) ['r'],
             { fresh NodeClass.BaseNode ['c'] with m_parent := some 0 }],
          log := rem1.log }) ∧
    removeChild fnv1a 1 rem1 0 ['c'] =
      some (true,
        { heap :=
            [fresh (NodeClass.RestrictiveNode ["BaseNode".toList] ["BaseNode".toList]) ['r'],
             fresh NodeClass.BaseNode ['c']],
          log := rem1.log ++
            [Event.onChildChange 0 Change.REMOVE 1,
             Event.onParentChange 1 Change.REMOVE 0] }) ∧
    RestrictiveNode.removeLocalNodeNode ["BaseNode".toList] 1 rem1 0 1 =
      removeChild fnv1a 1 rem1 0 ['c'] := by
  rw [rem1_eq]
  refine ⟨by decide, by decide, by decide⟩

/-! ## Levels and walks -/

theorem flatMap_comm_perm {α β γ : Type} (l : List α) (f : α → β → List γ) :
    ∀ m : List β,
      (l.flatMap (fun a => m.flatMap (f a))).Perm
        (m.flatMap (fun b => l.flatMap (fun a => f a b)))
  | [] => by simp
  | b :: m' => by
    simp only [List.flatMap_cons]
    have h1 : (l.flatMap (fun a => f a b ++ m'.flatMap (f a))).Perm
        (l.flatMap (fun a => f a b) ++ l.flatMap (fun a => m'.flatMap (f a))) :=
      (List.flatMap_append_perm l (fun a => f a b) (fun a => m'.flatMap (f a))).symm
    exact h1.trans ((flatMap_comm_perm l f m').append_left _)

theorem range_succ_flatMap {γ : Type} (g : Nat → List γ) (k : Nat) :
    (List.range (k + 1)).flatMap g = g 0 ++ (List.range k).flatMap (fun j => g (j + 1)) := by
  rw [List.range_succ_eq_map, List.flatMap_cons, List.flatMap_map]

/-- A walk of `k` steps goes through the levels one to `k`, each entry once. -/
theorem walk_perm_levels (next : NodeId → List NodeId) :
    ∀ (k : Nat) (x : NodeId),
      (walk next k x).Perm ((List.range k).flatMap (fun j => level next (j + 1) x)) := by
  intro k
  induction k with
  | zero => intro x; simp [walk]
  | succ k ih =>
    intro x
    have h1 : ∀ y ∈ next x, (y :: walk next k y).Perm
        ((List.range (k + 1)).flatMap (fun j => level next j y)) := by
      intro y _
      rw [range_succ_flatMap (fun j => level next j y) k]
      exact (ih y).cons y
    have h2 : (walk next (k + 1) x).Perm
        ((next x).flatMap (fun y => (List.range (k + 1)).flatMap (fun j => level next j y))) :=
      List.Perm.flatMap_left _ h1
    exact h2.trans (flatMap_comm_perm (next x) (fun y j => level next j y) (List.range (k + 1)))

theorem mem_walk_iff (next : NodeId → List NodeId) (k : Nat) (x a : NodeId) :
    a ∈ walk next k x ↔ ∃ j, j < k ∧ a ∈ level next (j + 1) x := by
  rw [(walk_perm_levels next k x).mem_iff, List.mem_flatMap]
  simp only [List.mem_range]

theorem level_add (next : NodeId → List NodeId) :
    ∀ (j k : Nat) (x a b : NodeId), a ∈ level next j x → b ∈ level next k a →
      b ∈ level next (j + k) x := by
  intro j
  induction j with
  | zero =>
    intro k x a b ha hb
    simp only [level, List.mem_singleton] at ha
    subst ha
    simpa using hb
  | succ j ih =>
    intro k x a b ha hb
    simp only [level, List.mem_flatMap] at ha
    obtain ⟨y, hy, hay⟩ := ha
    have : j + 1 + k = (j + k) + 1 := by omega
    rw [this]
    simp only [level, List.mem_flatMap]
    exact ⟨y, hy, ih k y a b hay hb⟩

/-- A node that is above itself is above itself at levels without bound. -/
theorem level_cycle (next : NodeId → List NodeId) (x : NodeId) (k : Nat)
    (hx : x ∈ level next (k + 1) x) : ∀ m : Nat, x ∈ level next (m * (k + 1)) x := by
  intro m
  induction m with
  | zero => simp [level]
  | succ m ih =>
    have : (m + 1) * (k + 1) = m * (k + 1) + (k + 1) := by ring
    rw [this]
    exact level_add next _ _ x x x ih hx

/-! ## Counting -/

theorem foldl_add_mod (M : Nat) (f g : NodeId → Nat) :
    ∀ (l : List NodeId) (a : Nat), (∀ c ∈ l, f c = g c % M) →
      l.foldl (fun result c => (result + f c) % M) (a % M) = (a + (l.map g).sum) % M
  | [], a, _ => by simp
  | c :: cs, a, hfg => by
    rw [List.foldl_cons, hfg c (List.mem_cons_self _ _)]
    have h1 : (a % M + g c % M) % M = (a + g c) % M := (Nat.add_mod a (g c) M).symm
    rw [h1, foldl_add_mod M f g cs (a + g c) (fun y hy => hfg y (List.mem_cons_of_mem _ hy))]
    simp [Nat.add_assoc]

theorem length_walk_succ (next : NodeId → List NodeId) (k : Nat) (x : NodeId) :
    (walk next (k + 1) x).length =
      (next x).length + ((next x).map (fun y => (walk next k y).length)).sum := by
  simp only [walk, List.length_flatMap]
  induction next x with
  | nil => simp
  | cons a as ih =>
    simp only [List.map_cons, List.sum_cons, Function.comp, List.length_cons] at ih ⊢
    omega

/-- The count of `countNodes(depth)` is the length of the pre-order walk of `depth + 1`
levels, in `std::size_t`. -/
theorem countNodes_eq_length (h : Heap) :
    ∀ (d : Nat) (root : NodeId),
      countNodes h d root = (preorder h (d + 1) root).length % 2 ^ 64 := by
  intro d
  induction d with
  | zero =>
    intro root
    unfold preorder
    rw [length_walk_succ]
    simp only [countNodes, childrenOf, walk]
    cases h[root]? <;> simp
  | succ d ih =>
    intro root
    unfold preorder
    rw [length_walk_succ]
    simp only [countNodes, childrenOf]
    cases hroot : h[root]? with
    | none => simp
    | some n =>
      simp only []
      exact foldl_add_mod (2 ^ 64) (countNodes h d)
        (fun y => (walk (childrenOf h) (d + 1) y).length) n.m_children n.m_children.length
        (fun c _ => ih c)

theorem level_eq_nil_of_heightAtMost (h : Heap) :
    ∀ (H : Nat) (root : NodeId), heightAtMost h H root = true →
      ∀ k, H < k → descendantsAt h k root = [] := by
  intro H
  induction H with
  | zero =>
    intro root hH k hk
    obtain ⟨k', rfl⟩ : ∃ k', k = k' + 1 := ⟨k - 1, by omega⟩
    simp only [heightAtMost] at hH
    simp only [descendantsAt, level, childrenOf]
    cases hroot : h[root]? with
    | none => simp
    | some n =>
      simp only [hroot, List.isEmpty_iff] at hH
      simp [hH]
  | succ H ih =>
    intro root hH k hk
    obtain ⟨k', rfl⟩ : ∃ k', k = k' + 1 := ⟨k - 1, by omega⟩
    simp only [heightAtMost] at hH
    simp only [descendantsAt, level, childrenOf]
    cases hroot : h[root]? with
    | none => simp
    | some n =>
      simp only [hroot, List.all_eq_true] at hH
      simp only [List.flatMap_eq_nil_iff]
      intro c hc
      exact ih c (hH c hc) k' (by omega)

theorem length_flatMap_range_of_nil {γ : Type} (g : Nat → List γ) (H : Nat)
    (hnil : ∀ j, H ≤ j → g j = []) :
    ∀ n, H ≤ n → ((List.range n).flatMap g).length = ((List.range H).flatMap g).length := by
  intro n hn
  induction n with
  | zero =>
    have : H = 0 := by omega
    subst this; rfl
  | succ n ih =>
    by_cases hHn : H = n + 1
    · subst hHn; rfl
    · rw [List.range_succ, List.flatMap_append, List.length_append, ih (by omega)]
      simp [hnil n (by omega)]

/-- C15. Where the nodes on the levels `1` to `d + 1` below `root`, one entry per path,
are fewer than `2^64`: `countNodes(root, d)` is their number, `countNodes(root, 0)` is
the number of direct children, and for a finite tree of height at most `H` and `d` from
`H` on it is the number of nodes on all the levels below `root`, none being beyond the
level `H`. -/
theorem C15_countNodes_levels (h : Heap) (root : NodeId) (d : Nat)
    (hsmall : ((List.range (d + 1)).flatMap
      (fun j => descendantsAt h (j + 1) root)).length < 2 ^ 64) :
    countNodes h d root =
      ((List.range (d + 1)).flatMap (fun j => descendantsAt h (j + 1) root)).length ∧
    countNodes h 0 root = (childrenOf h root).length ∧
    ∀ H, heightAtMost h H root = true → H ≤ d →
      (∀ k, H < k → descendantsAt h k root = []) ∧
      countNodes h d root =
        ((List.range H).flatMap (fun j => descendantsAt h (j + 1) root)).length := by
  have hlen : ∀ k, (preorder h k root).length =
      ((List.range k).flatMap (fun j => descendantsAt h (j + 1) root)).length :=
    fun k => (walk_perm_levels (childrenOf h) k root).length_eq
  have hmain : countNodes h d root =
      ((List.range (d + 1)).flatMap (fun j => descendantsAt h (j + 1) root)).length := by
    rw [countNodes_eq_length, hlen, Nat.mod_eq_of_lt hsmall]
  have hchildren : (preorder h 1 root).length = (childrenOf h root).length := by
    unfold preorder
    rw [length_walk_succ]
    simp [walk]
  refine ⟨hmain, ?_, ?_⟩
  · rw [countNodes_eq_length, hchildren]
    apply Nat.mod_eq_of_lt
    rw [range_succ_flatMap, List.length_append] at hsmall
    have h1 : (descendantsAt h (0 + 1) root).length = (childrenOf h root).length := by
      simp [descendantsAt, level, List.length_flatMap]
    omega
  · intro H hH hle
    have hnil := level_eq_nil_of_heightAtMost h H root hH
    refine ⟨hnil, ?_⟩
    rw [hmain]
    exact length_flatMap_range_of_nil (fun j => descendantsAt h (j + 1) root) H
      (fun j hj => hnil (j + 1) (by omega)) (d + 1) (by omega)

/-- C15 below the node `A` that holds `C`: one node, at any depth. -/
theorem C15_countNodes_levels_witness :
    countNodes example2.heap 1 0 = 1 ∧ countNodes example2.heap 0 0 = 1 ∧
    heightAtMost example2.heap 1 0 = true :=
  have h := C15_countNodes_levels example2.heap 0 1 (by decide)
  ⟨h.1.trans (by decide), h.2.1.trans (by decide), by decide⟩

/-! ## Search in pre-order -/

theorem filter_walk_succ (next : NodeId → List NodeId) (p : NodeId → Bool) (k : Nat)
    (x : NodeId) :
    (walk next (k + 1) x).filter p =
      (next x).flatMap (fun y => (if p y then [y] else []) ++ (walk next k y).filter p) := by
  simp only [walk, List.filter_flatMap]
  apply List.flatMap_congr
  intro y _
  by_cases hp : p y = true
  · simp [List.filter_cons, hp]
  · simp [List.filter_cons, hp]

theorem getNodesByNameHash_eq_filter (h : Heap) (v : Nat) :
    ∀ (d : Nat) (root : NodeId),
      getNodesByNameHash h root v d =
        (preorder h d root).filter (fun a => decide (nameHashOf h a = some v)) := by
  intro d
  induction d with
  | zero => intro root; simp [getNodesByNameHash, preorder, walk]
  | succ d ih =>
    intro root
    unfold preorder
    rw [filter_walk_succ]
    simp only [getNodesByNameHash, childrenOf]
    cases hroot : h[root]? with
    | none => simp
    | some n =>
      simp only []
      apply List.flatMap_congr
      intro c _
      rw [ih c]
      simp [preorder]

theorem getNodesByType_eq_filter (h : Heap) (t : List Char) :
    ∀ (d : Nat) (root : NodeId),
      getNodesByType h root t d =
        (preorder h d root).filter (fun a => decide (typeOf h a = some t)) := by
  intro d
  induction d with
  | zero => intro root; simp [getNodesByType, preorder, walk]
  | succ d ih =>
    intro root
    unfold preorder
    rw [filter_walk_succ]
    simp only [getNodesByType, childrenOf]
    cases hroot : h[root]? with
    | none => simp
    | some n =>
      simp only []
      apply List.flatMap_congr
      intro c _
      rw [ih c]
      simp [preorder]

theorem getNodesByTypeHash_eq_filter (h : Heap) (t : Nat) :
    ∀ (d : Nat) (root : NodeId),
      getNodesByTypeHash h root t d =
        (preorder h d root).filter (fun a => decide (typeHashOf h a = some t)) := by
  intro d
  induction d with
  | zero => intro root; simp [getNodesByTypeHash, preorder, walk]
  | succ d ih =>
    intro root
    unfold preorder
    rw [filter_walk_succ]
    simp only [getNodesByTypeHash, childrenOf]
    cases hroot : h[root]? with
    | none => simp
    | some n =>
      simp only []
      apply List.flatMap_congr
      intro c _
      rw [ih c]
      simp [preorder]

theorem mem_preorder_iff (h : Heap) (d : Nat) (root a : NodeId) :
    a ∈ preorder h d root ↔ ∃ k, 1 ≤ k ∧ k ≤ d ∧ a ∈ descendantsAt h k root := by
  unfold preorder descendantsAt
  rw [mem_walk_iff]
  constructor
  · rintro ⟨j, hj, ha⟩
    exact ⟨j + 1, by omega, by omega, ha⟩
  · rintro ⟨k, h1, h2, ha⟩
    obtain ⟨j, rfl⟩ : ∃ j, k = j + 1 := ⟨k - 1, by omega⟩
    exact ⟨j, by omega, ha⟩

theorem not_mem_level_self_of_heightAtMost (h : Heap) (H : Nat) (root : NodeId)
    (hH : heightAtMost h H root = true) (k : Nat) :
    root ∉ descendantsAt h (k + 1) root := by
  intro hmem
  have hcyc := level_cycle (childrenOf h) root k hmem (H + 1)
  have hnil := level_eq_nil_of_heightAtMost h H root hH ((H + 1) * (k + 1)) (by nlinarith)
  unfold descendantsAt at hnil
  rw [hnil] at hcyc
  simp at hcyc

/-- C19. Below the root of a finite tree, `getNodesByNameHash`, `getNodesByType` and
`getNodesByTypeHash` of depth `d` each return the pre-order walk of the levels `1` to
`d` (children in their order, a node before its own subtree), filtered by the match.
The walk holds exactly the nodes of these levels, and not the root: so the root is
never returned, every node returned matches, and every node of the levels `1` to `d`
that matches is returned. -/
theorem C19_search_is_filtered_preorder (h : Heap) (root : NodeId) (d H : Nat)
    (hH : heightAtMost h H root = true) :
    (∀ v, getNodesByNameHash h root v d =
      (preorder h d root).filter (fun a => decide (nameHashOf h a = some v))) ∧
    (∀ t, getNodesByType h root t d =
      (preorder h d root).filter (fun a => decide (typeOf h a = some t))) ∧
    (∀ t, getNodesByTypeHash h root t d =
      (preorder h d root).filter (fun a => decide (typeHashOf h a = some t))) ∧
    (∀ a, a ∈ preorder h d root ↔ ∃ k, 1 ≤ k ∧ k ≤ d ∧ a ∈ descendantsAt h k root) ∧
    root ∉ preorder h d root ∧
    (∀ v a, a ∈ getNodesByNameHash h root v d ↔
      a ≠ root ∧ nameHashOf h a = some v ∧
        ∃ k, 1 ≤ k ∧ k ≤ d ∧ a ∈ descendantsAt h k root) := by
  have hroot : root ∉ preorder h d root := by
    rw [mem_preorder_iff]
    rintro ⟨k, h1, _, hmem⟩
    obtain ⟨j, rfl⟩ : ∃ j, k = j + 1 := ⟨k - 1, by omega⟩
    exact not_mem_level_self_of_heightAtMost h H root hH j hmem
  refine ⟨fun v => getNodesByNameHash_eq_filter h v d root,
    fun t => getNodesByType_eq_filter h t d root,
    fun t => getNodesByTypeHash_eq_filter h t d root,
    fun a => mem_preorder_iff h d root a, hroot, ?_⟩
  intro v a
  rw [getNodesByNameHash_eq_filter, List.mem_filter, mem_preorder_iff]
  simp only [decide_eq_true_eq]
  constructor
  · rintro ⟨hk, hv⟩
    refine ⟨?_, hv, hk⟩
    intro heq
    subst heq
    exact hroot ((mem_preorder_iff h d a a).mpr hk)
  · rintro ⟨_, hv, hk⟩
    exact ⟨hk, hv⟩

/-- C19 at a tree with a branch, searched two levels deep: the two nodes named `b`
come in pre-order, the one below `a` first. -/
theorem C19_search_is_filtered_preorder_witness :
    preorder branch 2 0 = [1, 3, 2] ∧
    getNodesByNameHash branch 0 (fnv1a ['b']) 2 = [3, 2] ∧
    getNodesByType branch 0 "BaseNode".toList 2 = [3, 2] ∧
    getNodesByTypeHash branch 0 1 2 = [1] ∧
    0 ∉ preorder branch 2 0 :=
  have h := C19_search_is_filtered_preorder branch 0 2 2 (by decide)
  ⟨by decide, (h.1 (fnv1a ['b'])).trans (by decide),
    (h.2.1 "BaseNode".toList).trans (by decide), (h.2.2.1 1).trans (by decide), h.2.2.2.2.1⟩

/-! ## No node above itself -/

theorem mem_callOrderIn (h : Heap) (x y : NodeId) :
    y ∈ callOrderIn h x ↔ y ∈ parentsIn h x := by
  unfold callOrderIn parentsIn
  cases h[x]? with
  | none => simp
  | some n => exact mem_callOrder n y

theorem level_mono (next next' : NodeId → List NodeId)
    (hsub : ∀ x y, y ∈ next x → y ∈ next' x) :
    ∀ (k : Nat) (x a : NodeId), a ∈ level next k x → a ∈ level next' k x := by
  intro k
  induction k with
  | zero => intro x a ha; exact ha
  | succ k ih =>
    intro x a ha
    simp only [level, List.mem_flatMap] at ha ⊢
    obtain ⟨y, hy, hay⟩ := ha
    exact ⟨y, hsub x y hy, ih y a hay⟩

/-- Where the propagation comes back within `fuel`, no path goes `fuel` steps up. -/
theorem ancestorsAt_eq_nil_of_isSome (h : Heap) (t : Change) (c : NodeId) :
    ∀ (fuel : Nat) (x : NodeId), (propagateSubChildChange fuel h x t c).isSome = true →
      ∀ k, fuel ≤ k → ancestorsAt h k x = [] := by
  intro fuel
  induction fuel with
  | zero => intro x hx; simp [propagateSubChildChange] at hx
  | succ f ih =>
    intro x hx k hk
    obtain ⟨k', rfl⟩ : ∃ k', k = k' + 1 := ⟨k - 1, by omega⟩
    rw [propagate_isSome_succ] at hx
    simp only [ancestorsAt, level, List.flatMap_eq_nil_iff]
    intro y hy
    exact ih y (hx.2 y ((mem_callOrderIn h x y).mp hy)) k' (by omega)

/-- A node that is above itself: the propagation never comes back from it. -/
theorem propagate_none_of_cycle (h : Heap) (x : NodeId) (k : Nat)
    (hx : x ∈ ancestorsAt h (k + 1) x) (fuel : Nat) (t : Change) (c : NodeId) :
    propagateSubChildChange fuel h x t c = none := by
  cases hp : propagateSubChildChange fuel h x t c with
  | none => rfl
  | some evs =>
    have hnil := ancestorsAt_eq_nil_of_isSome h t c fuel x (by rw [hp]; rfl)
      (fuel * (k + 1)) (by nlinarith)
    have hcyc := level_cycle (callOrderIn h) x k hx fuel
    unfold ancestorsAt at hnil
    rw [hnil] at hcyc
    simp at hcyc

theorem not_mem_ancestorsAt_of_settles {h : Heap} {x : NodeId} (hs : Settles h x) (k : Nat) :
    x ∉ ancestorsAt h (k + 1) x := by
  intro hmem
  obtain ⟨fuel, hf⟩ := hs
  rw [propagate_none_of_cycle h x k hmem fuel Change.ADD x] at hf
  simp at hf

/-- Where the propagation comes back from a node within `fuel`, so does the loop of
`getPath`. -/
theorem getPathLoop_of_isSome (h : Heap) (t : Change) (c : NodeId) :
    ∀ (fuel : Nat) (x : NodeId) (n : BaseNode), h[x]? = some n →
      (propagateSubChildChange fuel h x t c).isSome = true →
      ∀ result, ∃ path, getPathLoop fuel h result n.m_parent = some path := by
  intro fuel
  induction fuel with
  | zero => intro x n _ hx; simp [propagateSubChildChange] at hx
  | succ f ih =>
    intro x n hn hx result
    rw [propagate_isSome_succ] at hx
    cases hp : n.m_parent with
    | none => exact ⟨result, by simp [getPathLoop]⟩
    | some p =>
      have hpin : p ∈ parentsIn h x := by
        simp only [parentsIn, hn]
        exact (mem_parentsOf n p).mpr (Or.inr hp)
      have hps := hx.2 p hpin
      have hlive : p < h.length := by
        cases f with
        | zero => simp [propagateSubChildChange] at hps
        | succ f' => exact ((propagate_isSome_succ f' h p t c).mp hps).1
      have hpn : h[p]? = some h[p] := List.getElem?_eq_getElem hlive
      obtain ⟨path, hpath⟩ := ih p h[p] hpn hps (h[p].m_name ++ '/' :: result)
      refine ⟨path, ?_⟩
      rw [getPathLoop]
      simp only [hpn]
      exact hpath

/-- An `addChild` whose child is the parent itself or above it makes its link and then
never comes back: no fuel is enough. -/
theorem addChild_none_of_ancestor (fuel : Nat) (s : State) (P C : NodeId) (p c : BaseNode)
    (hP : s.heap[P]? = some p) (hC : s.heap[C]? = some c)
    (hvalid : isValidParent c.cls C P = true)
    (hfresh : findChildByHash s.heap p.m_children c.m_nameHash = none)
    (k : Nat) (hup : C ∈ ancestorsAt s.heap k P) :
    addChild fuel s P C = none := by
  have hl := linked_of_link s.heap P C p c hP hC hfresh
  have hup' : C ∈ ancestorsAt (link s.heap P C) k P := by
    apply level_mono (callOrderIn s.heap) (callOrderIn (link s.heap P C)) _ k P C hup
    intro x y hy
    rw [mem_callOrderIn] at hy ⊢
    rw [hl.parents]
    by_cases hx : x = C
    · subst hx; simp [hy]
    · simp [hx, hy]
  have hstep : P ∈ ancestorsAt (link s.heap P C) 1 C := by
    simp only [ancestorsAt, level, List.mem_flatMap, List.mem_singleton]
    refine ⟨P, ?_, rfl⟩
    rw [mem_callOrderIn, hl.parents]
    simp
  have hcyc : P ∈ ancestorsAt (link s.heap P C) (k + 1) P :=
    level_add (callOrderIn (link s.heap P C)) k 1 P C P hup' hstep
  have hnone := propagate_none_of_cycle (link s.heap P C) P k hcyc fuel Change.ADD C
  unfold addChild
  simp only [hP, hC, hvalid, hfresh, hnone]
  rfl

theorem reachable_cyc0 : Reachable fnv1a cyc0 := by
  have h1 := Reachable.create NodeClass.Node ['A'] (@Reachable.init fnv1a)
  have h2 := Reachable.create NodeClass.Node ['B'] h1
  simp only [create_eq] at h2
  exact h2

theorem addChild_cyc0 : addChild 1 cyc0 0 1 = some (true, cyc1) := by decide

theorem reachable_cyc1 : Reachable fnv1a cyc1 :=
  Reachable.addChild reachable_cyc0 addChild_cyc0

theorem cyc1_heap :
    cyc1.heap =
      [{ fresh NodeClass.Node ['A'] with m_children := [1] },
       { fresh NodeClass.Node ['B'] with m_parent := some 0 }] := by decide

/-- C20, as the code has it. In a state reached by calls that have returned, no node
is above itself along parent and history links, the propagation comes back from every
node and the loop of `getPath` ends. The guards of `addChild` do not see to that: an
`addChild(P, C)` that passes them with `C` being `P` or a node above `P` never
returns. -/
theorem C20_no_cycle_once_returned (hash : List Char → Nat) (s : State)
    (hr : Reachable hash s) :
    (∀ (x : NodeId) (n : BaseNode), s.heap[x]? = some n →
      (∀ k, x ∉ ancestorsAt s.heap (k + 1) x) ∧
      (∃ fuel, ∀ fuel', fuel ≤ fuel' → ∀ t c,
        (propagateSubChildChange fuel' s.heap x t c).isSome = true) ∧
      (∃ fuel path, getPath fuel s.heap x = some path)) ∧
    (∀ (P C : NodeId) (p c : BaseNode) (k fuel : Nat),
      s.heap[P]? = some p → s.heap[C]? = some c →
      isValidParent c.cls C P = true →
      findChildByHash s.heap p.m_children c.m_nameHash = none →
      C ∈ ancestorsAt s.heap k P →
      addChild fuel s P C = none) := by
  have hinv := reachable_inv hr
  refine ⟨?_, ?_⟩
  · intro x n hx
    have hs := hinv.settles x (lt_of_getElem? hx)
    refine ⟨fun k => not_mem_ancestorsAt_of_settles hs k, ?_, ?_⟩
    · obtain ⟨fuel, hfuel⟩ := hs.fuel Change.ADD x
      exact ⟨fuel, fun fuel' hle t c =>
        propagate_isSome_indep s.heap Change.ADD t x c fuel' x (hfuel fuel' hle)⟩
    · obtain ⟨fuel, hf⟩ := hs
      obtain ⟨path, hpath⟩ :=
        getPathLoop_of_isSome s.heap Change.ADD x fuel x n hx hf n.m_name
      exact ⟨fuel, path, by simp [getPath, hx, hpath]⟩
  · intro P C p c k fuel hP hC hvalid hfresh hup
    exact addChild_none_of_ancestor fuel s P C p c hP hC hvalid hfresh k hup

/-- C20 as stated fails. `A` holds `B`, both with the validity predicate of `BaseNode`.
`addChild(B, A)` passes both guards and makes its link: in the heap in which it then
calls `propagateSubChildChange`, `A` is two steps above itself, the propagation never
comes back, and so the call never returns. -/
theorem C20_cycle_linked_by_addChild :
    Reachable fnv1a cyc1 ∧
    isValidParent NodeClass.Node 0 1 = true ∧
    (∃ b, cyc1.heap[1]? = some b ∧
      findChildByHash cyc1.heap b.m_children (fnv1a ['A']) = none) ∧
    0 ∈ ancestorsAt (link cyc1.heap 1 0) 2 0 ∧
    (∀ fuel, propagateSubChildChange fuel (link cyc1.heap 1 0) 1 Change.ADD 0 = none) ∧
    (∀ fuel, addChild fuel cyc1 1 0 = none) := by
  have hcyc : 1 ∈ ancestorsAt (link cyc1.heap 1 0) 2 1 := by rw [cyc1_heap]; decide
  refine ⟨reachable_cyc1, by decide, ⟨_, by rw [cyc1_heap]; rfl, by decide⟩,
    by rw [cyc1_heap]; decide, ?_, ?_⟩
  · intro fuel
    exact propagate_none_of_cycle _ 1 1 hcyc fuel Change.ADD 0
  · intro fuel
    exact addChild_none_of_ancestor fuel cyc1 1 0
      { fresh NodeClass.Node ['B'] with m_parent := some 0 }
      { fresh NodeClass.Node ['A'] with m_children := [1] }
      (by rw [cyc1_heap]; rfl) (by rw [cyc1_heap]; rfl) (by decide) (by rw [cyc1_heap]; decide)
      1 (by rw [cyc1_heap]; decide)

/-- C20 at `A` that holds `B`: `B` is not above itself and its path is found;
`addChild(B, A)` never returns. -/
theorem C20_no_cycle_once_returned_witness :
    (∀ k, 1 ∉ ancestorsAt cyc1.heap (k + 1) 1) ∧
    (∃ fuel path, getPath fuel cyc1.heap 1 = some path) ∧
    addChild 7 cyc1 1 0 = none :=
  have h := C20_no_cycle_once_returned fnv1a cyc1 reachable_cyc1
  have hB := h.1 1 { fresh NodeClass.Node ['B'] with m_parent := some 0 }
    (by rw [cyc1_heap]; rfl)
  ⟨hB.1, hB.2.2,
   h.2 1 0 { fresh NodeClass.Node ['B'] with m_parent := some 0 }
     { fresh NodeClass.Node ['A'] with m_children := [1] } 1 7
     (by rw [cyc1_heap]; rfl) (by rw [cyc1_heap]; rfl) (by decide)
     (by rw [cyc1_heap]; decide) (by rw [cyc1_heap]; decide)⟩

/-! ## Who receives the propagation -/

theorem ancestry_eq_walk (h : Heap) :
    ∀ (k : Nat) (x : NodeId), ancestry h k x = walk (callOrderIn h) k x := by
  intro k
  induction k with
  | zero => intro x; simp [ancestry, walk]
  | succ k ih =>
    intro x
    simp only [ancestry, walk, callOrderIn]
    cases h[x]? with
    | none => simp
    | some n =>
      simp only []
      apply List.flatMap_congr
      intro y _
      rw [ih y]

theorem mem_level_add_iff (next : NodeId → List NodeId) :
    ∀ (j k : Nat) (x b : NodeId),
      b ∈ level next (j + k) x ↔ ∃ a, a ∈ level next j x ∧ b ∈ level next k a := by
  intro j
  induction j with
  | zero =>
    intro k x b
    simp [level]
  | succ j ih =>
    intro k x b
    have : j + 1 + k = (j + k) + 1 := by omega
    rw [this]
    simp only [level, List.mem_flatMap]
    constructor
    · rintro ⟨y, hy, hb⟩
      obtain ⟨a, ha, hab⟩ := (ih k y b).mp hb
      exact ⟨a, ⟨y, hy, ha⟩, hab⟩
    · rintro ⟨a, ⟨y, hy, ha⟩, hab⟩
      exact ⟨y, hy, (ih k y b).mpr ⟨a, ha, hab⟩⟩

theorem mem_level_one (next : NodeId → List NodeId) (x b : NodeId) :
    b ∈ level next 1 x ↔ b ∈ next x := by
  simp [level]

/-- In a heap with the invariant, being `k` steps above and being `k` levels below are
the same. -/
theorem ancestorsAt_iff_descendantsAt {h : Heap} (hinv : Inv h) :
    ∀ (k : Nat) (x a : NodeId), a ∈ ancestorsAt h k x ↔ x ∈ descendantsAt h k a := by
  intro k
  induction k with
  | zero =>
    intro x a
    simp only [ancestorsAt, descendantsAt, level, List.mem_singleton]
    exact eq_comm
  | succ k ih =>
    intro x a
    have h1 : a ∈ ancestorsAt h (k + 1) x ↔
        ∃ p, p ∈ callOrderIn h x ∧ a ∈ ancestorsAt h k p := by
      simp only [ancestorsAt, level, List.mem_flatMap]
    have h2 : x ∈ descendantsAt h (k + 1) a ↔
        ∃ p, p ∈ descendantsAt h k a ∧ x ∈ childrenOf h p := by
      unfold descendantsAt
      rw [mem_level_add_iff (childrenOf h) k 1 a x]
      simp only [mem_level_one]
    rw [h1, h2]
    constructor
    · rintro ⟨p, hp, ha⟩
      exact ⟨p, (ih p a).mp ha, (hinv.owner x p).mp ((mem_callOrderIn h x p).mp hp)⟩
    · rintro ⟨p, hp, hx⟩
      exact ⟨p, (mem_callOrderIn h x p).mpr ((hinv.owner x p).mpr hx), (ih p a).mpr hp⟩

/-- Neither a node nor what lies below it is in its ancestry. -/
theorem not_mem_ancestry_of_below {hbig hsmall : Heap} (hinv : Inv hbig)
    (hsub : ∀ x y, y ∈ parentsIn hsmall x → y ∈ parentsIn hbig x)
    {N : NodeId} (hN : N < hbig.length) (fuel j : Nat) (D : NodeId)
    (hD : D ∈ descendantsAt hbig j N) : D ∉ ancestry hsmall fuel N := by
  intro hmem
  rw [ancestry_eq_walk, mem_walk_iff] at hmem
  obtain ⟨i, _, hi⟩ := hmem
  have hi' : D ∈ ancestorsAt hbig (i + 1) N := by
    apply level_mono (callOrderIn hsmall) (callOrderIn hbig) _ (i + 1) N D hi
    intro x y hy
    rw [mem_callOrderIn] at hy ⊢
    exact hsub x y hy
  have hup : N ∈ ancestorsAt hbig j D := (ancestorsAt_iff_descendantsAt hinv j D N).mpr hD
  have hcyc : N ∈ ancestorsAt hbig (i + 1 + j) N :=
    level_add (callOrderIn hbig) (i + 1) j N D N hi' hup
  have : i + 1 + j = (i + j) + 1 := by omega
  rw [this] at hcyc
  exact not_mem_ancestorsAt_of_settles (hinv.settles N hN) (i + j) hcyc

theorem callOrderIn_congr {h h' : Heap}
    (hsame : ∀ j : NodeId, (h'[j]?).map callOrder = (h[j]?).map callOrder) :
    callOrderIn h' = callOrderIn h := by
  funext x
  have := hsame x
  unfold callOrderIn
  cases h1 : h'[x]? <;> cases h2 : h[x]? <;> simp_all

theorem callOrderIn_modify_children (h : Heap) (X : NodeId) (g : BaseNode → List NodeId) :
    callOrderIn (modifyNode h X (fun p => { p with m_children := g p })) = callOrderIn h := by
  apply callOrderIn_congr
  intro j
  rw [getElem?_modifyNode]
  by_cases hj : X = j
  · subst hj
    cases h[X]? <;> simp [callOrder]
  · simp [hj]

/-- What is delivered, from the propagation that ran and the heap it ran in. -/
theorem delivered_of {hbig : Heap} {s s' : State} {N C : NodeId} {kind : Change}
    {fuel : Nat} {h1 : Heap} {evs : List Event}
    (hinv : Inv hbig) (hN : N < hbig.length)
    (hprop : propagateSubChildChange fuel h1 N kind C = some evs)
    (hsame : callOrderIn s'.heap = callOrderIn h1)
    (hlog : s'.log = (s.log ++ [Event.onChildChange N kind C,
      Event.onParentChange C kind N]) ++ evs)
    (hsub : ∀ x y, y ∈ parentsIn s'.heap x → y ∈ parentsIn hbig x)
    (hchild : C ∈ childrenOf hbig N) :
    Delivered hbig s s' N C kind fuel := by
  have hsome : (propagateSubChildChange fuel h1 N kind C).isSome = true := by
    rw [hprop]; rfl
  have hanc : ancestry s'.heap fuel N = ancestry h1 fuel N := by
    rw [ancestry_eq_walk, ancestry_eq_walk, hsame]
  have hevs : evs = (ancestry s'.heap fuel N).map
      (fun a => Event.onSubChildChange a kind C) := by
    have := propagate_eq_ancestry h1 kind C fuel N hsome
    rw [hprop] at this
    rw [hanc]
    exact Option.some.inj this
  have hperm : (ancestry s'.heap fuel N).Perm
      ((List.range fuel).flatMap (fun j => ancestorsAt s'.heap (j + 1) N)) := by
    rw [ancestry_eq_walk]
    exact walk_perm_levels (callOrderIn s'.heap) fuel N
  refine ⟨?_, hperm, ?_, ?_, ?_, hchild⟩
  · rw [hlog, hevs]; simp
  · intro k hk
    have := ancestorsAt_eq_nil_of_isSome h1 kind C fuel N hsome k hk
    unfold ancestorsAt at this ⊢
    rw [hsame]
    exact this
  · intro p hp
    have hfuel : 0 < fuel := by
      cases fuel with
      | zero => simp [propagateSubChildChange] at hsome
      | succ f => omega
    rw [hperm.mem_iff, List.mem_flatMap]
    exact ⟨0, List.mem_range.mpr hfuel, by
      simp only [ancestorsAt]
      exact (mem_level_one _ _ _).mpr hp⟩
  · intro j D hD
    exact not_mem_ancestry_of_below hinv hsub hN fuel j D hD

theorem parentsIn_set_unlink_subset {h : Heap} {X C : NodeId} {c c' : BaseNode}
    (hC : h[C]? = some c) (hu : unlink X c = some c') :
    ∀ a b, b ∈ parentsIn (h.set C c') a → b ∈ parentsIn h a := by
  intro a b hb
  by_cases ha : a = C
  · subst ha
    have hsub := (unlink_spec hu).2.2.2.2.2.1
    have hb' : b ∈ parentsOf c' := by
      simpa [parentsIn, getElem?_set_of_some _ hC] using hb
    simpa [parentsIn, hC] using hsub.subset hb'
  · have ha' : ¬ C = a := fun e => ha e.symm
    simpa [parentsIn, getElem?_set_of_some _ hC, ha'] using hb

theorem parentsIn_subset_of_callOrderIn {h h1 h0 : Heap}
    (hsame : callOrderIn h = callOrderIn h1)
    (hsub : ∀ a b, b ∈ parentsIn h1 a → b ∈ parentsIn h0 a) :
    ∀ a b, b ∈ parentsIn h a → b ∈ parentsIn h0 a := by
  intro a b hb
  apply hsub
  rw [← mem_callOrderIn] at hb ⊢
  rw [← hsame]
  exact hb

/-- C18. In a reachable state, a successful `addChild(N, C)` or `removeChild(N, C)`, by
reference or by name, delivers `onSubChildChange(kind, C)` as `Delivered` says: to the
current parent of `N` first and all of its ancestry, then to each entry of the history
of `N` in order and all of its ancestry, that is to the nodes above `N`, once per
path upward; not to `N`, not to `C` and not to any node below `N`. -/
theorem C18_propagation_goes_up (hash : List Char → Nat) (s : State)
    (hr : Reachable hash s) :
    (∀ (fuel : Nat) (N C : NodeId) (s' : State),
      addChild fuel s N C = some (true, s') →
      Delivered s'.heap s s' N C Change.ADD fuel) ∧
    (∀ (fuel : Nat) (N C : NodeId) (s' : State),
      removeChildNode fuel s N C = some (true, s') →
      Delivered s.heap s s' N C Change.REMOVE fuel) ∧
    (∀ (fuel : Nat) (N : NodeId) (name : List Char) (s' : State),
      removeChild hash fuel s N name = some (true, s') →
      ∃ C, nameHashOf s.heap C = some (hash name) ∧
        Delivered s.heap s s' N C Change.REMOVE fuel) := by
  have hinv := reachable_inv hr
  refine ⟨?_, ?_, ?_⟩
  · intro fuel N C s' hadd
    have hinv' := reachable_inv (Reachable.addChild hr hadd)
    obtain ⟨hl, _⟩ := addChild_linked hadd
    obtain ⟨p, c, hP, hC, hcase⟩ := addChild_eq_some hadd
    rcases hcase with ⟨hb, _⟩ | ⟨_, _, _, evs, hprop, hs'⟩
    · cases hb
    have hheap : s'.heap = link s.heap N C := by rw [hs']
    have hlog : s'.log = (s.log ++ [Event.onChildChange N Change.ADD C,
        Event.onParentChange C Change.ADD N]) ++ evs := by rw [hs']
    refine delivered_of hinv' (by rw [hl.len]; exact hl.validP) hprop (by rw [hheap]) hlog
      (fun _ _ hy => hy) ?_
    rw [hl.children]; simp
  · intro fuel N C s' hrem
    obtain ⟨x, c, hX, hC, hcase⟩ := removeChildNode_eq_some hrem
    rcases hcase with ⟨hb, _⟩ | ⟨_, c', p, evs, hu, hprop, hp, hmem, hs'⟩
    · cases hb
    have hheap : s'.heap = modifyNode (s.heap.set C c') N
        (fun p => { p with m_children := p.m_children.erase C }) := by
      rw [hs']; simp [modifyNode, hp]
    have hlog : s'.log = (s.log ++ [Event.onChildChange N Change.REMOVE C,
        Event.onParentChange C Change.REMOVE N]) ++ evs := by rw [hs']
    have hsame : callOrderIn s'.heap = callOrderIn (s.heap.set C c') := by
      rw [hheap]
      exact callOrderIn_modify_children _ N (fun p => p.m_children.erase C)
    exact delivered_of hinv (lt_of_getElem? hX) hprop hsame hlog
      (parentsIn_subset_of_callOrderIn hsame (parentsIn_set_unlink_subset hC hu))
      (removeChildNode_unlinked hrem).mem
  · intro fuel N name s' hrem
    obtain ⟨x, hX, hcase⟩ := removeChild_eq_some hrem
    rcases hcase with ⟨hb, _⟩ | ⟨_, i, C, c, c', evs, hfind, hi, hC, hu, hprop, hs'⟩
    · cases hb
    obtain ⟨_, hpC, hmem⟩ := eraseIdx_findIdx? _ x.m_children i C hfind hi
    have hheap : s'.heap = modifyNode (s.heap.set C c') N
        (fun p => { p with m_children := p.m_children.eraseIdx i }) := by
      rw [hs']
    have hlog : s'.log = (s.log ++ [Event.onChildChange N Change.REMOVE C,
        Event.onParentChange C Change.REMOVE N]) ++ evs := by rw [hs']
    have hsame : callOrderIn s'.heap = callOrderIn (s.heap.set C c') := by
      rw [hheap]
      exact callOrderIn_modify_children _ N (fun p => p.m_children.eraseIdx i)
    refine ⟨C, by simpa using hpC, ?_⟩
    exact delivered_of hinv (lt_of_getElem? hX) hprop hsame hlog
      (parentsIn_subset_of_callOrderIn hsame (parentsIn_set_unlink_subset hC hu))
      (by simpa [childrenOf, hX] using hmem)

theorem reachable_up0 : Reachable fnv1a up0 := by
  have h1 := Reachable.create NodeClass.Node ['A'] (@Reachable.init fnv1a)
  have h2 := Reachable.create NodeClass.Node ['B'] h1
  have h3 := Reachable.create NodeClass.Node ['N'] h2
  have h4 := Reachable.create NodeClass.BaseNode ['X'] h3
  have h5 := Reachable.create NodeClass.BaseNode ['Y'] h4
  simp only [create_eq] at h5
  exact h5

theorem addChild_up0 : addChild 1 up0 0 2 = some (true, up1) := by decide

theorem addChild_up1 : addChild 1 up1 1 2 = some (true, up2) := by decide

theorem addChild_up2 : addChild 2 up2 2 3 = some (true, up3) := by decide

theorem removeChildNode_up3 : removeChildNode 1 up3 0 2 = some (true, up4) := by decide

theorem addChild_up4 : addChild 2 up4 2 4 = some (true, up5) := by decide

theorem reachable_up2 : Reachable fnv1a up2 :=
  Reachable.addChild (Reachable.addChild reachable_up0 addChild_up0) addChild_up1

theorem reachable_up4 : Reachable fnv1a up4 :=
  Reachable.removeChildNode (Reachable.addChild reachable_up2 addChild_up2)
    removeChildNode_up3

/-- C18 at the node `N` attached to `A` and then to `B`: the addition of `X` to `N` is
delivered to `B`, then to `A`; once `N` is removed from `A`, the addition of `Y` to `N`
is delivered to `B` alone. -/
theorem C18_propagation_goes_up_witness :
    (up3.log = up2.log ++
      [Event.onChildChange 2 Change.ADD 3, Event.onParentChange 3 Change.ADD 2,
       Event.onSubChildChange 1 Change.ADD 3, Event.onSubChildChange 0 Change.ADD 3]) ∧
    (up5.log = up4.log ++
      [Event.onChildChange 2 Change.ADD 4, Event.onParentChange 4 Change.ADD 2,
       Event.onSubChildChange 1 Change.ADD 4]) :=
  have h3 := ((C18_propagation_goes_up fnv1a up2 reachable_up2).1 2 2 3 up3 addChild_up2).log
  have h5 := ((C18_propagation_goes_up fnv1a up4 reachable_up4).1 2 2 4 up5 addChild_up4).log
  have a3 : ancestry up3.heap 2 2 = [1, 0] := by decide
  have a5 : ancestry up5.heap 2 2 = [1] := by decide
  ⟨by rw [h3, a3]; rfl, by rw [h5, a5]; rfl⟩

/-! ## The shallow lookup and the search one level deep -/

theorem getNodesByNameHash_one (h : Heap) (root : NodeId) (v : Nat) :
    getNodesByNameHash h root v 1 =
      (childrenOf h root).filter (fun child => nameHashOf h child == some v) := by
  unfold getNodesByNameHash childrenOf
  cases hr : h[root]? with
  | none => simp
  | some n =>
    simp only
    induction n.m_children with
    | nil => simp
    | cons a as ih =>
      rw [List.flatMap_cons, ih]
      by_cases ha : nameHashOf h a = some v
      · simp [getNodesByNameHash, ha, List.filter_cons]
      · simp [getNodesByNameHash, ha, List.filter_cons]

theorem getNodeByNameHash_eq (h : Heap) (root : NodeId) (v : Nat) :
    getNodeByNameHash h root v =
      (childrenOf h root).find? (fun child => nameHashOf h child == some v) := by
  unfold getNodeByNameHash childrenOf
  cases h[root]? <;> simp

theorem head?_filter_eq_find? {α : Type} (p : α → Bool) :
    ∀ l : List α, (l.filter p).head? = l.find? p
  | [] => rfl
  | a :: as => by
    by_cases hpa : p a = true
    · simp [List.filter_cons, hpa]
    · simp [List.filter_cons, hpa, head?_filter_eq_find? p as]

theorem length_filter_le_one_of_nodup_map {α β : Type} [BEq β] [LawfulBEq β] (f : α → β) (v : β) :
    ∀ l : List α, (l.map f).Nodup → (l.filter (fun a => f a == v)).length ≤ 1
  | [], _ => by simp
  | a :: as, hnd => by
    rw [List.map_cons, List.nodup_cons] at hnd
    by_cases hfa : f a = v
    · have hnone : as.filter (fun a => f a == v) = [] := by
        rw [List.filter_eq_nil_iff]
        intro b hb hfb
        have hfb' : f b = v := by simpa using hfb
        exact hnd.1 (List.mem_map.mpr ⟨b, hb, hfb'.trans hfa.symm⟩)
      simp [List.filter_cons, hfa, hnone]
    · simp only [List.filter_cons, beq_iff_eq, hfa, if_false]
      exact length_filter_le_one_of_nodup_map f v as hnd.2

/-- C24: the shallow lookup agrees with the search one level deep. In every heap,
`getNodeByNameHash(root, v)` is the first element of `getNodesByNameHash(root, v, 1)`,
and `nullptr` when that sequence is empty; the sequence is the children of `root`
with the hash, in their order. In every reachable state the sequence has at most one
element, since siblings have pairwise different hashes. -/
theorem C24_shallow_lookup_agrees (hash : List Char → Nat) (s : State)
    (hr : Reachable hash s) (root : NodeId) (v : Nat) :
    (∀ (h : Heap) (root : NodeId) (v : Nat),
      getNodeByNameHash h root v = (getNodesByNameHash h root v 1).head? ∧
      (getNodesByNameHash h root v 1 = [] → getNodeByNameHash h root v = none) ∧
      getNodesByNameHash h root v 1 =
        (childrenOf h root).filter (fun child => nameHashOf h child == some v)) ∧
    (getNodesByNameHash s.heap root v 1).length ≤ 1 ∧
    (getNodesByNameHash s.heap root v 1 = (getNodeByNameHash s.heap root v).toList) := by
  have hagree : ∀ (h : Heap) (root : NodeId) (v : Nat),
      getNodeByNameHash h root v = (getNodesByNameHash h root v 1).head? := by
    intro h root v
    rw [getNodesByNameHash_one, getNodeByNameHash_eq, head?_filter_eq_find?]
  have hlen : (getNodesByNameHash s.heap root v 1).length ≤ 1 := by
    rw [getNodesByNameHash_one]
    exact length_filter_le_one_of_nodup_map (nameHashOf s.heap) (some v) _
      ((reachable_inv hr).hashes root)
  refine ⟨fun h root v => ⟨hagree h root v, ?_, getNodesByNameHash_one h root v⟩, hlen, ?_⟩
  · intro hnil
    rw [hagree, hnil]
    rfl
  · rw [hagree]
    cases hl : getNodesByNameHash s.heap root v 1 with
    | nil => rfl
    | cons a as =>
      rw [hl] at hlen
      cases as with
      | nil => rfl
      | cons b bs => simp at hlen

theorem C24_shallow_lookup_agrees_witness :
    getNodeByNameHash example2.heap 0 (fnv1a ['C']) = some 2 ∧
    getNodesByNameHash example2.heap 0 (fnv1a ['C']) 1 = [2] ∧
    (getNodesByNameHash example2.heap 0 (fnv1a ['C']) 1).length ≤ 1 :=
  ⟨by decide, by decide,
    (C24_shallow_lookup_agrees fnv1a example2 reachable_example2 0 (fnv1a ['C'])).2.1⟩

/-! ## All the paths of a node -/

theorem getPathLoop_mono (h : Heap) :
    ∀ (fuel fuel' : Nat) (result : List Char) (p : Option NodeId) (path : List Char),
      fuel ≤ fuel' → getPathLoop fuel h result p = some path →
      getPathLoop fuel' h result p = some path := by
  intro fuel
  induction fuel with
  | zero =>
    intro fuel' result p path _ hp
    cases p with
    | none => cases fuel' <;> simpa [getPathLoop] using hp
    | some q => simp [getPathLoop] at hp
  | succ f ih =>
    intro fuel' result p path hle hp
    cases p with
    | none => cases fuel' <;> simpa [getPathLoop] using hp
    | some q =>
      obtain ⟨f', rfl⟩ : ∃ f', fuel' = f' + 1 := ⟨fuel' - 1, by omega⟩
      rw [getPathLoop] at hp ⊢
      cases hq : h[q]? with
      | none => simp [hq] at hp
      | some pn =>
        simp only [hq] at hp ⊢
        exact ih f' _ _ _ (by omega) hp

theorem getPath_mono (h : Heap) (fuel fuel' : Nat) (x : NodeId) (path : List Char)
    (hle : fuel ≤ fuel') (hp : getPath fuel h x = some path) :
    getPath fuel' h x = some path := by
  unfold getPath at hp ⊢
  cases hx : h[x]? with
  | none => simp [hx] at hp
  | some n =>
    simp only [hx] at hp ⊢
    exact getPathLoop_mono h fuel fuel' _ _ _ hle hp

/-- Where the propagation comes back, so does `getPath`. -/
theorem getPath_of_settles {h : Heap} {x : NodeId} {n : BaseNode} (hx : h[x]? = some n)
    (hs : Settles h x) : ∃ fuel path, getPath fuel h x = some path := by
  obtain ⟨fuel, hf⟩ := hs
  obtain ⟨path, hpath⟩ := getPathLoop_of_isSome h Change.ADD x fuel x n hx hf n.m_name
  exact ⟨fuel, path, by simp only [getPath, hx]; exact hpath⟩

/-- One amount of fuel is enough for `getPath` on every node of a list. -/
theorem getPath_of_settles_list {h : Heap} (hlive : ∀ x, x < h.length → Settles h x) :
    ∀ l : List NodeId, (∀ x ∈ l, x < h.length) →
      ∃ fuel, ∀ x ∈ l, ∃ path, getPath fuel h x = some path
  | [], _ => ⟨0, fun x hx => by simp at hx⟩
  | a :: as, hl => by
    obtain ⟨f1, h1⟩ := getPath_of_settles_list hlive as
      (fun x hx => hl x (List.mem_cons_of_mem _ hx))
    have ha := hl a (List.mem_cons_self _ _)
    obtain ⟨n, hn⟩ : ∃ n, h[a]? = some n := ⟨h[a], List.getElem?_eq_getElem ha⟩
    obtain ⟨f2, p2, h2⟩ := getPath_of_settles hn (hlive a ha)
    refine ⟨max f1 f2, ?_⟩
    intro x hx
    rcases List.mem_cons.mp hx with rfl | hx'
    · exact ⟨p2, getPath_mono h f2 _ _ _ (Nat.le_max_right _ _) h2⟩
    · obtain ⟨p, hp⟩ := h1 x hx'
      exact ⟨p, getPath_mono h f1 _ _ _ (Nat.le_max_left _ _) hp⟩

theorem set_length_append {α : Type} (x y : α) (tl : List α) :
    ∀ pre : List α, (pre ++ x :: tl).set pre.length y = pre ++ y :: tl
  | [] => rfl
  | a :: as => by simp [set_length_append x y tl as]

/-- The loop of `getAllPaths` over the history: the empty strings it finds are
replaced, front to back, by the path of each entry with the name behind it. -/
theorem getAllPaths_loop (fuel : Nat) (h : Heap) (m_name : List Char)
    (g : NodeId → List Char) :
    ∀ (hist : List NodeId) (pre rest : List (List Char)),
      (∀ H ∈ hist, getPath fuel h H = some (g H)) →
      hist.foldl (getAllPathsStep fuel h m_name)
          (some (pre ++ (List.replicate hist.length [] ++ rest), pre.length)) =
        some (pre ++ (hist.map (fun H => g H ++ '/' :: m_name) ++ rest),
          pre.length + hist.length)
  | [], pre, rest, _ => by simp
  | H :: Hs, pre, rest, hg => by
    rw [List.foldl_cons]
    have h1 : getAllPathsStep fuel h m_name
        (some (pre ++ (List.replicate (H :: Hs).length [] ++ rest), pre.length)) H =
        some ((pre ++ [g H ++ '/' :: m_name]) ++ (List.replicate Hs.length [] ++ rest),
          (pre ++ [g H ++ '/' :: m_name]).length) := by
      simp only [getAllPathsStep, hg H (List.mem_cons_self _ _), List.length_cons,
        List.replicate_succ, List.cons_append, set_length_append]
      simp
    rw [h1, getAllPaths_loop fuel h m_name g Hs (pre ++ [g H ++ '/' :: m_name]) rest
      (fun K hK => hg K (List.mem_cons_of_mem _ hK))]
    simp only [List.append_assoc, List.singleton_append, List.map_cons, List.cons_append,
      List.length_append, List.length_cons, List.length_nil, Option.some.injEq, Prod.mk.injEq,
      true_and]
    exact ⟨rfl, by omega⟩

/-- What `getAllPaths` returns when `getPath` comes back on the node and on every entry
of its history. -/
theorem getAllPaths_eq (fuel : Nat) (h : Heap) (N : NodeId) (n : BaseNode)
    (g : NodeId → List Char) (hN : h[N]? = some n)
    (hg : ∀ H ∈ n.m_previousParents, getPath fuel h H = some (g H))
    (hgN : n.m_parent.isSome = true → getPath fuel h N = some (g N)) :
    getAllPaths fuel h N =
      some (n.m_previousParents.map (fun H => g H ++ '/' :: n.m_name) ++
        (if n.m_parent.isSome then [g N] else [])) := by
  unfold getAllPaths countParents
  simp only [hN, Option.map_some']
  have hloop := getAllPaths_loop fuel h n.m_name g n.m_previousParents []
    (List.replicate (if n.m_parent.isSome then 1 else 0) []) hg
  simp only [List.nil_append, List.length_nil, Nat.zero_add] at hloop
  rw [List.replicate_add, hloop]
  cases hp : n.m_parent with
  | none => simp
  | some q =>
    have hgN' := hgN (by simp [hp])
    simp only [hgN', Option.map_some', Option.isSome_some, if_true, List.replicate_one]
    have := set_length_append ([] : List Char) (g N) []
      (n.m_previousParents.map (fun H => g H ++ '/' :: n.m_name))
    rw [List.length_map] at this
    rw [this]

/-- The parents a node knows of in a heap a program gets to are live nodes. -/
theorem Inv.parent_live {h : Heap} (hinv : Inv h) {N x : NodeId} (hx : x ∈ parentsIn h N) :
    x < h.length := by
  obtain ⟨xn, hxn, _⟩ := mem_childrenOf ((hinv.owner N x).mp hx)
  exact lt_of_getElem? hxn

/-- C21: in every reachable state, `getAllPaths(N)` returns, with enough fuel for the
walks of `getPath`, a list of exactly `countParents(N)` entries: the entry at the
place of each history entry `H`, in the order of the history, is `getPath(H)`, a
separator and the name of `N`; when `N` has a current parent the last entry is
`getPath(N)`; a node with neither parent nor history yields the empty list. -/
theorem C21_getAllPaths_entries (hash : List Char → Nat) (s : State)
    (hr : Reachable hash s) (N : NodeId) (n : BaseNode) (hN : s.heap[N]? = some n) :
    ∃ fuel, ∀ fuel', fuel ≤ fuel' →
      ∃ (g : NodeId → List Char) (paths : List (List Char)),
        getAllPaths fuel' s.heap N = some paths ∧
        (∀ H ∈ n.m_previousParents, getPath fuel' s.heap H = some (g H)) ∧
        (n.m_parent.isSome = true → getPath fuel' s.heap N = some (g N)) ∧
        paths = n.m_previousParents.map (fun H => g H ++ '/' :: n.m_name) ++
          (if n.m_parent.isSome then [g N] else []) ∧
        countParents s.heap N = some paths.length ∧
        (∀ (i : Nat) (H : NodeId), n.m_previousParents[i]? = some H →
          paths[i]? = some (g H ++ '/' :: n.m_name)) ∧
        (n.m_parent.isSome = true → paths.getLast? = some (g N)) ∧
        (n.m_parent = none → n.m_previousParents = [] → paths = []) := by
  have hinv := reachable_inv hr
  have hlive : ∀ x ∈ N :: n.m_previousParents, x < s.heap.length := by
    intro x hx
    rcases List.mem_cons.mp hx with rfl | hx'
    · exact lt_of_getElem? hN
    · apply hinv.parent_live (N := N)
      simp only [parentsIn, hN, parentsOf, List.mem_append]
      exact Or.inl hx'
  obtain ⟨fuel, hfuel⟩ := getPath_of_settles_list hinv.settles _ hlive
  refine ⟨fuel, fun fuel' hle => ?_⟩
  have hget : ∀ x ∈ N :: n.m_previousParents,
      getPath fuel' s.heap x = some ((getPath fuel' s.heap x).getD []) := by
    intro x hx
    obtain ⟨p, hp⟩ := hfuel x hx
    rw [getPath_mono s.heap fuel fuel' x p hle hp]
    rfl
  have hg : ∀ H ∈ n.m_previousParents,
      getPath fuel' s.heap H = some ((getPath fuel' s.heap H).getD []) :=
    fun H hH => hget H (List.mem_cons_of_mem _ hH)
  have hgN := hget N (List.mem_cons_self _ _)
  refine ⟨fun x => (getPath fuel' s.heap x).getD [], _,
    getAllPaths_eq fuel' s.heap N n _ hN hg (fun _ => hgN), hg, fun _ => hgN, rfl,
    ?_, ?_, ?_, ?_⟩
  · unfold countParents
    rw [hN]
    cases hp : n.m_parent <;> simp [hp]
  · intro i H hi
    have hlt : i < n.m_previousParents.length := (List.getElem?_eq_some_iff.mp hi).1
    rw [List.getElem?_append_left (by simpa using hlt), List.getElem?_map, hi]
    rfl
  · intro hp
    simp [hp]
  · intro hp hh
    simp [hp, hh]

theorem C21_getAllPaths_entries_witness :
    (∃ fuel, ∀ fuel', fuel ≤ fuel' →
      ∃ (g : NodeId → List Char) (paths : List (List Char)),
        getAllPaths fuel' example2.heap 2 = some paths ∧
        (∀ H ∈ [0], getPath fuel' example2.heap H = some (g H)) ∧
        getPath fuel' example2.heap 2 = some (g 2) ∧
        paths = [g 0 ++ ['/', 'C'], g 2] ∧
        countParents example2.heap 2 = some paths.length) ∧
    getPath 1 example2.heap 0 = some ['A'] ∧
    getPath 1 example2.heap 2 = some ['B', '/', 'C'] ∧
    getAllPaths 1 example2.heap 2 = some [['A', '/', 'C'], ['B', '/', 'C']] ∧
    countParents example2.heap 2 = some 2 ∧
    getAllPaths 1 example2.heap 0 = some [] := by
  refine ⟨?_, by decide, by decide, by decide, by decide, by decide⟩
  obtain ⟨fuel, hf⟩ := C21_getAllPaths_entries fnv1a example2 reachable_example2 2
    { fresh NodeClass.BaseNode ['C'] with m_parent := some 1, m_previousParents := [0] } rfl
  refine ⟨fuel, fun fuel' hle => ?_⟩
  obtain ⟨g, paths, h1, h2, h3, h4, h5, _⟩ := hf fuel' hle
  exact ⟨g, paths, h1, h2, h3 rfl, h4, h5⟩

/-! ## The destructor -/

/-- The loop of the destructor over pairwise different live children: every one of
them gets its back references to `N` taken away and one call of `onParentChange`,
the other nodes are left as they are. -/
theorem destructor_loop (N : NodeId) :
    ∀ (l : List NodeId) (st : State), l.Nodup → (∀ C ∈ l, C < st.heap.length) →
      ∃ st', l.foldl (destructorStep N) (some st) = some st' ∧
        st'.log = st.log ++ l.map (fun C => Event.onParentChange C Change.REMOVE N) ∧
        ∀ j : NodeId, st'.heap[j]? =
          if j ∈ l then (st.heap[j]?).map (fun c => (unlink N c).getD c) else st.heap[j]?
  | [], st, _, _ => ⟨st, rfl, by simp, fun j => by simp⟩
  | a :: as, st, hnd, hl => by
    rw [List.nodup_cons] at hnd
    have ha := hl a (List.mem_cons_self _ _)
    obtain ⟨c, hc⟩ : ∃ c, st.heap[a]? = some c := ⟨st.heap[a], List.getElem?_eq_getElem ha⟩
    have hstep : destructorStep N (some st) a =
        some { heap := st.heap.set a ((unlink N c).getD c)
               log := st.log ++ [Event.onParentChange a Change.REMOVE N] } := by
      simp only [destructorStep, hc]
    obtain ⟨st', hfold, hlog, hheap⟩ := destructor_loop N as
      { heap := st.heap.set a ((unlink N c).getD c)
        log := st.log ++ [Event.onParentChange a Change.REMOVE N] } hnd.2
      (fun C hC => by
        simp only [List.length_set]
        exact hl C (List.mem_cons_of_mem _ hC))
    refine ⟨st', ?_, ?_, ?_⟩
    · rw [List.foldl_cons, hstep, hfold]
    · rw [hlog]
      simp
    · intro j
      rw [hheap j]
      simp only [getElem?_set_of_some _ hc]
      by_cases hja : a = j
      · subst hja
        simp [hnd.1, hc]
      · have hja' : j ≠ a := fun e => hja e.symm
        simp [hja, hja']

/-- What `unlink` makes of a child that knows `N` once among its parents. -/
theorem unlink_of_mem_nodup {N : NodeId} {c : BaseNode} (hmem : N ∈ parentsOf c)
    (hnd : (parentsOf c).Nodup) :
    ∃ c', unlink N c = some c' ∧
      c'.m_parent ≠ some N ∧ N ∉ c'.m_previousParents ∧
      (c.m_parent = some N →
        c'.m_parent = c.m_previousParents.getLast? ∧
        c'.m_previousParents = c.m_previousParents.dropLast) ∧
      (c.m_parent ≠ some N →
        c'.m_parent = c.m_parent ∧ N ∈ c.m_previousParents ∧
        c'.m_previousParents = c.m_previousParents.erase N) ∧
      c'.m_previousParents.Sublist c.m_previousParents ∧
      (∀ x, x ≠ N → (x ∈ parentsOf c' ↔ x ∈ parentsOf c)) ∧
      c'.m_children = c.m_children ∧ c'.m_name = c.m_name ∧
      c'.m_nameHash = c.m_nameHash ∧ c'.cls = c.cls := by
  have hne : unlink N c ≠ none := by
    intro hnone
    rw [unlink_eq_none_iff] at hnone
    rw [mem_parentsOf] at hmem
    rcases hmem with hm | hm
    · exact hnone.2 hm
    · exact hnone.1 hm
  obtain ⟨c', hu⟩ := Option.ne_none_iff_exists'.mp hne
  obtain ⟨hch, hnm, hhash, hcls, _, _, hiff⟩ := unlink_spec hu
  have hiff := hiff hnd
  have hN' : N ∉ parentsOf c' := fun hm => ((hiff N).mp hm).2 rfl
  rw [mem_parentsOf] at hN'
  have hforms : (c.m_parent = some N →
        c'.m_parent = c.m_previousParents.getLast? ∧
        c'.m_previousParents = c.m_previousParents.dropLast) ∧
      (c.m_parent ≠ some N →
        c'.m_parent = c.m_parent ∧ N ∈ c.m_previousParents ∧
        c'.m_previousParents = c.m_previousParents.erase N) := by
    unfold unlink at hu
    by_cases hp : c.m_parent = some N
    · simp only [hp, if_true, Option.some.injEq] at hu
      subst hu
      exact ⟨fun _ => ⟨rfl, rfl⟩, fun hn => absurd hp hn⟩
    · simp only [hp, if_false] at hu
      by_cases hh : N ∈ c.m_previousParents
      · simp only [hh, if_true, Option.some.injEq] at hu
        subst hu
        exact ⟨fun hn => absurd hn hp, fun _ => ⟨rfl, hh, rfl⟩⟩
      · simp [hh] at hu
  refine ⟨c', hu, fun hp => hN' (Or.inr hp), fun hm => hN' (Or.inl hm), hforms.1, hforms.2,
    ?_, ?_, hch, hnm, hhash, hcls⟩
  · by_cases hp : c.m_parent = some N
    · rw [(hforms.1 hp).2]
      exact List.dropLast_sublist _
    · rw [(hforms.2 hp).2.2]
      exact List.erase_sublist _ _
  · intro x hx
    rw [hiff x]
    exact ⟨fun hm => hm.1, fun hm => ⟨hm, hx⟩⟩

/-- C22: in every reachable state the body of the destructor of `N` comes back and
leaves every child `C` of `N` with `N` neither as its current parent nor in its
history. When the parent of `C` was `N`, the last history entry takes its place and
leaves the history, or the parent is absent when the history is empty; otherwise the
entry of `N` is erased from the history and the parent stays. The other history
entries keep their order, the other nodes are not changed, and the hook calls are one
`onParentChange(REMOVE, N)` on each child, in the order of the children. -/
theorem C22_destructor_unlinks (hash : List Char → Nat) (s : State)
    (hr : Reachable hash s) (N : NodeId) (n : BaseNode) (hN : s.heap[N]? = some n) :
    ∃ s', destructor s N = some s' ∧
      s'.log = s.log ++ n.m_children.map (fun C => Event.onParentChange C Change.REMOVE N) ∧
      (∀ C ∈ n.m_children,
        (n.m_children.map (fun C => Event.onParentChange C Change.REMOVE N)).count
          (Event.onParentChange C Change.REMOVE N) = 1) ∧
      (∀ j : NodeId, j ∉ n.m_children → s'.heap[j]? = s.heap[j]?) ∧
      ∀ C ∈ n.m_children, ∃ c c', s.heap[C]? = some c ∧ s'.heap[C]? = some c' ∧
        c'.m_parent ≠ some N ∧ N ∉ c'.m_previousParents ∧
        (c.m_parent = some N →
          c'.m_parent = c.m_previousParents.getLast? ∧
          c'.m_previousParents = c.m_previousParents.dropLast) ∧
        (c.m_parent ≠ some N →
          c'.m_parent = c.m_parent ∧ N ∈ c.m_previousParents ∧
          c'.m_previousParents = c.m_previousParents.erase N) ∧
        c'.m_previousParents.Sublist c.m_previousParents ∧
        (∀ x, x ≠ N → (x ∈ parentsOf c' ↔ x ∈ parentsOf c)) ∧
        c'.m_children = c.m_children ∧ c'.m_name = c.m_name ∧
        c'.m_nameHash = c.m_nameHash ∧ c'.cls = c.cls := by
  have hinv := reachable_inv hr
  have hch : childrenOf s.heap N = n.m_children := by simp only [childrenOf, hN]
  have hnd : n.m_children.Nodup := hch ▸ hinv.children_nodup N
  have hvalid : ∀ C ∈ n.m_children, C < s.heap.length :=
    fun C hC => hinv.valid N C (hch ▸ hC)
  obtain ⟨s', hfold, hlog, hheap⟩ := destructor_loop N n.m_children s hnd hvalid
  refine ⟨s', ?_, hlog, ?_, ?_, ?_⟩
  · simp only [destructor, hN]
    exact hfold
  · intro C hC
    apply List.count_eq_one_of_mem
    · apply hnd.map
      intro a b hab
      simpa using hab
    · exact List.mem_map.mpr ⟨C, hC, rfl⟩
  · intro j hj
    rw [hheap j]
    simp [hj]
  · intro C hC
    have hlt : C < s.heap.length := hvalid C hC
    obtain ⟨c, hc⟩ : ∃ c, s.heap[C]? = some c := ⟨s.heap[C], List.getElem?_eq_getElem hlt⟩
    have hmem : N ∈ parentsOf c := by
      have := (hinv.owner C N).mpr (hch ▸ hC)
      simpa only [parentsIn, hc] using this
    have hndc : (parentsOf c).Nodup := by
      have := hinv.nodup C
      simpa only [parentsIn, hc] using this
    obtain ⟨c', hu, hrest⟩ := unlink_of_mem_nodup hmem hndc
    refine ⟨c, c', hc, ?_, hrest⟩
    rw [hheap C]
    simp [hC, hc, hu]

theorem C22_destructor_unlinks_witness :
    (∃ s', destructor example2 0 = some s' ∧
      s'.log = example2.log ++ [Event.onParentChange 2 Change.REMOVE 0] ∧
      ∃ c', s'.heap[2]? = some c' ∧ c'.m_parent ≠ some 0 ∧ 0 ∉ c'.m_previousParents) ∧
    destructor example2 0 =
      some { heap := [{ fresh NodeClass.Node ['A'] with m_children := [2] },
                      { fresh NodeClass.Node ['B'] with m_children := [2] },
                      { fresh NodeClass.BaseNode ['C'] with m_parent := some 1 }],
             log := example2.log ++ [Event.onParentChange 2 Change.REMOVE 0] } ∧
    destructor example2 1 =
      some { heap := [{ fresh NodeClass.Node ['A'] with m_children := [2] },
                      { fresh NodeClass.Node ['B'] with m_children := [2] },
                      { fresh NodeClass.BaseNode ['C'] with m_parent := some 0 }],
             log := example2.log ++ [Event.onParentChange 2 Change.REMOVE 1] } := by
  refine ⟨?_, by decide, by decide⟩
  obtain ⟨s', h1, h2, _, _, h5⟩ := C22_destructor_unlinks fnv1a example2 reachable_example2 0
    { fresh NodeClass.Node ['A'] with m_children := [2] } rfl
  obtain ⟨c, c', _, hc', h6, h7, _⟩ := h5 2 (by decide)
  exact ⟨s', h1, h2, c', hc', h6, h7⟩

/-! ## Attach, then detach -/

theorem unlink_parent_first {X : NodeId} {c c' : BaseNode} (hu : unlink X c = some c')
    (hc : c.m_parent = none → c.m_previousParents = []) :
    c'.m_parent = none → c'.m_previousParents = [] := by
  unfold unlink at hu
  by_cases hp : c.m_parent = some X
  · simp only [hp, if_true, Option.some.injEq] at hu
    subst hu
    intro hnone
    have hnil : c.m_previousParents = [] := List.getLast?_eq_none_iff.mp hnone
    simp [hnil]
  · simp only [hp, if_false] at hu
    by_cases hh : X ∈ c.m_previousParents
    · simp only [hh, if_true, Option.some.injEq] at hu
      subst hu
      intro hnone
      have hnil := hc hnone
      simp [hnil]
    · simp [hh] at hu

/-- In every reachable state a node without current parent has an empty history: the
current parent is only given up for the last history entry. -/
theorem reachable_parent_first {hash : List Char → Nat} {s : State} (hr : Reachable hash s) :
    ∀ (j : NodeId) (n : BaseNode), s.heap[j]? = some n →
      n.m_parent = none → n.m_previousParents = [] := by
  induction hr with
  | init => intro j n hj; simp at hj
  | @create s0 cls name _ ih =>
    intro j n hj
    rw [create_eq, getElem?_append_new] at hj
    by_cases hjl : j = s0.heap.length
    · rw [if_pos hjl] at hj
      cases hj
      intro _; rfl
    · rw [if_neg hjl] at hj
      exact ih j n hj
  | @addChild s0 s1 fuel P C b _ hadd ih =>
    obtain ⟨p, c, hP, hC, hcase⟩ := addChild_eq_some hadd
    rcases hcase with ⟨_, hs, _⟩ | ⟨_, _, _, evs, _, hs⟩
    · rw [hs]; exact ih
    · intro j n hj
      rw [hs] at hj
      simp only [getElem?_link, Option.map_eq_some'] at hj
      obtain ⟨n0, hn0, hn⟩ := hj
      have ih0 := ih j n0 hn0
      by_cases hCj : C = j
      · intro hnone
        rw [← hn] at hnone
        by_cases hPj : P = j <;> simp [hCj, hPj, reparent, pushChild] at hnone
      · rw [← hn]
        by_cases hPj : P = j <;> simpa [hCj, hPj, pushChild] using ih0
  | @removeChild s0 s1 fuel X name b _ hrem ih =>
    obtain ⟨x, hX, hcase⟩ := removeChild_eq_some hrem
    rcases hcase with ⟨_, hs⟩ | ⟨_, i, C, c, c', evs, _, _, hC, hu, _, hs⟩
    · rw [hs]; exact ih
    · intro j n hj
      rw [hs] at hj
      simp only [getElem?_modifyNode, getElem?_set_of_some c' hC] at hj
      have hbase : ∀ m, (if C = j then some c' else s0.heap[j]?) = some m →
          m.m_parent = none → m.m_previousParents = [] := by
        intro m hm
        by_cases hCj : C = j
        · rw [if_pos hCj] at hm
          cases hm
          exact unlink_parent_first hu (ih C c hC)
        · rw [if_neg hCj] at hm
          exact ih j m hm
      by_cases hXj : X = j
      · rw [if_pos hXj, Option.map_eq_some'] at hj
        obtain ⟨m, hm, hmn⟩ := hj
        rw [← hmn]
        exact hbase m hm
      · rw [if_neg hXj] at hj
        exact hbase n hj
  | @removeChildNode s0 s1 fuel X C b _ hrem ih =>
    obtain ⟨x, c, hX, hC, hcase⟩ := removeChildNode_eq_some hrem
    rcases hcase with ⟨_, hs, _⟩ | ⟨_, c', p, evs, hu, _, hp, _, hs⟩
    · rw [hs]; exact ih
    · intro j n hj
      rw [hs] at hj
      have hbase : ∀ m, (s0.heap.set C c')[j]? = some m →
          m.m_parent = none → m.m_previousParents = [] := by
        intro m hm
        rw [getElem?_set_of_some c' hC] at hm
        by_cases hCj : C = j
        · rw [if_pos hCj] at hm
          cases hm
          exact unlink_parent_first hu (ih C c hC)
        · rw [if_neg hCj] at hm
          exact ih j m hm
      rw [getElem?_set_of_some _ hp] at hj
      by_cases hXj : X = j
      · rw [if_pos hXj] at hj
        cases hj
        exact hbase p (hXj ▸ hp)
      · rw [if_neg hXj] at hj
        exact hbase n hj

/-- What `unlink` makes of a child that `addChild` has just put under `P`: the child
as it was before, when a node without parent has no history. -/
theorem unlink_reparent (P : NodeId) (c : BaseNode)
    (hfirst : c.m_parent = none → c.m_previousParents = []) :
    unlink P (reparent P c) = some c := by
  cases hp : c.m_parent with
  | none =>
    have hh := hfirst hp
    simp only [unlink, reparent, hp, hh, if_true, List.getLast?_nil, List.dropLast_nil]
    congr 1
    cases c
    simp_all
  | some q =>
    simp only [unlink, reparent, hp, if_true, List.getLast?_append, List.getLast?_singleton,
      List.dropLast_concat]
    congr 1
    cases c
    simp_all

/-- C23: attach, then detach is a round trip. In every reachable state, when
`addChild(P, C)` has returned `true`, the `removeChild(P, C)` that follows returns
`true` with the same fuel, by reference and by every name whose hash is the
`m_nameHash` of `C` (the constructor takes it of the name the node is made from and
nothing changes it); both leave the same state, whose heap is the heap before the
attach: the children of `P`, the current parent of `C` and the history of `C` have
the values they had. -/
theorem C23_attach_detach_round_trip (hash : List Char → Nat) (s : State)
    (hr : Reachable hash s) (fuel : Nat) (P C : NodeId) (s1 : State)
    (hadd : addChild fuel s P C = some (true, s1)) :
    ∃ s2, removeChildNode fuel s1 P C = some (true, s2) ∧
      (∀ name, nameHashOf s.heap C = some (hash name) →
        removeChild hash fuel s1 P name = some (true, s2)) ∧
      s2.heap = s.heap ∧
      childrenOf s2.heap P = childrenOf s.heap P ∧
      (∀ c, s.heap[C]? = some c →
        ∃ c2, s2.heap[C]? = some c2 ∧ c2.m_parent = c.m_parent ∧
          c2.m_previousParents = c.m_previousParents) ∧
      childrenOf s1.heap P = childrenOf s.heap P ++ [C] ∧
      (∃ c1, s1.heap[C]? = some c1 ∧ c1.m_parent = some P) := by
  have hinv := reachable_inv hr
  have hinv1 := reachable_inv (Reachable.addChild hr hadd)
  obtain ⟨hl, _⟩ := addChild_linked hadd
  obtain ⟨p, c, hP, hC, hcase⟩ := addChild_eq_some hadd
  rcases hcase with ⟨hb, _⟩ | ⟨_, _, hfresh, evs, hprop, hs1⟩
  · cases hb
  have hheap : s1.heap = link s.heap P C := by rw [hs1]
  have hPC : P ≠ C := by
    intro heq
    have hs := hinv1.settles C (by rw [hl.len]; exact hl.validC)
    apply not_mem_parents_of_settles hs
    rw [hl.parents]
    simp [heq]
  have hCP : C ≠ P := fun e => hPC e.symm
  have hC1 : s1.heap[C]? = some (reparent P c) := by
    rw [hheap, getElem?_link, hC]; simp [hPC]
  have hP1 : s1.heap[P]? = some (pushChild C p) := by
    rw [hheap, getElem?_link, hP]; simp [hCP]
  have hu : unlink P (reparent P c) = some c :=
    unlink_reparent P c (reachable_parent_first hr C c hC)
  have hsome : (propagateSubChildChange fuel (s1.heap.set C c) P Change.REMOVE C).isSome
      = true := by
    have h0 : (propagateSubChildChange fuel s1.heap P Change.REMOVE C).isSome = true :=
      propagate_isSome_indep _ Change.ADD _ C _ fuel P (by rw [hheap, hprop]; rfl)
    apply propagate_isSome_of_subset s1.heap _ _ _ (by simp) _ fuel P h0
    intro a b hb
    by_cases ha : a = C
    · subst ha
      have hb' : b ∈ parentsOf c := by
        simpa [parentsIn, getElem?_set_of_some _ hC1] using hb
      have hsub := (unlink_spec hu).2.2.2.2.2.1
      simpa [parentsIn, hC1] using hsub.subset hb'
    · have ha' : ¬ C = a := fun e => ha e.symm
      simpa [parentsIn, getElem?_set_of_some _ hC1, ha'] using hb
  obtain ⟨evs', hevs'⟩ := Option.isSome_iff_exists.mp hsome
  have hmemP : C ∈ (pushChild C p).m_children := by simp [pushChild]
  have hnot : C ∉ p.m_children := by
    intro hmem
    have hne := hl.fresh C (by simpa only [childrenOf, hP] using hmem)
    exact hne rfl
  have hremN := removeChildNode_of hP1 hC1 hu hevs' hmemP
  have hback : (removed s1 P C c evs').heap = s.heap := by
    apply List.ext_getElem?
    intro j
    simp only [removed, getElem?_modifyNode, getElem?_set_of_some _ hC1]
    by_cases hPj : P = j
    · subst hPj
      simp only [if_true, hCP, if_false, hP1, Option.map_some', hP]
      congr 1
      cases p
      simp only [pushChild, BaseNode.mk.injEq, and_true, true_and] at hnot ⊢
      rw [List.erase_append_right _ hnot]
      simp
    · simp only [hPj, if_false]
      by_cases hCj : C = j
      · subst hCj
        simp [hC]
      · simp only [hCj, if_false, hheap, getElem?_link, hPj]
        cases s.heap[j]? <;> simp
  refine ⟨removed s1 P C c evs', hremN, ?_, hback, by rw [hback], ?_, ?_, ⟨_, hC1, rfl⟩⟩
  · intro name hname
    obtain ⟨i, hfind, hi⟩ := findChildByHash_of_mem s1.heap (hash name)
      (pushChild C p).m_children C
      (by simpa [childrenOf, hP1] using hinv1.hashes P) hmemP
      (by rw [hl.hash]; exact hname)
    exact removeChild_of hP1 hfind hi hC1 hu hevs'
  · intro c0 hc0
    rw [hback]
    exact ⟨c0, hc0, rfl, rfl⟩
  · rw [hl.children]
    simp

theorem C23_attach_detach_round_trip_witness :
    addChild 1 example1 1 2 = some (true, example2) ∧
    ∃ s2, removeChildNode 1 example2 1 2 = some (true, s2) ∧
      removeChild fnv1a 1 example2 1 ['C'] = some (true, s2) ∧
      s2.heap = example1.heap ∧
      childrenOf s2.heap 1 = [] ∧ childrenOf example2.heap 1 = [2] := by
  refine ⟨addChild_example1, ?_⟩
  obtain ⟨s2, h1, h2, h3, _, _, _, _⟩ :=
    C23_attach_detach_round_trip fnv1a example1 reachable_example1 1 1 2 example2
      addChild_example1
  refine ⟨s2, h1, h2 ['C'] (by decide), h3, ?_, by decide⟩
  rw [h3]
  decide

end cpptree
